import Mathlib

/-!
Verification development for the hierarchical pathfinding library.

The development shallowly embeds `src/path_cache.rs` (the `PathCache`
coordinator: queries, incremental update, cross-chunk stitching) together
with models of the collaborator modules that the crate references but whose
sources are not part of this repository snapshot (the `graph`, `path`,
`neighbors`, `chunk` and grid-kernel modules).  Definitions for those
missing modules are marked `Modelled from the spec:` and follow the
specification's description of their behaviour; everything else is a direct
translation of the Rust source.

Conventions:
- `Point` is a pair of naturals, as in the Rust `(usize, usize)`.
- Rust panics are modelled by `Except String`; `.error` is a panic.
- Hash maps (`PointMap`, `NodeIDMap`) are modelled as association lists in
  insertion order; `HashMap::insert` replaces in place or appends.
- The cost function has type `Point → Int` (the Rust `isize`); negative
  values are walls.
-/

namespace HPA

/-- Point on the grid, `(x, y)` with `x` the column, as in the source. -/
abbrev Point := Nat × Nat

/-- NodeID handle into the node slab, modelled as a natural number. -/
abbrev NodeID := Nat

/-- CostFn is the caller-supplied cost function `Point → isize`. -/
abbrev CostFn := Point → Int

/-! ### Association list helpers

The crate's `PointMap` / `NodeIDMap` / `NodeIDSet` are hash containers; we
model them as association lists kept in insertion order (first insertion
wins the position; re-insertion replaces the value in place). -/

/-- alookup finds the value bound to a key in an association list. -/
def alookup {κ α : Type} [DecidableEq κ] (k : κ) : List (κ × α) → Option α
  | [] => none
  | (k', v) :: rest => if k' = k then some v else alookup k rest

/-- ainsert binds a key, replacing in place if present, appending if not. -/
def ainsert {κ α : Type} [DecidableEq κ] (k : κ) (v : α) : List (κ × α) → List (κ × α)
  | [] => [(k, v)]
  | (k', v') :: rest => if k' = k then (k, v) :: rest else (k', v') :: ainsert k v rest

/-- aerase removes the binding of a key from an association list. -/
def aerase {κ α : Type} [DecidableEq κ] (k : κ) : List (κ × α) → List (κ × α)
  | [] => []
  | (k', v') :: rest => if k' = k then rest else (k', v') :: aerase k rest

/-- amodify applies a function to the value bound to a key, if present. -/
def amodify {κ α : Type} [DecidableEq κ] (k : κ) (f : α → α) : List (κ × α) → List (κ × α)
  | [] => []
  | (k', v') :: rest => if k' = k then (k', f v') :: rest else (k', v') :: amodify k f rest

/-! ### Paths and path segments

Modelled from the spec: the `path` module is not part of the snapshot.
`Path` is an ordered tile (or node) sequence with a total cost; the cost of
a step is the cost of the tile being entered, so the start tile's cost is
not counted.  `PathSegment` is the reified edge payload: with `cache_paths`
on it stores the full tile path, with it off only the two endpoints and the
cost (spec section 3, "PathSegment"). -/

/-- Path over an element type: ordered sequence plus total cost. -/
structure Path (α : Type) where
  seq : List α
  cost : Nat
  deriving Repr, DecidableEq

/-- reversed turns a path from a to b into the path from b to a, keeping
the stored cost (used for goal-side attach paths and reverse edges). -/
def Path.reversed {α : Type} (p : Path α) : Path α :=
  { seq := p.seq.reverse, cost := p.cost }

/-- PathSegment: edge payload.  When `cached` it carries the full tile
sequence, otherwise just the endpoints; the cost is always present. -/
structure PathSegment where
  pts : List Point
  cost : Nat
  cached : Bool
  deriving Repr, DecidableEq

/-- PathSegment.new reifies a tile path, keeping the full sequence exactly
when `cache_paths` is set (spec section 3, "PathSegment"). -/
def PathSegment.new (p : Path Point) (cachePaths : Bool) : PathSegment :=
  if cachePaths then
    { pts := p.seq, cost := p.cost, cached := true }
  else
    { pts := [p.seq.headI, p.seq.getLastI], cost := p.cost, cached := false }

/-- reversedSeg is the segment seen from the other endpoint: same cost,
reversed tile sequence (spec: bidirectional with an equivalent segment). -/
def PathSegment.reversedSeg (s : PathSegment) : PathSegment :=
  { pts := s.pts.reverse, cost := s.cost, cached := s.cached }

/-! ### Nodes and the node list

Modelled from the spec: the `graph` module is not part of the snapshot.
A node is `{ pos, walk_cost, edges }`; the `NodeList` is the slab of nodes
plus the reverse index `pos → NodeID` (here recovered by search), with
`add_edge` storing both directions (spec section 3, "NodeList": edges are
stored bidirectionally with an equivalent segment) and `remove_node`
removing the node and every edge referring to it (spec: every `edges` key
refers to a live node). -/

/-- Node record: position, cost of entering the node's tile, edge map. -/
structure Node where
  pos : Point
  walk_cost : Nat
  edges : List (NodeID × PathSegment)
  deriving Repr, DecidableEq

/-- NodeList: slab of nodes (in insertion order) plus the next fresh id. -/
structure NodeList where
  arr : List (NodeID × Node)
  next : NodeID
  deriving Repr, DecidableEq

/-- emptyNodes is the node list produced by `NodeList::new()`. -/
def NodeList.empty : NodeList := { arr := [], next := 0 }

/-- get? looks a node up by id. -/
def NodeList.get? (nl : NodeList) (id : NodeID) : Option Node :=
  alookup id nl.arr

/-- len is the number of live nodes. -/
def NodeList.len (nl : NodeList) : Nat := nl.arr.length

/-- id_at recovers the id of the node at a position, if any. -/
def NodeList.id_at (nl : NodeList) (p : Point) : Option NodeID :=
  (nl.arr.find? (fun e => e.2.pos = p)).map (·.1)

/-- add_node inserts a fresh node with no edges and returns its id. -/
def NodeList.add_node (nl : NodeList) (p : Point) (walkCost : Nat) : NodeList × NodeID :=
  ({ arr := nl.arr ++ [(nl.next, { pos := p, walk_cost := walkCost, edges := [] })],
     next := nl.next + 1 }, nl.next)

/-- add_edge stores the segment on `id → other` and the reversed segment on
`other → id` (spec: edges are stored bidirectionally). -/
def NodeList.add_edge (nl : NodeList) (id other : NodeID) (seg : PathSegment) : NodeList :=
  let step1 := amodify id (fun n => { n with edges := ainsert other seg n.edges }) nl.arr
  let step2 := amodify other (fun n => { n with edges := ainsert id seg.reversedSeg n.edges }) step1
  { nl with arr := step2 }

/-- remove_node deletes a node and scrubs every edge referring to it. -/
def NodeList.remove_node (nl : NodeList) (id : NodeID) : NodeList :=
  let cleaned := (aerase id nl.arr).map (fun e => (e.1, { e.2 with edges := aerase id e.2.edges }))
  { nl with arr := cleaned }

/-- edgeSeg reads the segment stored on the directed edge `a → b`. -/
def NodeList.edgeSeg (nl : NodeList) (a b : NodeID) : Option PathSegment :=
  (nl.get? a).bind (fun n => alookup b n.edges)

/-! ### Directions

Modelled from the spec: the four cardinal sides of a chunk, with `num`
indices, opposites, and `jump_in_dir` which moves a point by a distance in
a direction, failing at the grid boundary. -/

/-- Dir enumerates the four cardinal directions. -/
inductive Dir where
  | up
  | right
  | down
  | left
  deriving Repr, DecidableEq

/-- all lists the four directions in a fixed order. -/
def Dir.all : List Dir := [.up, .right, .down, .left]

/-- num gives the side index used by `Chunk.sides`. -/
def Dir.num : Dir → Nat
  | .up => 0
  | .right => 1
  | .down => 2
  | .left => 3

/-- opposite gives the mirror direction. -/
def Dir.opposite : Dir → Dir
  | .up => .down
  | .right => .left
  | .down => .up
  | .left => .right

/-- jumpInDir moves a point by `dist` tiles in a direction, returning none
when the move would leave the rectangle `[0, maxp)`. -/
def jumpInDir (p : Point) (d : Dir) (dist : Nat) (maxp : Point) : Option Point :=
  match d with
  | .up => if dist ≤ p.2 then some (p.1, p.2 - dist) else none
  | .left => if dist ≤ p.1 then some (p.1 - dist, p.2) else none
  | .right => if p.1 + dist < maxp.1 then some (p.1 + dist, p.2) else none
  | .down => if p.2 + dist < maxp.2 then some (p.1, p.2 + dist) else none

/-! ### Manhattan neighborhood

Modelled from the spec: the neighborhood is an external collaborator
(spec section 4.1); we instantiate the 4-way Manhattan neighborhood used by
every scenario in the spec.  `allNeighbors` also yields tiles that are out
of bounds on the high side (used to detect border-crossing adjacency);
`neighbors` filters to in-bounds tiles; `heuristic` is the Manhattan
distance, an admissible lower bound for 4-way movement. -/

/-- Nbh is the 4-way Manhattan neighborhood over a `w × h` grid. -/
structure Nbh where
  w : Nat
  h : Nat
  deriving Repr, DecidableEq

/-- inBounds tests that a point lies on the grid. -/
def Nbh.inBounds (nb : Nbh) (p : Point) : Bool :=
  decide (p.1 < nb.w) && decide (p.2 < nb.h)

/-- allNeighbors lists the 4-way neighbor tiles of a point, including tiles
beyond the grid's right and bottom edges. -/
def Nbh.allNeighbors (p : Point) : List Point :=
  (if 0 < p.2 then [(p.1, p.2 - 1)] else []) ++
    (if 0 < p.1 then [(p.1 - 1, p.2)] else []) ++
    [(p.1 + 1, p.2), (p.1, p.2 + 1)]

/-- neighbors lists the in-bounds 4-way neighbor tiles of a point. -/
def Nbh.neighbors (nb : Nbh) (p : Point) : List Point :=
  (Nbh.allNeighbors p).filter nb.inBounds

/-- heuristic is the Manhattan distance between two points. -/
def Nbh.heuristic (a b : Point) : Nat :=
  (max a.1 b.1 - min a.1 b.1) + (max a.2 b.2 - min a.2 b.2)

/-! ### Grid search kernel

Modelled from the spec: the grid A* and Dijkstra kernels (section 4.2) are
not part of the snapshot.  One fuel-bounded uniform-cost loop settles tiles
in deterministic best-first order (frontier kept sorted by priority,
insertion-stable); A* adds an admissible heuristic to the priority, and the
callers read the answers off the settle-ordered result.  The cost of a step
is the cost of the tile being entered. -/

/-- FEntry is a frontier entry: priority, position, path cost so far, and
the settled predecessor it was reached from. -/
structure FEntry where
  prio : Nat
  pos : Point
  g : Nat
  parent : Option Point
  deriving Repr, DecidableEq

/-- SEntry is a settled tile: position, optimal cost, predecessor. -/
structure SEntry where
  pos : Point
  g : Nat
  parent : Option Point
  deriving Repr, DecidableEq

/-- finsert inserts a frontier entry keeping the list sorted by priority;
entries of equal priority keep their insertion order. -/
def finsert (e : FEntry) : List FEntry → List FEntry
  | [] => [e]
  | x :: xs => if x.prio ≤ e.prio then x :: finsert e xs else e :: x :: xs

/-- searchLoop settles tiles best-first: pops the least-priority entry,
skips already-settled positions, otherwise settles it and pushes its
enterable neighbors.  `enter p` gives the walk cost of `p`, or none when
`p` is impassable or outside the search region. -/
def searchLoop (neighborsOf : Point → List Point) (enter : Point → Option Nat)
    (hfun : Point → Nat) : Nat → List FEntry → List SEntry → List SEntry
  | 0, _, settled => settled.reverse
  | _ + 1, [], settled => settled.reverse
  | fuel + 1, e :: rest, settled =>
    if (settled.find? (fun s => s.pos = e.pos)).isSome then
      searchLoop neighborsOf enter hfun fuel rest settled
    else
      let settled' := ⟨e.pos, e.g, e.parent⟩ :: settled
      let front' := (neighborsOf e.pos).foldl
        (fun acc q =>
          match enter q with
          | none => acc
          | some w => finsert ⟨e.g + w + hfun q, q, e.g + w, some e.pos⟩ acc)
        rest
      searchLoop neighborsOf enter hfun fuel front' settled'

/-- runSearch starts the loop from a start tile with cost 0.  The start is
settled unconditionally, matching the kernels' contract that start
passability is the caller's concern. -/
def runSearch (neighborsOf : Point → List Point) (enter : Point → Option Nat)
    (hfun : Point → Nat) (start : Point) (fuel : Nat) : List SEntry :=
  searchLoop neighborsOf enter hfun fuel [⟨hfun start, start, 0, none⟩] []

/-- buildSeq reconstructs the tile sequence ending at a settled point by
following predecessors. -/
def buildSeq (settled : List SEntry) : Nat → Point → Option (List Point)
  | 0, _ => none
  | fuel + 1, p =>
    match settled.find? (fun s => s.pos = p) with
    | none => none
    | some s =>
      match s.parent with
      | none => some [p]
      | some q => (buildSeq settled fuel q).map (fun l => l ++ [p])

/-- settledCost reads the settled cost of a point, if it was reached. -/
def settledCost (settled : List SEntry) (p : Point) : Option Nat :=
  (settled.find? (fun s => s.pos = p)).map (·.g)

/-- gridFuel is a generous fuel bound for a search over an area. -/
def gridFuel (area : Nat) : Nat := (area + 2) * (4 * area + 8)

/-- gridAStar is the grid A* kernel: best-first with the Manhattan
heuristic, restricted by the passability predicate. -/
def gridAStar (passable : Point → Bool) (cost : CostFn) (area : Nat)
    (start goal : Point) : Option (Path Point) :=
  let enter := fun p => if passable p && decide (0 ≤ cost p) then some (cost p).toNat else none
  let settled := runSearch Nbh.allNeighbors enter (fun p => Nbh.heuristic p goal) start
    (gridFuel area)
  match settledCost settled goal with
  | none => none
  | some g => (buildSeq settled (settled.length + 1) goal).map (fun l => ⟨l, g⟩)

/-- gridDijkstraSettled is the multi-goal grid Dijkstra kernel's settle
order: tiles in nondecreasing cost order with predecessors. -/
def gridDijkstraSettled (passable : Point → Bool) (cost : CostFn) (area : Nat)
    (start : Point) : List SEntry :=
  let enter := fun p => if passable p && decide (0 ≤ cost p) then some (cost p).toNat else none
  runSearch Nbh.allNeighbors enter (fun _ => 0) start (gridFuel area)

/-- gridDijkstraPath reads one goal's path off a Dijkstra settle order. -/
def gridDijkstraPath (settled : List SEntry) (goal : Point) : Option (Path Point) :=
  match settledCost settled goal with
  | none => none
  | some g => (buildSeq settled (settled.length + 1) goal).map (fun l => ⟨l, g⟩)

/-! ### Configuration

Modelled from the spec: `cache_config.rs` is not part of the snapshot; the
spec lists the closed option set (section 6). -/

/-- PathCacheConfig holds the closed set of configuration options. -/
structure PathCacheConfig where
  chunk_size : Nat
  cache_paths : Bool
  a_star_fallback : Bool
  perfect_paths : Bool
  deriving Repr, DecidableEq

/-- withChunkSize is the `PathCacheConfig::with_chunk_size` constructor:
defaults with the given chunk size. -/
def PathCacheConfig.withChunkSize (n : Nat) : PathCacheConfig :=
  { chunk_size := n, cache_paths := true, a_star_fallback := true, perfect_paths := false }

/-! ### Chunk

Modelled from the spec: `chunk.rs` is not part of the snapshot.  A chunk is
a fixed-size square region with a node id set and four side flags
(section 3, "Chunk"); border-node placement follows section 4.4: for every
side with an adjacent chunk, each maximal passable run contributes its two
endpoints plus interior points spaced at most the threshold
(`chunk_size / 2`) apart; intra-chunk edges come from grid A* restricted to
the chunk's rectangle. -/

/-- Chunk record: origin, size, node id set, and active-side flags indexed
by `Dir.num`. -/
structure Chunk where
  pos : Point
  size_w : Nat
  size_h : Nat
  nodes : List NodeID
  sides : List Bool
  deriving Repr, DecidableEq

/-- inChunk tests that a point lies in the chunk's rectangle. -/
def Chunk.inChunk (c : Chunk) (p : Point) : Bool :=
  decide (c.pos.1 ≤ p.1) && decide (p.1 < c.pos.1 + c.size_w) &&
    decide (c.pos.2 ≤ p.2) && decide (p.2 < c.pos.2 + c.size_h)

/-- at_side tests that a point lies on the chunk's boundary row or column
in the given direction. -/
def Chunk.at_side (c : Chunk) (p : Point) (d : Dir) : Bool :=
  match d with
  | .up => decide (p.2 = c.pos.2)
  | .down => decide (p.2 + 1 = c.pos.2 + c.size_h)
  | .left => decide (p.1 = c.pos.1)
  | .right => decide (p.1 + 1 = c.pos.1 + c.size_w)

/-- is_corner tests that a point lies on two sides of the chunk at once. -/
def Chunk.is_corner (c : Chunk) (p : Point) : Bool :=
  (c.at_side p .up || c.at_side p .down) && (c.at_side p .left || c.at_side p .right)

/-- sideTiles lists the tiles of a side in increasing coordinate order. -/
def Chunk.sideTiles (c : Chunk) (d : Dir) : List Point :=
  match d with
  | .up => (List.range c.size_w).map (fun i => (c.pos.1 + i, c.pos.2))
  | .down => (List.range c.size_w).map (fun i => (c.pos.1 + i, c.pos.2 + c.size_h - 1))
  | .left => (List.range c.size_h).map (fun i => (c.pos.1, c.pos.2 + i))
  | .right => (List.range c.size_h).map (fun i => (c.pos.1 + c.size_w - 1, c.pos.2 + i))

/-- splitRunsAux accumulates the current passable run while splitting. -/
def splitRunsAux (cost : CostFn) : List Point → List Point → List (List Point)
  | [], cur => if cur.isEmpty then [] else [cur.reverse]
  | p :: rest, cur =>
    if 0 ≤ cost p then splitRunsAux cost rest (p :: cur)
    else if cur.isEmpty then splitRunsAux cost rest []
    else cur.reverse :: splitRunsAux cost rest []

/-- splitRuns cuts a side's tile list into maximal passable runs. -/
def splitRuns (cost : CostFn) (tiles : List Point) : List (List Point) :=
  splitRunsAux cost tiles []

/-- placeRun selects border-node positions on one passable run: both run
endpoints, plus interior points so that consecutive selections are at most
the threshold apart. -/
def placeRun (t : Nat) (run : List Point) : List Point :=
  let n := run.length
  ((List.range n).filter (fun i => i % t = 0 || i + 1 = n)).filterMap (fun i => run.get? i)

/-- nodeThreshold is the maximal spacing of border nodes along a run. -/
def nodeThreshold (config : PathCacheConfig) : Nat :=
  max 1 (config.chunk_size / 2)

/-- calculate_side_nodes recomputes the candidate border-node positions on
one side of the chunk. -/
def Chunk.calculate_side_nodes (c : Chunk) (d : Dir) (cost : CostFn)
    (config : PathCacheConfig) : List Point :=
  if c.sides.getD d.num false then
    (splitRuns cost (c.sideTiles d)).flatMap (placeRun (nodeThreshold config))
  else
    []

/-- insertPointSet appends a point to a point set if it is not present. -/
def insertPointSet (p : Point) (s : List Point) : List Point :=
  if p ∈ s then s else s ++ [p]

/-- candidateNodes collects the border-node candidates of every active
side, as a set in first-encounter order (corners are emitted once). -/
def Chunk.candidateNodes (c : Chunk) (cost : CostFn) (config : PathCacheConfig) : List Point :=
  Dir.all.foldl (fun acc d => (c.calculate_side_nodes d cost config).foldl
    (fun acc' p => insertPointSet p acc') acc) []

/-- area of the chunk, used as a search-fuel bound. -/
def Chunk.area (c : Chunk) : Nat := c.size_w * c.size_h

/-- find_path runs grid A* restricted to the chunk's rectangle. -/
def Chunk.find_path (c : Chunk) (start goal : Point) (cost : CostFn) : Option (Path Point) :=
  gridAStar c.inChunk cost c.area start goal

/-- addNodeEdges extends the intra-chunk edges of one node: a grid A* to
every other node of the chunk, adding a bidirectional edge on success. -/
def Chunk.addNodeEdges (c : Chunk) (id : NodeID) (cost : CostFn) (nl : NodeList)
    (config : PathCacheConfig) : NodeList :=
  match nl.get? id with
  | none => nl
  | some n =>
    c.nodes.foldl
      (fun acc other =>
        if other = id then acc
        else
          match acc.get? other with
          | none => acc
          | some m =>
            match c.find_path n.pos m.pos cost with
            | none => acc
            | some p => acc.add_edge id other (PathSegment.new p config.cache_paths))
      nl

/-- add_nodes inserts ids into the chunk's node set one at a time, adding
intra-chunk edges from each to all nodes already in the set. -/
def Chunk.add_nodes (c : Chunk) (ids : List NodeID) (cost : CostFn) (nl : NodeList)
    (config : PathCacheConfig) : Chunk × NodeList :=
  ids.foldl
    (fun (acc : Chunk × NodeList) id =>
      let nl' := acc.1.addNodeEdges id cost acc.2 config
      ({ acc.1 with nodes := if id ∈ acc.1.nodes then acc.1.nodes else acc.1.nodes ++ [id] }, nl'))
    (c, nl)

/-- nearest_node snaps an off-node tile to the chunk's node set: a grid
Dijkstra inside the chunk until the first tile carrying a node of the set
settles; the attach path is reversed for goal-side attachment. -/
def Chunk.nearest_node (c : Chunk) (nl : NodeList) (p : Point) (cost : CostFn)
    (reverse : Bool) : Option (NodeID × Path Point) :=
  if cost p < 0 then none else
  let settled := gridDijkstraSettled c.inChunk cost c.area p
  let hit := settled.find? (fun s =>
    match nl.id_at s.pos with
    | none => false
    | some id => id ∈ c.nodes)
  match hit with
  | none => none
  | some s =>
    match nl.id_at s.pos, gridDijkstraPath settled s.pos with
    | some id, some path => some (id, if reverse then path.reversed else path)
    | _, _ => none

/-- find_paths runs the intra-chunk multi-goal Dijkstra; a goal equal to
the start yields the degenerate path in its `[start, start]` encoding
(spec section 8, boundary behaviors). -/
def Chunk.find_paths (c : Chunk) (start : Point) (goals : List Point) (cost : CostFn) :
    List (Point × Path Point) :=
  let settled := gridDijkstraSettled c.inChunk cost c.area start
  goals.filterMap (fun goal =>
    if goal = start then some (goal, ⟨[start, start], 0⟩)
    else (gridDijkstraPath settled goal).map (fun p => (goal, p)))

/-- chunkSides computes the active-side flags of a chunk at an origin. -/
def chunkSides (origin : Point) (w h : Nat) (gridSize : Point) : List Bool :=
  [decide (0 < origin.2), decide (origin.1 + w < gridSize.1),
    decide (origin.2 + h < gridSize.2), decide (0 < origin.1)]

/-- Chunk.new builds one chunk: places border nodes on every active side,
registers them in the node list with their walk costs, and seeds the
intra-chunk edges. -/
def Chunk.new (origin : Point) (w h : Nat) (gridSize : Point) (cost : CostFn)
    (nl : NodeList) (config : PathCacheConfig) : Chunk × NodeList :=
  let base : Chunk :=
    { pos := origin, size_w := w, size_h := h, nodes := [],
      sides := chunkSides origin w h gridSize }
  let cands := base.candidateNodes cost config
  let created := cands.foldl
    (fun (acc : NodeList × List NodeID) p =>
      let r := acc.1.add_node p (cost p).toNat
      (r.1, acc.2 ++ [r.2]))
    (nl, [])
  base.add_nodes created.2 cost created.1 config

/-! ### Graph search kernels

Modelled from the spec: the `graph` kernels (section 4.3) are not part of
the snapshot.  The same best-first loop runs over the node graph, with edge
weights taken from the stored segments; the Dijkstra variant reports goals
in settle order, and `only_closest` reports only the first settled goal. -/

/-- GFEntry is a graph-frontier entry. -/
structure GFEntry where
  prio : Nat
  id : NodeID
  g : Nat
  parent : Option NodeID
  deriving Repr, DecidableEq

/-- GSEntry is a settled graph node. -/
structure GSEntry where
  id : NodeID
  g : Nat
  parent : Option NodeID
  deriving Repr, DecidableEq

/-- gfinsert inserts into the graph frontier, sorted stably by priority. -/
def gfinsert (e : GFEntry) : List GFEntry → List GFEntry
  | [] => [e]
  | x :: xs => if x.prio ≤ e.prio then x :: gfinsert e xs else e :: x :: xs

/-- graphLoop settles graph nodes best-first along stored edges. -/
def graphLoop (succ : NodeID → List (NodeID × Nat)) (hfun : NodeID → Nat) :
    Nat → List GFEntry → List GSEntry → List GSEntry
  | 0, _, settled => settled.reverse
  | _ + 1, [], settled => settled.reverse
  | fuel + 1, e :: rest, settled =>
    if (settled.find? (fun s => s.id = e.id)).isSome then
      graphLoop succ hfun fuel rest settled
    else
      let settled' := ⟨e.id, e.g, e.parent⟩ :: settled
      let front' := (succ e.id).foldl
        (fun acc q => gfinsert ⟨e.g + q.2 + hfun q.1, q.1, e.g + q.2, some e.id⟩ acc)
        rest
      graphLoop succ hfun fuel front' settled'

/-- graphSucc reads a node's outgoing edges as (neighbor, cost) pairs. -/
def graphSucc (nl : NodeList) (id : NodeID) : List (NodeID × Nat) :=
  match nl.get? id with
  | none => []
  | some n => n.edges.map (fun e => (e.1, e.2.cost))

/-- graphFuel is a generous fuel bound for a node-graph search. -/
def graphFuel (n : Nat) : Nat := (n + 2) * (n + 3)

/-- graphSettled runs the loop over the whole reachable node graph. -/
def graphSettled (nl : NodeList) (start : NodeID) (hfun : NodeID → Nat) : List GSEntry :=
  graphLoop (graphSucc nl) hfun (graphFuel nl.len) [⟨hfun start, start, 0, none⟩] []

/-- buildNodeSeq reconstructs a node sequence by following predecessors. -/
def buildNodeSeq (settled : List GSEntry) : Nat → NodeID → Option (List NodeID)
  | 0, _ => none
  | fuel + 1, id =>
    match settled.find? (fun s => s.id = id) with
    | none => none
    | some s =>
      match s.parent with
      | none => some [id]
      | some q => (buildNodeSeq settled fuel q).map (fun l => l ++ [id])

/-- nodePosD reads a node's position, defaulting for dead ids (the source
indexes the slab and would panic there; live ids are the callers'
invariant). -/
def nodePosD (nl : NodeList) (id : NodeID) : Point :=
  match nl.get? id with
  | none => (0, 0)
  | some n => n.pos

/-- graphAStarSearch is `graph::a_star_search`: best-first over the node
graph guided by the Manhattan heuristic between node positions. -/
def graphAStarSearch (nl : NodeList) (start goal : NodeID) : Option (Path NodeID) :=
  let gp := nodePosD nl goal
  let settled := graphSettled nl start (fun id => Nbh.heuristic (nodePosD nl id) gp)
  match settled.find? (fun s => s.id = goal) with
  | none => none
  | some s => (buildNodeSeq settled (settled.length + 1) goal).map (fun l => ⟨l, s.g⟩)

/-- graphDijkstraSearch is `graph::dijkstra_search`: uniform-cost over the
node graph; reports each settled goal with its path in settle order, and
with `only_closest` only the first settled goal. -/
def graphDijkstraSearch (nl : NodeList) (start : NodeID) (goals : List NodeID)
    (only_closest : Bool) : List (NodeID × Path NodeID) :=
  let settled := graphSettled nl start (fun _ => 0)
  let hits := settled.filter (fun s => s.id ∈ goals)
  let hits' := if only_closest then hits.take 1 else hits
  hits'.filterMap (fun s =>
    (buildNodeSeq settled (settled.length + 1) s.id).map (fun l => (s.id, (⟨l, s.g⟩ : Path NodeID))))

/-! ### Abstract paths

Modelled from the spec: `AbstractPath` (the lazy iterator of the `path`
module) is represented by its observable content — the materialized tile
sequence (including the start tile) and the total cost.  Appending a path
or a segment drops the shared first tile.  For an uncached segment the
stored endpoints stand in for the tile stream; its lazy rematerialization
(`safe_next`) is outside the claims' scope. -/

/-- APath is the observable content of an `AbstractPath`. -/
structure APath where
  seq : List Point
  cost : Nat
  deriving Repr, DecidableEq

/-- fromKnown wraps a completely known tile path. -/
def APath.fromKnown (p : Path Point) : APath := ⟨p.seq, p.cost⟩

/-- newFrom starts an empty abstract path at a tile. -/
def APath.newFrom (start : Point) : APath := ⟨[start], 0⟩

/-- addPath appends a tile path, dropping its first (shared) tile. -/
def APath.addPath (a : APath) (p : Path Point) : APath :=
  ⟨a.seq ++ p.seq.drop 1, a.cost + p.cost⟩

/-- addSegment appends an edge segment, dropping its first (shared) tile. -/
def APath.addSegment (a : APath) (s : PathSegment) : APath :=
  ⟨a.seq ++ s.pts.drop 1, a.cost + s.cost⟩

/-! ### PathCache

Direct translation of `src/path_cache.rs` (sequential code paths; the
`parallel` feature fans the same per-chunk work across a pool and is
observably equivalent per spec section 5). -/

/-- PathCache record, as in the source. -/
structure PathCache where
  width : Nat
  height : Nat
  chunks : List Chunk
  num_chunks : Nat × Nat
  nodes : NodeList
  config : PathCacheConfig
  deriving Repr, DecidableEq

/-- defaultChunk is a placeholder for out-of-range chunk indexing (the
source would panic; all uses are guarded by bounds checks). -/
def defaultChunk : Chunk :=
  { pos := (0, 0), size_w := 0, size_h := 0, nodes := [], sides := [false, false, false, false] }

/-- in_bounds as in the source. -/
def PathCache.in_bounds (c : PathCache) (p : Point) : Bool :=
  decide (p.1 < c.width) && decide (p.2 < c.height)

/-- get_chunk_pos as in the source: the origin of the chunk containing a
point. -/
def PathCache.get_chunk_pos (c : PathCache) (p : Point) : Point :=
  let size := c.config.chunk_size
  ((p.1 / size) * size, (p.2 / size) * size)

/-- get_chunk_index as in the source: row-major chunk index. -/
def PathCache.get_chunk_index (c : PathCache) (p : Point) : Nat :=
  let size := c.config.chunk_size
  (p.2 / size) * c.num_chunks.1 + p.1 / size

/-- get_chunk as in the source. -/
def PathCache.get_chunk (c : PathCache) (p : Point) : Chunk :=
  c.chunks.getD (c.get_chunk_index p) defaultChunk

/-- setChunk writes back a chunk at an index. -/
def PathCache.setChunk (c : PathCache) (i : Nat) (ch : Chunk) : PathCache :=
  { c with chunks := c.chunks.set i ch }

/-- same_chunk as in the source. -/
def PathCache.same_chunk (c : PathCache) (a b : Point) : Bool :=
  let size := c.config.chunk_size
  decide (a.1 / size = b.1 / size) && decide (a.2 / size = b.2 / size)

/-- node_at as in the source. -/
def PathCache.node_at (c : PathCache) (p : Point) : Option NodeID :=
  c.nodes.id_at p

/-- find_nearest_node as in the source: the node at the tile itself if
any, else the chunk's nearest node with its attach path. -/
def PathCache.find_nearest_node (c : PathCache) (p : Point) (cost : CostFn)
    (reverse : Bool) : Option (NodeID × Option (Path Point)) :=
  match c.node_at p with
  | some id => some (id, none)
  | none =>
    ((c.get_chunk p).nearest_node c.nodes p cost reverse).map (fun r => (r.1, some r.2))

/-- grid_a_star as in the source: a whole-grid A* with a trivial
passability predicate. -/
def PathCache.grid_a_star (c : PathCache) (start goal : Point) (cost : CostFn) :
    Option (Path Point) :=
  gridAStar (Nbh.inBounds ⟨c.width, c.height⟩) cost (c.width * c.height) start goal

/-- connectStep is the body of the `connect_nodes` collection loop
(`convert` in the source): mark the node as seen, then for every
all-neighbor tile holding a node that is neither already linked nor already
seen, record a trivial two-tile segment carrying the processed node's
`walk_cost`. -/
def PathCache.connectStep (c : PathCache)
    (acc : List (NodeID × NodeID × PathSegment) × List NodeID) (e : NodeID × Node) :
    List (NodeID × NodeID × PathSegment) × List NodeID :=
  let seen' := acc.2 ++ [e.1]
  let triples := (Nbh.allNeighbors e.2.pos).foldl
    (fun ts other_pos =>
      match c.node_at other_pos with
      | none => ts
      | some other_id =>
        if (alookup other_id e.2.edges).isSome || other_id ∈ seen' then ts
        else ts ++ [(e.1, other_id,
          PathSegment.new ⟨[e.2.pos, other_pos], e.2.walk_cost⟩ c.config.cache_paths)])
    acc.1
  (triples, seen')

/-- connectTriples collects the `new_paths` list of `connect_nodes` over a
given processing order, reading only the pre-state. -/
def PathCache.connectTriples (c : PathCache) (pairs : List (NodeID × Node)) :
    List (NodeID × NodeID × PathSegment) :=
  (pairs.foldl c.connectStep ([], [])).1

/-- connectPairs folds the collected edges into the node list, as the
final loop of `connect_nodes` does. -/
def PathCache.connectPairs (c : PathCache) (pairs : List (NodeID × Node)) : PathCache :=
  let nodes' := (c.connectTriples pairs).foldl (fun nl t => nl.add_edge t.1 t.2.1 t.2.2) c.nodes
  { c with nodes := nodes' }

/-- connectAll is `connect_nodes(None)`: process every node in slab
order. -/
def PathCache.connectAll (c : PathCache) : PathCache :=
  c.connectPairs c.nodes.arr

/-- resolvePairs looks up the processing pairs for `connect_nodes(Some)`;
a dead id is the source's panic. -/
def PathCache.resolvePairs (c : PathCache) (ids : List NodeID) :
    Except String (List (NodeID × Node)) :=
  match ids.mapM (fun id => (c.nodes.get? id).map (fun n => (id, n))) with
  | none => .error "connect_nodes: id not in node list"
  | some pairs => .ok pairs

/-- connectSome is `connect_nodes(Some(ids))`. -/
def PathCache.connectSome (c : PathCache) (ids : List NodeID) : Except String PathCache :=
  (c.resolvePairs ids).map c.connectPairs

/-- newCacheRaw is `PathCache::new` (sequential construction) just before
the final `connect_nodes(None)` call: chunk-grid dimensions with the last
row and column absorbing the remainder, and chunk construction in
row-major order. -/
def PathCache.newCacheRaw (size : Point) (cost : CostFn) (config : PathCacheConfig) : PathCache :=
  let width := size.1
  let height := size.2
  let cw := width / config.chunk_size
  let rw := width - cw * config.chunk_size
  let ncw := if 0 < rw then cw + 1 else cw
  let last_width := if 0 < rw then rw else config.chunk_size
  let ch := height / config.chunk_size
  let rh := height - ch * config.chunk_size
  let nch := if 0 < rh then ch + 1 else ch
  let last_height := if 0 < rh then rh else config.chunk_size
  let built := (List.range nch).foldl
    (fun (acc : List Chunk × NodeList) y =>
      let hh := if y = nch - 1 then last_height else config.chunk_size
      (List.range ncw).foldl
        (fun (acc2 : List Chunk × NodeList) x =>
          let ww := if x = ncw - 1 then last_width else config.chunk_size
          let r := Chunk.new (x * config.chunk_size, y * config.chunk_size) ww hh
            (width, height) cost acc2.2 config
          (acc2.1 ++ [r.1], r.2))
        acc)
    ([], NodeList.empty)
  { width := width, height := height, chunks := built.1,
    num_chunks := (ncw, nch), nodes := built.2, config := config }

/-- newCache is `PathCache::new`: construction plus the final
`connect_nodes(None)` stitching pass. -/
def PathCache.newCache (size : Point) (cost : CostFn) (config : PathCacheConfig) : PathCache :=
  (PathCache.newCacheRaw size cost config).connectAll

/-- windows2 lists the adjacent pairs of a list, as `windows(2)` does. -/
def windows2 {α : Type} (l : List α) : List (α × α) :=
  l.zip l.tail

/-- addSegs appends the stored edge segments along adjacent node pairs; a
missing edge is the source's indexing panic. -/
def addSegs (nl : NodeList) : List (NodeID × NodeID) → APath → Except String APath
  | [], fp => .ok fp
  | (a, b) :: rest, fp =>
    match nl.edgeSeg a b with
    | none => .error "Inconsistency in Pathfinding"
    | some s => addSegs nl rest (fp.addSegment s)

/-- resolveTail finishes the resolution of one goal after the start-side
shortcut: the goal-side shortcut followed by segment assembly, as in
`resolve_paths`. -/
def PathCache.resolveTail (c : PathCache) (start goal : Point)
    (goal_path0 : Option (Path Point)) (sp : Option (Path Point)) (ids : List NodeID)
    (cost : CostFn) : Except String APath :=
  let gstep : Except String (Option (Path Point) × List NodeID) :=
    match goal_path0 with
    | none => .ok (none, ids)
    | some gp0 =>
      let cand := ((ids.enum.reverse.drop 1).takeWhile
        (fun ii => c.same_chunk goal (nodePosD c.nodes ii.2))).getLast?
      match cand with
      | none => .ok (some gp0, ids)
      | some (index, id) =>
        match (c.get_chunk goal).find_path (nodePosD c.nodes id) goal cost with
        | none => .error "Inconsistency in Pathfinding"
        | some ngp => .ok (some ngp, ids.take (index + 1))
  match gstep with
  | .error e => .error e
  | .ok (gp, path2) =>
    let fp0 := APath.newFrom start
    let fp1 := match sp with
      | some p => fp0.addPath p
      | none => fp0
    match addSegs c.nodes (windows2 path2) fp1 with
    | .error e => .error e
    | .ok fp2 =>
      .ok (match gp with
        | some p => fp2.addPath p
        | none => fp2)

/-- resolveLoop is the main loop of `resolve_paths`: for each goal with an
abstract path, either the short-path A* fallback, or the start-side
shortcut (with the per-target path cache `spm`), the goal-side shortcut and
segment assembly. -/
def PathCache.resolveLoop (c : PathCache) (start : Point)
    (start_path0 : Option (Path Point)) (paths : List (NodeID × Path NodeID)) (cost : CostFn) :
    List (Point × NodeID × Option (Path Point)) → List (Point × Path Point) →
    List (Point × APath) → Except String (List (Point × APath))
  | [], _, out => .ok out
  | (goal, goal_id, goal_path0) :: rest, spm, out =>
    match alookup goal_id paths with
    | none => c.resolveLoop start start_path0 paths cost rest spm out
    | some npath =>
      if npath.seq.length = 1 ∨
          (c.config.a_star_fallback = true ∧ npath.cost < 2 * c.config.chunk_size) then
        match c.grid_a_star start goal cost with
        | none => .error "Inconsistency in Pathfinding"
        | some p =>
          c.resolveLoop start start_path0 paths cost rest spm
            (ainsert goal (APath.fromKnown p) out)
      else
        match start_path0 with
        | none =>
          match c.resolveTail start goal goal_path0 none npath.seq cost with
          | .error e => .error e
          | .ok fp => c.resolveLoop start start_path0 paths cost rest spm (ainsert goal fp out)
        | some _ =>
          let cand := (((npath.seq.map (nodePosD c.nodes) ++ [goal]).enum.drop 1).takeWhile
            (fun ip => c.same_chunk start ip.2)).getLast?
          match cand with
          | none =>
            match c.resolveTail start goal goal_path0 start_path0 npath.seq cost with
            | .error e => .error e
            | .ok fp => c.resolveLoop start start_path0 paths cost rest spm (ainsert goal fp out)
          | some (index, next_pos) =>
            match alookup next_pos spm with
            | some cachedp =>
              if next_pos = goal then
                c.resolveLoop start start_path0 paths cost rest spm
                  (ainsert goal (APath.fromKnown cachedp) out)
              else
                match c.resolveTail start goal goal_path0 (some cachedp)
                    (npath.seq.drop index) cost with
                | .error e => .error e
                | .ok fp =>
                  c.resolveLoop start start_path0 paths cost rest spm (ainsert goal fp out)
            | none =>
              match (c.get_chunk start).find_path start next_pos cost with
              | none => .error "Inconsistency in Pathfinding"
              | some newp =>
                let spm' := ainsert next_pos newp spm
                if next_pos = goal then
                  c.resolveLoop start start_path0 paths cost rest spm'
                    (ainsert goal (APath.fromKnown newp) out)
                else
                  match c.resolveTail start goal goal_path0 (some newp)
                      (npath.seq.drop index) cost with
                  | .error e => .error e
                  | .ok fp =>
                    c.resolveLoop start start_path0 paths cost rest spm' (ainsert goal fp out)

/-- resolve_paths as in the source, starting with an empty per-target
start-path cache. -/
def PathCache.resolve_paths (c : PathCache) (start : Point)
    (start_path : Option (Path Point)) (goal_data : List (Point × NodeID × Option (Path Point)))
    (paths : List (NodeID × Path NodeID)) (cost : CostFn) (out0 : List (Point × APath)) :
    Except String (List (Point × APath)) :=
  c.resolveLoop start start_path paths cost goal_data [] out0

/-- find_path as in the source: bounds checks, the wall check on the
start, the degenerate self-path, snapping, graph A*, and resolution. -/
def PathCache.find_path (c : PathCache) (start goal : Point) (cost : CostFn) :
    Except String (Option APath) :=
  if ¬ c.in_bounds start then .error "start is out of bounds"
  else if ¬ c.in_bounds goal then .ok none
  else if cost start < 0 then .ok none
  else if start = goal then .ok (some (APath.fromKnown ⟨[start, start], 0⟩))
  else
    match c.find_nearest_node start cost false with
    | none => .ok (((c.get_chunk start).find_path start goal cost).map APath.fromKnown)
    | some (start_id, start_path) =>
      match c.find_nearest_node goal cost true with
      | none => .ok none
      | some (goal_id, goal_path) =>
        match graphAStarSearch c.nodes start_id goal_id with
        | none => .ok none
        | some npath =>
          match c.resolve_paths start start_path [(goal, goal_id, goal_path)]
              [(goal_id, npath)] cost [] with
          | .error e => .error e
          | .ok ret => .ok (alookup goal ret)

/-- GoalAcc is the state accumulated by the goal loop of
`find_paths_internal`: collected goal data, the goal id set, the map of
already-answered goals, and the size-hint heuristic accumulator. -/
structure GoalAcc where
  goal_data : List (Point × NodeID × Option (Path Point))
  goal_ids : List NodeID
  ret : List (Point × APath)
  heuristic : Nat

/-- collectStep is the body of the goal loop of `find_paths_internal`:
degenerate self-goals answer immediately, out-of-bounds and cave goals are
skipped, and snapped goals accumulate goal data and fold the size-hint
heuristic (`min` when only the closest goal is requested, `max` otherwise,
starting from 0). -/
def PathCache.collectStep (c : PathCache) (start : Point) (cost : CostFn)
    (only_closest : Bool) (acc : GoalAcc) (goal : Point) : GoalAcc :=
  if goal = start then
    { acc with ret := ainsert goal (APath.fromKnown ⟨[start, start], 0⟩) acc.ret }
  else if ¬ c.in_bounds goal then acc
  else
    match c.find_nearest_node goal cost true with
    | none => acc
    | some (goal_id, goal_path) =>
      { goal_data := acc.goal_data ++ [(goal, goal_id, goal_path)],
        goal_ids := acc.goal_ids ++ [goal_id],
        ret := acc.ret,
        heuristic :=
          if only_closest then min acc.heuristic (Nbh.heuristic start goal)
          else max acc.heuristic (Nbh.heuristic start goal) }

/-- collectGoals is the goal loop of `find_paths_internal`. -/
def PathCache.collectGoals (c : PathCache) (start : Point) (cost : CostFn)
    (only_closest : Bool) (goals : List Point) : GoalAcc :=
  goals.foldl (c.collectStep start cost only_closest) ⟨[], [], [], 0⟩

/-- find_paths_internal as in the source: bounds panic, the wall and
empty-goals early return, single-goal delegation to `find_path`, the cave
fallback, goal collection, graph Dijkstra, and resolution. -/
def PathCache.find_paths_internal (c : PathCache) (start : Point) (goals : List Point)
    (cost : CostFn) (only_closest : Bool) : Except String (List (Point × APath)) :=
  if ¬ c.in_bounds start then .error "start is out of bounds"
  else if cost start < 0 ∨ goals = [] then .ok []
  else if goals.length = 1 then
    match c.find_path start goals.headI cost with
    | .error e => .error e
    | .ok none => .ok []
    | .ok (some p) => .ok [(goals.headI, p)]
  else
    match c.find_nearest_node start cost false with
    | none =>
      .ok (((c.get_chunk start).find_paths start goals cost).map
        (fun gp => (gp.1, APath.fromKnown gp.2)))
    | some (start_id, start_path) =>
      let acc := c.collectGoals start cost only_closest goals
      let paths := graphDijkstraSearch c.nodes start_id acc.goal_ids only_closest
      c.resolve_paths start start_path acc.goal_data paths cost acc.ret

/-- find_paths as in the source. -/
def PathCache.find_paths (c : PathCache) (start : Point) (goals : List Point)
    (cost : CostFn) : Except String (List (Point × APath)) :=
  c.find_paths_internal start goals cost false

/-- find_closest_goal as in the source: the first entry of the
closest-only multi-goal query. -/
def PathCache.find_closest_goal (c : PathCache) (start : Point) (goals : List Point)
    (cost : CostFn) : Except String (Option (Point × APath)) :=
  (c.find_paths_internal start goals cost true).map List.head?

/-- inspectNodes is the observable debug view: every node with its id,
position, and connected (neighbor id, edge cost) pairs. -/
def PathCache.inspectNodes (c : PathCache) : List (NodeID × Point × List (NodeID × Nat)) :=
  c.nodes.arr.map (fun e => (e.1, e.2.pos, e.2.edges.map (fun ed => (ed.1, ed.2.cost))))

/-! ### Incremental update (`tiles_changed`)

Direct translation of `tiles_changed_internal` (sequential branch), phase
by phase: bucket the changed tiles by chunk, accumulate side-renewal kinds,
remove nodes on renewed sides, clear the edges of nodes in dirty chunks,
recreate the renewed sides, regenerate the intra-chunk edges of dirty
chunks, and re-stitch with `connect_nodes(Some(changed))`. -/

/-- Renew is the side-renewal kind lattice `No < Inner < Corner < All`. -/
inductive Renew where
  | no
  | inner
  | corner (p : Point)
  | all
  deriving Repr, DecidableEq

/-- renew4Init is the `[Renew::No; 4]` initial entry. -/
def renew4Init : List Renew := [.no, .no, .no, .no]

/-- renewGet reads the kind recorded for a direction. -/
def renewGet (l : List Renew) (d : Dir) : Renew := l.getD d.num .no

/-- renewSet writes the kind recorded for a direction. -/
def renewSet (l : List Renew) (d : Dir) (r : Renew) : List Renew := l.set d.num r

/-- renewUpdateAt applies an update to one direction of one chunk's entry,
creating the `[No; 4]` entry if the chunk has none yet. -/
def renewUpdateAt (m : List (Point × List Renew)) (cp : Point) (d : Dir)
    (f : Renew → Renew) : List (Point × List Renew) :=
  match alookup cp m with
  | some _ => amodify cp (fun s => renewSet s d (f (renewGet s d))) m
  | none => m ++ [(cp, renewSet renew4Init d (f .no))]

/-- renewOwnUpdate is the kind transition for the changed tile's own side,
translated from the corner handling in the source. -/
def renewOwnUpdate (isCorner : Bool) (p : Point) (old : Renew) : Renew :=
  if isCorner then
    match old with
    | .no => .corner p
    | .inner => .corner p
    | .corner p2 => if p2 ≠ p then .all else .corner p2
    | .all => .all
  else
    match old with
    | .no => .inner
    | o => o

/-- renewOtherUpdate is the kind transition for the mirror side of the
adjacent chunk: at least `Inner`. -/
def renewOtherUpdate (old : Renew) : Renew :=
  match old with
  | .no => .inner
  | o => o

/-- buildDirty buckets the changed tiles by the origin of their chunk,
keeping first-encounter chunk order. -/
def PathCache.buildDirty (c : PathCache) (tiles : List Point) : List (Point × List Point) :=
  tiles.foldl
    (fun d p =>
      let cp := c.get_chunk_pos p
      match alookup cp d with
      | some _ => amodify cp (fun v => v ++ [p]) d
      | none => d ++ [(cp, [p])])
    []

/-- renewDirStep handles one direction of one changed tile: when the tile
is on an active side, mark the own side and the mirror side of the
adjacent chunk; a missing adjacent chunk is the source's internal panic. -/
def PathCache.renewDirStep (c : PathCache) (chunk : Chunk) (cp p : Point)
    (m : List (Point × List Renew)) (d : Dir) : Except String (List (Point × List Renew)) :=
  if chunk.sides.getD d.num false && chunk.at_side p d then
    match jumpInDir cp d c.config.chunk_size (c.width, c.height) with
    | none => .error "Internal Error 2 in PathCache"
    | some other_pos =>
      let m1 := renewUpdateAt m cp d (renewOwnUpdate (chunk.is_corner p) p)
      .ok (renewUpdateAt m1 other_pos d.opposite renewOtherUpdate)
  else .ok m

/-- buildRenew accumulates the side-renewal map over every changed tile of
every dirty chunk. -/
def PathCache.buildRenew (c : PathCache) (dirty : List (Point × List Point)) :
    Except String (List (Point × List Renew)) :=
  dirty.foldlM
    (fun m entry =>
      let chunk := c.get_chunk entry.1
      entry.2.foldlM
        (fun m' p => Dir.all.foldlM (c.renewDirStep chunk entry.1 p) m')
        m)
    []

/-- removeMatch decides whether a node position on a renewed side is
removed, by the kind recorded for each side it lies on. -/
def removeMatch (chunk : Chunk) (sides4 : List Renew) (pos : Point) : Bool :=
  let corner := chunk.is_corner pos
  Dir.all.any (fun dir =>
    (match renewGet sides4 dir with
      | .no => false
      | .inner => !corner
      | .corner cpt => !corner || cpt = pos
      | .all => true) && chunk.at_side pos dir)

/-- removeStep removes the matching nodes of one renewed chunk from both
the chunk's node set and the node list. -/
def PathCache.removeStep (c : PathCache) (entry : Point × List Renew) : PathCache :=
  let idx := c.get_chunk_index entry.1
  let chunk := c.chunks.getD idx defaultChunk
  let removed := chunk.nodes.filter (fun id =>
    match c.nodes.get? id with
    | none => false
    | some n => removeMatch chunk entry.2 n.pos)
  let chunk' := { chunk with nodes := chunk.nodes.filter (fun id => decide (¬ id ∈ removed)) }
  let nodes' := removed.foldl NodeList.remove_node c.nodes
  ({ c with nodes := nodes' }).setChunk idx chunk'

/-- clear_edges empties one node's edge map. -/
def NodeList.clear_edges (nl : NodeList) (id : NodeID) : NodeList :=
  { nl with arr := amodify id (fun n => { n with edges := [] }) nl.arr }

/-- clearStep clears the edge maps of every node of one dirty chunk. -/
def PathCache.clearStep (c : PathCache) (entry : Point × List Point) : PathCache :=
  let chunk := c.chunks.getD (c.get_chunk_index entry.1) defaultChunk
  { c with nodes := chunk.nodes.foldl NodeList.clear_edges c.nodes }

/-- insertNodeSet appends an id to an id set if absent. -/
def insertNodeSet (id : NodeID) (l : List NodeID) : List NodeID :=
  if id ∈ l then l else l ++ [id]

/-- recreateStep recreates one renewed chunk's candidate border nodes:
candidates on every marked side, filtered to positions without a node,
inserted as fresh nodes; a non-dirty chunk extends its intra-chunk edges
via `add_nodes` and records the new nodes as changed, a dirty chunk only
records the ids in its node set. -/
def PathCache.recreateStep (dirty : List (Point × List Point)) (cost : CostFn)
    (st : PathCache × List NodeID) (entry : Point × List Renew) : PathCache × List NodeID :=
  let cache := st.1
  let changed := st.2
  let idx := cache.get_chunk_index entry.1
  let chunk := cache.chunks.getD idx defaultChunk
  let cands0 := Dir.all.foldl
    (fun acc d =>
      if renewGet entry.2 d ≠ .no then
        (chunk.calculate_side_nodes d cost cache.config).foldl
          (fun a p => insertPointSet p a) acc
      else acc)
    []
  let cands := cands0.filter (fun p => (cache.nodes.id_at p).isNone)
  if cands.isEmpty then st
  else
    let created := cands.foldl
      (fun (acc : NodeList × List NodeID) p =>
        let r := acc.1.add_node p (cost p).toNat
        (r.1, acc.2 ++ [r.2]))
      (cache.nodes, [])
    let cache1 := { cache with nodes := created.1 }
    if (alookup entry.1 dirty).isNone then
      let r := chunk.add_nodes created.2 cost cache1.nodes cache1.config
      (({ cache1 with nodes := r.2 }).setChunk idx r.1,
        created.2.foldl (fun l id => insertNodeSet id l) changed)
    else
      let newSet := created.2.foldl (fun ns id => insertNodeSet id ns) chunk.nodes
      (cache1.setChunk idx { chunk with nodes := newSet }, changed)

/-- dirtyStep regenerates one dirty chunk: record all its nodes as
changed, clear its node set, and `add_nodes` the same ids back, which
rebuilds the intra-chunk edges. -/
def PathCache.dirtyStep (cost : CostFn) (st : PathCache × List NodeID)
    (entry : Point × List Point) : PathCache × List NodeID :=
  let cache := st.1
  let idx := cache.get_chunk_index entry.1
  let chunk := cache.chunks.getD idx defaultChunk
  let ids := chunk.nodes
  let changed' := ids.foldl (fun l id => insertNodeSet id l) st.2
  let chunk0 := { chunk with nodes := [] }
  let r := chunk0.add_nodes ids cost cache.nodes cache.config
  (({ cache with nodes := r.2 }).setChunk idx r.1, changed')

/-- tiles_changed as in the source (sequential branch): all phases, then
the final cross-chunk stitching over the changed-node set. -/
def PathCache.tiles_changed (c : PathCache) (tiles : List Point) (cost : CostFn) :
    Except String PathCache :=
  let dirty := c.buildDirty tiles
  match c.buildRenew dirty with
  | .error e => .error e
  | .ok renew =>
    let c1 := renew.foldl PathCache.removeStep c
    let c2 := dirty.foldl PathCache.clearStep c1
    let st3 := renew.foldl (PathCache.recreateStep dirty cost) (c2, [])
    let st4 := dirty.foldl (PathCache.dirtyStep cost) st3
    st4.1.connectSome st4.2

/-! ## Concrete fixtures

The 5×5 doctest grid of the source (`0` plain, `1` swamp, `2` wall; cost
map `[1, 10, -1]`, chunk size 3), and a 1×4 strip whose two chunks meet
between a plain tile and a swamp tile. -/

/-- gridA is the 5×5 grid of the source's doctests. -/
def gridA : List (List Nat) :=
  [[0, 2, 0, 0, 0],
   [0, 2, 2, 2, 2],
   [0, 1, 0, 0, 0],
   [0, 1, 0, 2, 0],
   [0, 0, 0, 2, 0]]

/-- costA is the cost function of the source's doctests. -/
def costA : CostFn := fun p =>
  match (gridA.getD p.2 []).getD p.1 2 with
  | 0 => 1
  | 1 => 10
  | _ => -1

/-- cacheA is the doctest cache: 5×5, chunk size 3. -/
def cacheA : PathCache := PathCache.newCache (5, 5) costA (PathCacheConfig.withChunkSize 3)

/-- costB makes tile (0, 2) a swamp of cost 10 on an all-plain strip. -/
def costB : CostFn := fun p => if p = (0, 2) then 10 else 1

/-- cacheBRaw is the 1×4 strip cache (chunk size 2) before the final
cross-chunk stitching: one border node per chunk, at (0, 1) with walk cost
1 and at (0, 2) with walk cost 10, not yet linked. -/
def cacheBRaw : PathCache := PathCache.newCacheRaw (1, 4) costB (PathCacheConfig.withChunkSize 2)

/-- cacheB is the stitched 1×4 strip cache. -/
def cacheB : PathCache := cacheBRaw.connectAll

/-- spmInv: every entry of the per-target start-path cache equals the
deterministic intra-chunk path it caches. -/
def spmInv (c : PathCache) (start : Point) (cost : CostFn)
    (spm : List (Point × Path Point)) : Prop :=
  ∀ k v, alookup k spm = some v → (c.get_chunk start).find_path start k cost = some v

/-- entryStep is the body of one `resolve_paths` iteration for a goal
whose abstract path was found, producing the map entry and the updated
start-path cache. -/
def PathCache.entryStep (c : PathCache) (start : Point) (sp0 : Option (Path Point))
    (cost : CostFn) (goal : Point) (gp0 : Option (Path Point)) (npath : Path NodeID)
    (spm : List (Point × Path Point)) :
    Except String (APath × List (Point × Path Point)) :=
  if npath.seq.length = 1 ∨
      (c.config.a_star_fallback = true ∧ npath.cost < 2 * c.config.chunk_size) then
    match c.grid_a_star start goal cost with
    | none => .error "Inconsistency in Pathfinding"
    | some p => .ok (APath.fromKnown p, spm)
  else
    match sp0 with
    | none => (c.resolveTail start goal gp0 none npath.seq cost).map (fun fp => (fp, spm))
    | some _ =>
      match (((npath.seq.map (nodePosD c.nodes) ++ [goal]).enum.drop 1).takeWhile
        (fun ip => c.same_chunk start ip.2)).getLast? with
      | none => (c.resolveTail start goal gp0 sp0 npath.seq cost).map (fun fp => (fp, spm))
      | some (index, next_pos) =>
        match alookup next_pos spm with
        | some cachedp =>
          if next_pos = goal then .ok (APath.fromKnown cachedp, spm)
          else (c.resolveTail start goal gp0 (some cachedp) (npath.seq.drop index) cost).map
            (fun fp => (fp, spm))
        | none =>
          match (c.get_chunk start).find_path start next_pos cost with
          | none => .error "Inconsistency in Pathfinding"
          | some newp =>
            if next_pos = goal then .ok (APath.fromKnown newp, ainsert next_pos newp spm)
            else (c.resolveTail start goal gp0 (some newp) (npath.seq.drop index) cost).map
              (fun fp => (fp, ainsert next_pos newp spm))

/-! ## Claim C1: the edges added by `connect_nodes`

The collection loop of `connect_nodes` is characterized declaratively:
for each processed node, every all-neighbor tile holding a node that is
neither already linked nor processed before contributes a trivial two-tile
segment carrying the processed node's `walk_cost`. -/

/-- connectBlock lists the triples one processed node contributes, given
the seen set right after it is marked. -/
def connectBlock (c : PathCache) (seen1 : List NodeID) (e : NodeID × Node) :
    List (NodeID × NodeID × PathSegment) :=
  (Nbh.allNeighbors e.2.pos).filterMap (fun op =>
    match c.node_at op with
    | none => none
    | some other_id =>
      if (alookup other_id e.2.edges).isSome || other_id ∈ seen1 then none
      else some (e.1, other_id,
        PathSegment.new ⟨[e.2.pos, op], e.2.walk_cost⟩ c.config.cache_paths))

/-- connectTriplesFrom is the declarative reading of the collection loop:
processing order left to right, the seen set growing by the processed
node before its neighbors are examined. -/
def PathCache.connectTriplesFrom (c : PathCache) : List NodeID → List (NodeID × Node) →
    List (NodeID × NodeID × PathSegment)
  | _, [] => []
  | seen, e :: rest =>
    connectBlock c (seen ++ [e.1]) e ++ c.connectTriplesFrom (seen ++ [e.1]) rest

/-- gridA2 is the doctest grid after the two tile changes of the
`tiles_changed` doctest. -/
def gridA2 : List (List Nat) :=
  [[0, 2, 0, 0, 0],
   [0, 2, 0, 2, 2],
   [0, 1, 0, 0, 0],
   [0, 1, 2, 2, 0],
   [0, 0, 0, 2, 0]]

/-- costA2 is the cost function after the doctest's tile changes. -/
def costA2 : CostFn := fun p =>
  match (gridA2.getD p.2 []).getD p.1 2 with
  | 0 => 1
  | 1 => 10
  | _ => -1

/-- cacheA2 is the doctest cache after `tiles_changed([(2,1),(2,3)])`. -/
def cacheA2 : PathCache :=
  (cacheA.tiles_changed [(2, 1), (2, 3)] costA2).toOption.getD cacheA

/-! ## Claim C2: bidirectional edges at every observable state

The development below proves that the node graph's edges are
bidirectional with equal cost in every state reachable through the public
interface: after `PathCache::new` and after every `tiles_changed` call
that returns.  The invariant is re-established by the final
`connect_nodes(Some(changed))` pass even though `tiles_changed` clears
the edge maps of all nodes in dirty chunks first. -/

/-- symPair: the directed edge `p → q`, when present, is mirrored by an
edge `q → p` of equal cost. -/
def symPair (nl : NodeList) (p q : NodeID) : Prop :=
  ∀ s, nl.edgeSeg p q = some s → ∃ s', nl.edgeSeg q p = some s' ∧ s'.cost = s.cost

/-- Bidir: every directed edge is mirrored with equal cost. -/
def Bidir (nl : NodeList) : Prop :=
  ∀ p q, symPair nl p q

/-- CacheWF packages the structural invariants of a path cache that the
public interface maintains: edge symmetry, live edge targets, unique ids
and positions, fresh-id bounds, in-bounds positions, edge locality
(intra-chunk or tile-adjacent), node registration in the chunk of its
position, chunk-membership soundness, chunk geometry, and the chunk-grid
covering bound. -/
structure CacheWF (c : PathCache) : Prop where
  sym : Bidir c.nodes
  live : ∀ a na b s, c.nodes.get? a = some na → alookup b na.edges = some s →
    ((c.nodes.get? b).isSome) = true
  keys : (c.nodes.arr.map Prod.fst).Nodup
  posn : (c.nodes.arr.map (fun e => e.2.pos)).Nodup
  fresh : ∀ e ∈ c.nodes.arr, e.1 < c.nodes.next
  inb : ∀ a na, c.nodes.get? a = some na → na.pos.1 < c.width ∧ na.pos.2 < c.height
  loc : ∀ a na b nb s, c.nodes.get? a = some na → c.nodes.get? b = some nb →
    alookup b na.edges = some s →
    c.same_chunk na.pos nb.pos = true ∨ nb.pos ∈ Nbh.allNeighbors na.pos
  reg : ∀ a na, c.nodes.get? a = some na → a ∈ (c.get_chunk na.pos).nodes
  mem : ∀ i ch, c.chunks.get? i = some ch → ∀ id ∈ ch.nodes,
    ∃ n, c.nodes.get? id = some n ∧ c.get_chunk_index n.pos = i
  geo : ∀ i ch, c.chunks.get? i = some ch → 1 ≤ ch.size_w ∧ 1 ≤ ch.size_h ∧
    ch.pos.1 + ch.size_w ≤ c.width ∧ ch.pos.2 + ch.size_h ≤ c.height ∧
    ∀ p, ch.inChunk p = true → c.get_chunk_index p = i
  num : c.width ≤ c.num_chunks.1 * c.config.chunk_size ∧
    c.height ≤ c.num_chunks.2 * c.config.chunk_size ∧ 1 ≤ c.config.chunk_size

/-- createNodes is the node-creation fold shared by `Chunk ::new` and the
recreation phase of `tiles_changed`: add a fresh node per candidate
position, collecting the new ids. -/
def createNodes (cost : CostFn) (cands : List Point) (st : NodeList × List NodeID) :
    NodeList × List NodeID :=
  cands.foldl
    (fun (acc : NodeList × List NodeID) p =>
      let r := acc.1.add_node p (Int.toNat (cost p))
      (r.1, acc.2 ++ [r.2])) st

/-- baseChunk is the empty chunk record that `Chunk ::new` starts from. -/
def baseChunk (origin : Point) (w h : Nat) (gridSize : Point) : Chunk :=
  { pos := origin, size_w := w, size_h := h, nodes := [],
    sides := chunkSides origin w h gridSize }

/-- RawInv is the construction invariant of `PathCache ::new`: the state of
the chunk list and node list after any prefix of the row-major chunk
construction. -/
structure RawInv (cs ncw width height : Nat) (chs : List Chunk) (nl : NodeList) : Prop where
  keys : (nl.arr.map Prod.fst).Nodup
  posn : (nl.arr.map (fun e => e.2.pos)).Nodup
  fresh : ∀ e ∈ nl.arr, e.1 < nl.next
  bidir : Bidir nl
  live : ∀ a na b s, nl.get? a = some na → alookup b na.edges = some s →
    ((nl.get? b).isSome) = true
  inb : ∀ a na, nl.get? a = some na → na.pos.1 < width ∧ na.pos.2 < height
  loc : ∀ a na b s, nl.get? a = some na → alookup b na.edges = some s →
    ∃ nb, nl.get? b = some nb ∧ na.pos.1 / cs = nb.pos.1 / cs ∧
      na.pos.2 / cs = nb.pos.2 / cs
  reg : ∀ a na, nl.get? a = some na →
    ∃ ch, chs.get? ((na.pos.2 / cs) * ncw + na.pos.1 / cs) = some ch ∧ a ∈ ch.nodes
  mem : ∀ i ch, chs.get? i = some ch → ∀ id ∈ ch.nodes,
    ∃ n, nl.get? id = some n ∧ (n.pos.2 / cs) * ncw + n.pos.1 / cs = i
  geo : ∀ i ch, chs.get? i = some ch → 1 ≤ ch.size_w ∧ 1 ≤ ch.size_h ∧
    ch.pos.1 + ch.size_w ≤ width ∧ ch.pos.2 + ch.size_h ≤ height ∧
    ∀ p : Point, ch.inChunk p = true → (p.2 / cs) * ncw + p.1 / cs = i

/-- colStep builds one chunk of a row of the chunk grid. -/
def colStep (cs ncw width height : Nat) (cost : CostFn) (cfg : PathCacheConfig)
    (y hh lw : Nat) (acc2 : List Chunk × NodeList) (x : Nat) : List Chunk × NodeList :=
  let ww := if x = ncw - 1 then lw else cs
  let r := Chunk.new (x * cs, y * cs) ww hh (width, height) cost acc2.2 cfg
  (acc2.1 ++ [r.1], r.2)

/-- rowStep builds one full row of the chunk grid. -/
def rowStep (cs ncw width height : Nat) (cost : CostFn) (cfg : PathCacheConfig)
    (nch lh lw : Nat) (acc : List Chunk × NodeList) (y : Nat) : List Chunk × NodeList :=
  let hh := if y = nch - 1 then lh else cs
  (List.range ncw).foldl (colStep cs ncw width height cost cfg y hh lw) acc

/-- ncwOf is the number of chunk columns (or rows) along one dimension. -/
def ncwOf (width cs : Nat) : Nat :=
  if 0 < width - width / cs * cs then width / cs + 1 else width / cs

/-- lwOf is the extent of the last chunk along one dimension. -/
def lwOf (width cs : Nat) : Nat :=
  if 0 < width - width / cs * cs then width - width / cs * cs else cs

/-- EdgesNodup: every live node's edge map binds each target id at most
once (the source stores edges in a hash map). -/
def EdgesNodup (nl : NodeList) : Prop :=
  ∀ a na, nl.get? a = some na → (na.edges.map Prod.fst).Nodup

/-- eraseAll removes a list of keys from an association list. -/
def eraseAll {κ α : Type} [DecidableEq κ] (ks : List κ) (l : List (κ × α)) :
    List (κ × α) :=
  ks.foldl (fun acc k => aerase k acc) l

/-- scrubNode drops all edges towards a list of removed ids. -/
def scrubNode (R : List NodeID) (n : Node) : Node :=
  { n with edges := eraseAll R n.edges }

/-- MidWF is the mid-pipeline invariant of `tiles_changed` after the
edge-clearing phase: every stored edge is either mirrored with equal cost,
or a dangling edge whose target is a cleared dirty-chunk node (collected in
`D`) and whose owner is an old node outside `D`; the remaining structural
fields mirror `CacheWF`. -/
structure MidWF (c : PathCache) (D : List NodeID) (nxt : NodeID) : Prop where
  edge : ∀ a na b s, c.nodes.get? a = some na → alookup b na.edges = some s →
    (∃ s', c.nodes.edgeSeg b a = some s' ∧ s'.cost = s.cost) ∨
    (b ∈ D ∧ a ∉ D ∧ a < nxt ∧
      ∃ nb, c.nodes.get? b = some nb ∧ na.pos ∈ Nbh.allNeighbors nb.pos ∧
        alookup a nb.edges = none)
  live : ∀ a na b s, c.nodes.get? a = some na → alookup b na.edges = some s →
    ((c.nodes.get? b).isSome) = true
  keys : (c.nodes.arr.map Prod.fst).Nodup
  posn : (c.nodes.arr.map (fun e => e.2.pos)).Nodup
  fresh : ∀ e ∈ c.nodes.arr, e.1 < c.nodes.next
  inb : ∀ a na, c.nodes.get? a = some na → na.pos.1 < c.width ∧ na.pos.2 < c.height
  loc : ∀ a na b nb s, c.nodes.get? a = some na → c.nodes.get? b = some nb →
    alookup b na.edges = some s →
    c.same_chunk na.pos nb.pos = true ∨ nb.pos ∈ Nbh.allNeighbors na.pos
  reg : ∀ a na, c.nodes.get? a = some na → a ∈ (c.get_chunk na.pos).nodes
  mem : ∀ i ch, c.chunks.get? i = some ch → ∀ id ∈ ch.nodes,
    ∃ n, c.nodes.get? id = some n ∧ c.get_chunk_index n.pos = i
  geo : ∀ i ch, c.chunks.get? i = some ch → 1 ≤ ch.size_w ∧ 1 ≤ ch.size_h ∧
    ch.pos.1 + ch.size_w ≤ c.width ∧ ch.pos.2 + ch.size_h ≤ c.height ∧
    ∀ p, ch.inChunk p = true → c.get_chunk_index p = i
  num : c.width ≤ c.num_chunks.1 * c.config.chunk_size ∧
    c.height ≤ c.num_chunks.2 * c.config.chunk_size ∧ 1 ≤ c.config.chunk_size
  dlt : ∀ id ∈ D, id < nxt
  nxtle : nxt ≤ c.nodes.next
  enod : EdgesNodup c.nodes

/-- EdgeOK is the edge disjunction of `MidWF` on a bare node list. -/
def EdgeOK (nl : NodeList) (D : List NodeID) (nxt : NodeID) : Prop :=
  ∀ a na b s, nl.get? a = some na → alookup b na.edges = some s →
    (∃ s', nl.edgeSeg b a = some s' ∧ s'.cost = s.cost) ∨
    (b ∈ D ∧ a ∉ D ∧ a < nxt ∧
      ∃ nb, nl.get? b = some nb ∧ na.pos ∈ Nbh.allNeighbors nb.pos ∧
        alookup a nb.edges = none)

/-- chunkSetAt reads the node set of the chunk covering a point. -/
def chunkSetAt (c : PathCache) (p : Point) : List NodeID :=
  (c.chunks.getD (c.get_chunk_index p) defaultChunk).nodes

/-- StepInv is the fold invariant of the recreation and dirty phases: the
mid-pipeline invariant, plus bookkeeping of the changed-id accumulator (old
dirty ids or fresh ids, all live), of the dirty chunks' node sets, and of
their growth since the reference state `c0`. -/
structure StepInv (dirty : List (Point × List Point)) (c0 : PathCache)
    (D : List NodeID) (nxt : NodeID) (st : PathCache × List NodeID) : Prop where
  mw : MidWF st.1 D nxt
  chg : ∀ x ∈ st.2, (x ∈ D ∨ nxt ≤ x) ∧ ((st.1.nodes.get? x).isSome) = true
  sets : ∀ e ∈ dirty, ∀ id ∈ chunkSetAt st.1 e.1, id ∈ D ∨ nxt ≤ id
  mono : ∀ e ∈ dirty, ∀ id ∈ chunkSetAt c0 e.1, id ∈ chunkSetAt st.1 e.1

/-- Reachable describes the cache states observable at the public
interface: a freshly built cache (`PathCache ::new` with a positive chunk
size), and any state produced from one by a returning `tiles_changed`
call. -/
inductive Reachable : PathCache → Prop where
  | base : ∀ (size : Point) (cost : CostFn) (cfg : PathCacheConfig),
      1 ≤ cfg.chunk_size → Reachable (PathCache.newCache size cost cfg)
  | step : ∀ (c : PathCache) (tiles : List Point) (cost : CostFn) (c' : PathCache),
      Reachable c → c.tiles_changed tiles cost = .ok c' → Reachable c'

theorem alookup_ainsert_self {κ α : Type} [DecidableEq κ] (k : κ) (v : α)
    (l : List (κ × α)) : alookup k (ainsert k v l) = some v := by
  induction l with
  | nil => simp [ainsert, alookup]
  | cons hd tl ih =>
    obtain ⟨k', v'⟩ := hd
    by_cases h : k' = k
    · simp [ainsert, h, alookup]
    · simp [ainsert, h, alookup, ih]

theorem alookup_ainsert_ne {κ α : Type} [DecidableEq κ] (k k' : κ) (v : α)
    (l : List (κ × α)) (h : k ≠ k') : alookup k' (ainsert k v l) = alookup k' l := by
  induction l with
  | nil => simp [ainsert, alookup, h]
  | cons hd tl ih =>
    obtain ⟨k₀, v₀⟩ := hd
    by_cases h₀ : k₀ = k
    · subst h₀
      simp [ainsert, alookup, h]
    · simp only [ainsert, if_neg h₀]
      by_cases h₁ : k₀ = k'
      · simp [alookup, h₁]
      · simp [alookup, h₁, ih]

theorem alookup_amodify_self {κ α : Type} [DecidableEq κ] (k : κ) (f : α → α)
    (l : List (κ × α)) : alookup k (amodify k f l) = (alookup k l).map f := by
  induction l with
  | nil => simp [amodify, alookup]
  | cons hd tl ih =>
    obtain ⟨k', v'⟩ := hd
    by_cases h : k' = k
    · simp [amodify, h, alookup]
    · simp [amodify, h, alookup, ih]

theorem alookup_amodify_ne {κ α : Type} [DecidableEq κ] (k k' : κ) (f : α → α)
    (l : List (κ × α)) (h : k ≠ k') : alookup k' (amodify k f l) = alookup k' l := by
  induction l with
  | nil => simp [amodify, alookup]
  | cons hd tl ih =>
    obtain ⟨k₀, v₀⟩ := hd
    by_cases h₀ : k₀ = k
    · subst h₀
      simp [amodify, alookup, h]
    · simp only [amodify, if_neg h₀]
      by_cases h₁ : k₀ = k'
      · simp [alookup, h₁]
      · simp [alookup, h₁, ih]

/-! ## Claim C5: input checks of `find_path` -/

/-- C5: `find_path(start, goal, cost)` panics whenever `start` is out of
the grid bounds; with `start` in bounds it returns none whenever `goal` is
out of bounds, and returns none whenever `cost(start) < 0`.  The statement
quantifies over every cache, so the result of each early exit is
independent of the node graph: no graph search is involved. -/
theorem find_path_input_checks (c : PathCache) (start goal : Point) (cost : CostFn) :
    (c.in_bounds start = false →
      c.find_path start goal cost = .error "start is out of bounds") ∧
    (c.in_bounds start = true → c.in_bounds goal = false →
      c.find_path start goal cost = .ok none) ∧
    (c.in_bounds start = true → cost start < 0 →
      c.find_path start goal cost = .ok none) := by
  refine ⟨fun h => ?_, fun h hg => ?_, fun h hc => ?_⟩
  · simp [PathCache.find_path, h]
  · simp [PathCache.find_path, h, hg]
  · by_cases hg : c.in_bounds goal = true
    · simp [PathCache.find_path, h, hg, hc]
    · simp only [Bool.not_eq_true] at hg
      simp [PathCache.find_path, h, hg]

/-- Witness for C5 on the strip cache: an out-of-bounds start, an
out-of-bounds goal, and a start standing on a wall. -/
theorem find_path_input_checks_witness :
    cacheB.find_path (0, 5) (0, 0) costB = .error "start is out of bounds" ∧
    cacheB.find_path (0, 0) (5, 5) costB = .ok none ∧
    cacheB.find_path (0, 0) (0, 1) (fun _ => -1) = .ok none :=
  ⟨(find_path_input_checks cacheB (0, 5) (0, 0) costB).1 (by decide),
   (find_path_input_checks cacheB (0, 0) (5, 5) costB).2.1 (by decide) (by decide),
   (find_path_input_checks cacheB (0, 0) (0, 1) (fun _ => -1)).2.2 (by decide) (by decide)⟩

/-! ## Claim C10: empty goal list -/

/-- C10: with an in-bounds start, `find_paths` on an empty goal slice
returns the empty map without panicking, and `find_closest_goal` on an
empty slice returns none. -/
theorem find_paths_empty_goals (c : PathCache) (start : Point) (cost : CostFn)
    (h : c.in_bounds start = true) :
    c.find_paths start [] cost = .ok [] ∧
    c.find_closest_goal start [] cost = .ok none := by
  constructor
  · simp [PathCache.find_paths, PathCache.find_paths_internal, h]
  · simp [PathCache.find_closest_goal, PathCache.find_paths_internal, h, Except.map]

/-- Witness for C10 on the strip cache. -/
theorem find_paths_empty_goals_witness :
    cacheB.find_paths (0, 0) [] costB = .ok [] ∧
    cacheB.find_closest_goal (0, 0) [] costB = .ok none :=
  find_paths_empty_goals cacheB (0, 0) costB (by decide)

/-! ## Shared lemmas about the resolution loop -/

theorem resolveLoop_alookup_of_not_mem (c : PathCache) (start : Point)
    (sp0 : Option (Path Point)) (paths : List (NodeID × Path NodeID)) (cost : CostFn)
    (g : Point) :
    ∀ (gd : List (Point × NodeID × Option (Path Point))) (spm : List (Point × Path Point))
      (out m : List (Point × APath)),
      (∀ e ∈ gd, e.1 ≠ g) →
      c.resolveLoop start sp0 paths cost gd spm out = .ok m →
      alookup g m = alookup g out := by
  intro gd
  induction gd with
  | nil =>
    intro spm out m _ hrun
    simp only [PathCache.resolveLoop] at hrun
    cases hrun
    rfl
  | cons e rest ih =>
    intro spm out m hg hrun
    obtain ⟨goal, gid, gp0⟩ := e
    have hgoal : goal ≠ g := hg _ (List.mem_cons_self _ _)
    have hrest : ∀ e' ∈ rest, e'.1 ≠ g := fun e' he' => hg e' (List.mem_cons_of_mem _ he')
    simp only [PathCache.resolveLoop] at hrun
    split at hrun
    · exact ih spm out m hrest hrun
    · split at hrun
      · split at hrun
        · exact absurd hrun (by simp)
        · rw [ih _ _ m hrest hrun, alookup_ainsert_ne _ _ _ _ hgoal]
      · split at hrun
        · split at hrun
          · exact absurd hrun (by simp)
          · rw [ih _ _ m hrest hrun, alookup_ainsert_ne _ _ _ _ hgoal]
        · split at hrun
          · split at hrun
            · exact absurd hrun (by simp)
            · rw [ih _ _ m hrest hrun, alookup_ainsert_ne _ _ _ _ hgoal]
          · split at hrun
            · split at hrun
              · rw [ih _ _ m hrest hrun, alookup_ainsert_ne _ _ _ _ hgoal]
              · split at hrun
                · exact absurd hrun (by simp)
                · rw [ih _ _ m hrest hrun, alookup_ainsert_ne _ _ _ _ hgoal]
            · split at hrun
              · exact absurd hrun (by simp)
              · split at hrun
                · rw [ih _ _ m hrest hrun, alookup_ainsert_ne _ _ _ _ hgoal]
                · split at hrun
                  · exact absurd hrun (by simp)
                  · rw [ih _ _ m hrest hrun, alookup_ainsert_ne _ _ _ _ hgoal]

/-! ## Lemmas for Claim C3 -/

theorem collectStep_fields_oc (c : PathCache) (start : Point) (cost : CostFn)
    (acc1 acc2 : GoalAcc) (goal : Point)
    (hgd : acc1.goal_data = acc2.goal_data) (hids : acc1.goal_ids = acc2.goal_ids)
    (hret : acc1.ret = acc2.ret) :
    (c.collectStep start cost true acc1 goal).goal_data =
      (c.collectStep start cost false acc2 goal).goal_data ∧
    (c.collectStep start cost true acc1 goal).goal_ids =
      (c.collectStep start cost false acc2 goal).goal_ids ∧
    (c.collectStep start cost true acc1 goal).ret =
      (c.collectStep start cost false acc2 goal).ret := by
  unfold PathCache.collectStep
  by_cases hgs : goal = start
  · simp [hgs, hgd, hids, hret]
  · by_cases hin : c.in_bounds goal = true
    · cases hsn : c.find_nearest_node goal cost true with
      | none => simp [hgs, hin, hsn, hgd, hids, hret]
      | some r => obtain ⟨gid, gp⟩ := r; simp [hgs, hin, hsn, hgd, hids, hret]
    · simp only [Bool.not_eq_true] at hin
      simp [hgs, hin, hgd, hids, hret]

theorem collectGoals_fields_oc (c : PathCache) (start : Point) (cost : CostFn)
    (goals : List Point) :
    (c.collectGoals start cost true goals).goal_data =
      (c.collectGoals start cost false goals).goal_data ∧
    (c.collectGoals start cost true goals).goal_ids =
      (c.collectGoals start cost false goals).goal_ids ∧
    (c.collectGoals start cost true goals).ret =
      (c.collectGoals start cost false goals).ret := by
  have aux : ∀ (gs : List Point) (acc1 acc2 : GoalAcc),
      acc1.goal_data = acc2.goal_data → acc1.goal_ids = acc2.goal_ids →
      acc1.ret = acc2.ret →
      (gs.foldl (c.collectStep start cost true) acc1).goal_data =
        (gs.foldl (c.collectStep start cost false) acc2).goal_data ∧
      (gs.foldl (c.collectStep start cost true) acc1).goal_ids =
        (gs.foldl (c.collectStep start cost false) acc2).goal_ids ∧
      (gs.foldl (c.collectStep start cost true) acc1).ret =
        (gs.foldl (c.collectStep start cost false) acc2).ret := by
    intro gs
    induction gs with
    | nil => intro acc1 acc2 h1 h2 h3; exact ⟨h1, h2, h3⟩
    | cons goal rest ih =>
      intro acc1 acc2 h1 h2 h3
      simp only [List.foldl_cons]
      obtain ⟨g1, g2, g3⟩ := collectStep_fields_oc c start cost acc1 acc2 goal h1 h2 h3
      exact ih _ _ g1 g2 g3
  exact aux goals ⟨[], [], [], 0⟩ ⟨[], [], [], 0⟩ rfl rfl rfl

theorem collectStep_goal_data (c : PathCache) (start : Point) (cost : CostFn)
    (oc : Bool) (acc : GoalAcc) (goal : Point) :
    (c.collectStep start cost oc acc goal).goal_data = acc.goal_data ∨
    (goal ≠ start ∧ ∃ gid gp, c.find_nearest_node goal cost true = some (gid, gp) ∧
      (c.collectStep start cost oc acc goal).goal_data =
        acc.goal_data ++ [(goal, gid, gp)]) := by
  unfold PathCache.collectStep
  by_cases hgs : goal = start
  · left; simp [hgs]
  · by_cases hin : c.in_bounds goal = true
    · cases hsn : c.find_nearest_node goal cost true with
      | none => left; simp [hgs, hin, hsn]
      | some r =>
        obtain ⟨gid, gp⟩ := r
        right
        refine ⟨hgs, gid, gp, rfl, ?_⟩
        simp [hgs, hin, hsn]
    · simp only [Bool.not_eq_true] at hin
      left; simp [hgs, hin]

theorem collectStep_ret_eq (c : PathCache) (start : Point) (cost : CostFn)
    (oc : Bool) (acc : GoalAcc) (goal : Point) :
    (c.collectStep start cost oc acc goal).ret = acc.ret ∨
    (goal = start ∧ (c.collectStep start cost oc acc goal).ret =
      ainsert start (APath.fromKnown ⟨[start, start], 0⟩) acc.ret) := by
  unfold PathCache.collectStep
  by_cases hgs : goal = start
  · right; exact ⟨hgs, by simp [hgs]⟩
  · by_cases hin : c.in_bounds goal = true
    · cases hsn : c.find_nearest_node goal cost true with
      | none => left; simp [hgs, hin, hsn]
      | some r => obtain ⟨gid, gp⟩ := r; left; simp [hgs, hin, hsn]
    · simp only [Bool.not_eq_true] at hin
      left; simp [hgs, hin]

theorem collectGoals_goal_data_spec (c : PathCache) (start : Point) (cost : CostFn)
    (oc : Bool) (goals : List Point) :
    ∀ e ∈ (c.collectGoals start cost oc goals).goal_data,
      c.find_nearest_node e.1 cost true = some (e.2.1, e.2.2) := by
  have aux : ∀ (gs : List Point) (acc : GoalAcc),
      (∀ e ∈ acc.goal_data, c.find_nearest_node e.1 cost true = some (e.2.1, e.2.2)) →
      ∀ e ∈ (gs.foldl (c.collectStep start cost oc) acc).goal_data,
        c.find_nearest_node e.1 cost true = some (e.2.1, e.2.2) := by
    intro gs
    induction gs with
    | nil => intro acc hacc; exact hacc
    | cons goal rest ih =>
      intro acc hacc
      simp only [List.foldl_cons]
      refine ih _ ?_
      rcases collectStep_goal_data c start cost oc acc goal with h | ⟨_, gid, gp, hsn, h⟩
      · rw [h]; exact hacc
      · rw [h]
        intro e he
        simp only [List.mem_append, List.mem_singleton] at he
        rcases he with he | he
        · exact hacc e he
        · subst he; simpa using hsn
  exact aux goals ⟨[], [], [], 0⟩ (by simp)

theorem collectGoals_ret_keys (c : PathCache) (start : Point) (cost : CostFn)
    (oc : Bool) (goals : List Point) :
    ∀ k v, alookup k (c.collectGoals start cost oc goals).ret = some v → k = start := by
  have aux : ∀ (gs : List Point) (acc : GoalAcc),
      (∀ k v, alookup k acc.ret = some v → k = start) →
      ∀ k v, alookup k ((gs.foldl (c.collectStep start cost oc) acc)).ret = some v →
        k = start := by
    intro gs
    induction gs with
    | nil => intro acc hacc; exact hacc
    | cons goal rest ih =>
      intro acc hacc
      simp only [List.foldl_cons]
      refine ih _ ?_
      intro k v hk
      unfold PathCache.collectStep at hk
      by_cases hgs : goal = start
      · simp only [hgs, if_true, ite_true] at hk
        by_cases hks : k = start
        · exact hks
        · rw [alookup_ainsert_ne _ _ _ _ (fun h => hks h.symm)] at hk
          exact hacc k v hk
      · rw [if_neg hgs] at hk
        by_cases hin : c.in_bounds goal = true
        · rw [if_neg (by simp [hin])] at hk
          cases hsn : c.find_nearest_node goal cost true with
          | none => rw [hsn] at hk; exact hacc k v hk
          | some r =>
            obtain ⟨gid, gp⟩ := r
            rw [hsn] at hk
            exact hacc k v hk
        · simp only [Bool.not_eq_true] at hin
          rw [if_pos (by simp [hin])] at hk
          exact hacc k v hk
  exact aux goals ⟨[], [], [], 0⟩ (by intro k v h; simp [alookup] at h)

theorem graphDijkstraSearch_true_eq (nl : NodeList) (start : NodeID) (goals : List NodeID) :
    graphDijkstraSearch nl start goals true =
      (((graphSettled nl start (fun _ => 0)).filter
        (fun s => decide (s.id ∈ goals))).take 1).filterMap
        (fun s => (buildNodeSeq (graphSettled nl start (fun _ => 0))
          ((graphSettled nl start (fun _ => 0)).length + 1) s.id).map
          (fun l => (s.id, (⟨l, s.g⟩ : Path NodeID)))) := rfl

theorem graphDijkstraSearch_false_eq (nl : NodeList) (start : NodeID) (goals : List NodeID) :
    graphDijkstraSearch nl start goals false =
      ((graphSettled nl start (fun _ => 0)).filter
        (fun s => decide (s.id ∈ goals))).filterMap
        (fun s => (buildNodeSeq (graphSettled nl start (fun _ => 0))
          ((graphSettled nl start (fun _ => 0)).length + 1) s.id).map
          (fun l => (s.id, (⟨l, s.g⟩ : Path NodeID)))) := rfl

theorem graphDijkstra_closest_entry (nl : NodeList) (start : NodeID) (goals : List NodeID)
    (gid : NodeID) (npath : Path NodeID)
    (h : alookup gid (graphDijkstraSearch nl start goals true) = some npath) :
    alookup gid (graphDijkstraSearch nl start goals false) = some npath := by
  rw [graphDijkstraSearch_true_eq] at h
  rw [graphDijkstraSearch_false_eq]
  cases hhits : (graphSettled nl start fun _ => 0).filter
      (fun s => decide (s.id ∈ goals)) with
  | nil => rw [hhits] at h; simp [alookup] at h
  | cons h0 rest =>
    rw [hhits] at h
    simp only [List.take_succ_cons, List.take_zero, List.filterMap_cons, List.filterMap_nil] at h
    cases hb : buildNodeSeq (graphSettled nl start fun _ => 0)
        ((graphSettled nl start fun _ => 0).length + 1) h0.id with
    | none => rw [hb] at h; simp [alookup] at h
    | some l =>
      rw [hb] at h
      simp only [List.filterMap_cons, hb, Option.map_some']
      simp only [Option.map_some', alookup] at h
      simp only [alookup]
      by_cases hid : h0.id = gid
      · rw [if_pos hid] at h ⊢
        exact h
      · rw [if_neg hid] at h
        cases h

theorem resolveLoop_cons_found (c : PathCache) (start : Point)
    (sp0 : Option (Path Point)) (paths : List (NodeID × Path NodeID)) (cost : CostFn)
    (goal : Point) (gid : NodeID) (gp0 : Option (Path Point))
    (rest : List (Point × NodeID × Option (Path Point)))
    (spm : List (Point × Path Point)) (out : List (Point × APath)) (npath : Path NodeID)
    (h : alookup gid paths = some npath) :
    c.resolveLoop start sp0 paths cost ((goal, gid, gp0) :: rest) spm out =
      match c.entryStep start sp0 cost goal gp0 npath spm with
      | .error e => .error e
      | .ok (fp, spm') =>
        c.resolveLoop start sp0 paths cost rest spm' (ainsert goal fp out) := by
  simp only [PathCache.resolveLoop, PathCache.entryStep, h]
  by_cases hcond : npath.seq.length = 1 ∨
      (c.config.a_star_fallback = true ∧ npath.cost < 2 * c.config.chunk_size)
  · rw [if_pos hcond, if_pos hcond]
    cases c.grid_a_star start goal cost <;> rfl
  · rw [if_neg hcond, if_neg hcond]
    cases sp0 with
    | none =>
      cases c.resolveTail start goal gp0 none npath.seq cost <;> simp [Except.map]
    | some sp =>
      cases hcand : (((npath.seq.map (nodePosD c.nodes) ++ [goal]).enum.drop 1).takeWhile
          (fun ip => c.same_chunk start ip.2)).getLast? with
      | none =>
        cases c.resolveTail start goal gp0 (some sp) npath.seq cost <;> simp [Except.map]
      | some iv =>
        obtain ⟨index, next_pos⟩ := iv
        cases hsl : alookup next_pos spm with
        | some cachedp =>
          simp only [hsl]
          by_cases hng : next_pos = goal
          · simp [hng]
          · simp only [if_neg hng]
            cases c.resolveTail start goal gp0 (some cachedp) (npath.seq.drop index) cost <;>
              simp [Except.map]
        | none =>
          simp only [hsl]
          cases hcf : (c.get_chunk start).find_path start next_pos cost with
          | none => rfl
          | some newp =>
            by_cases hng : next_pos = goal
            · simp [hng]
            · simp only [if_neg hng]
              cases c.resolveTail start goal gp0 (some newp) (npath.seq.drop index) cost <;>
                simp [Except.map]

theorem except_map_ok_inv {e a b : Type} {f : a → b} {x : a} {y : b}
    (h : Except.map f (Except.ok x) = (Except.ok y : Except e b)) : f x = y := by
  have h2 : Except.ok (f x) = (Except.ok y : Except e b) := h
  exact Except.ok.inj h2

theorem alookup_ainsert_congr {κ α : Type} [DecidableEq κ] (k g : κ) (v : α)
    (l1 l2 : List (κ × α)) (h : alookup g l1 = alookup g l2) :
    alookup g (ainsert k v l1) = alookup g (ainsert k v l2) := by
  by_cases hkg : k = g
  · subst hkg
    rw [alookup_ainsert_self, alookup_ainsert_self]
  · rw [alookup_ainsert_ne _ _ _ _ hkg, alookup_ainsert_ne _ _ _ _ hkg, h]

theorem spmInv_nil (c : PathCache) (start : Point) (cost : CostFn) :
    spmInv c start cost [] := by
  intro k v h
  simp [alookup] at h

theorem spmInv_ainsert (c : PathCache) (start : Point) (cost : CostFn)
    (spm : List (Point × Path Point)) (np : Point) (q : Path Point)
    (h : spmInv c start cost spm)
    (hq : (c.get_chunk start).find_path start np cost = some q) :
    spmInv c start cost (ainsert np q spm) := by
  intro k v hk
  by_cases hkn : np = k
  · subst hkn
    rw [alookup_ainsert_self] at hk
    cases hk
    exact hq
  · rw [alookup_ainsert_ne _ _ _ _ hkn] at hk
    exact h k v hk

theorem entryStep_agree (c : PathCache) (start : Point) (sp0 : Option (Path Point))
    (cost : CostFn) (goal : Point) (gp0 : Option (Path Point)) (npath : Path NodeID)
    (spm1 spm2 : List (Point × Path Point))
    (h1 : spmInv c start cost spm1) (h2 : spmInv c start cost spm2) :
    ∀ v s1, c.entryStep start sp0 cost goal gp0 npath spm1 = .ok (v, s1) →
      spmInv c start cost s1 ∧
      ∃ s2, c.entryStep start sp0 cost goal gp0 npath spm2 = .ok (v, s2) ∧
        spmInv c start cost s2 := by
  intro v s1 hrun
  unfold PathCache.entryStep at hrun ⊢
  by_cases hcond : npath.seq.length = 1 ∨
      (c.config.a_star_fallback = true ∧ npath.cost < 2 * c.config.chunk_size)
  · rw [if_pos hcond] at hrun ⊢
    cases hga : c.grid_a_star start goal cost with
    | none => rw [hga] at hrun; cases hrun
    | some p =>
      simp only [hga] at hrun
      cases hrun
      exact ⟨h1, spm2, rfl, h2⟩
  · rw [if_neg hcond] at hrun ⊢
    cases sp0 with
    | none =>
      cases hrt : c.resolveTail start goal gp0 none npath.seq cost with
      | error e => rw [hrt] at hrun; simp [Except.map] at hrun
      | ok fp =>
        rw [hrt] at hrun
        cases except_map_ok_inv hrun
        exact ⟨h1, spm2, rfl, h2⟩
    | some sp =>
      cases hcand : (((npath.seq.map (nodePosD c.nodes) ++ [goal]).enum.drop 1).takeWhile
          (fun ip => c.same_chunk start ip.2)).getLast? with
      | none =>
        simp only [hcand] at hrun ⊢
        cases hrt : c.resolveTail start goal gp0 (some sp) npath.seq cost with
        | error e => rw [hrt] at hrun; simp [Except.map] at hrun
        | ok fp =>
          rw [hrt] at hrun
          cases except_map_ok_inv hrun
          exact ⟨h1, spm2, rfl, h2⟩
      | some iv =>
        obtain ⟨index, next_pos⟩ := iv
        simp only [hcand] at hrun ⊢
        cases hsl1 : alookup next_pos spm1 with
        | some c1 =>
          have hcf1 : (c.get_chunk start).find_path start next_pos cost = some c1 :=
            h1 _ _ hsl1
          simp only [hsl1] at hrun
          cases hsl2 : alookup next_pos spm2 with
          | some c2 =>
            have hc21 : c1 = c2 := by
              have hcf2 := h2 _ _ hsl2
              rw [hcf1] at hcf2
              exact Option.some_inj.mp hcf2
            subst hc21
            simp only [hsl2]
            by_cases hng : next_pos = goal
            · rw [if_pos hng] at hrun ⊢
              cases hrun
              exact ⟨h1, spm2, rfl, h2⟩
            · rw [if_neg hng] at hrun ⊢
              cases hrt : c.resolveTail start goal gp0 (some c1) (npath.seq.drop index) cost with
              | error e => rw [hrt] at hrun; simp [Except.map] at hrun
              | ok fp =>
                rw [hrt] at hrun
                cases except_map_ok_inv hrun
                exact ⟨h1, spm2, rfl, h2⟩
          | none =>
            simp only [hsl2, hcf1]
            by_cases hng : next_pos = goal
            · rw [if_pos hng] at hrun ⊢
              cases hrun
              exact ⟨h1, ainsert next_pos c1 spm2, rfl, spmInv_ainsert _ _ _ _ _ _ h2 hcf1⟩
            · rw [if_neg hng] at hrun ⊢
              cases hrt : c.resolveTail start goal gp0 (some c1) (npath.seq.drop index) cost with
              | error e => rw [hrt] at hrun; simp [Except.map] at hrun
              | ok fp =>
                rw [hrt] at hrun
                cases except_map_ok_inv hrun
                exact ⟨h1, ainsert next_pos c1 spm2, rfl,
                  spmInv_ainsert _ _ _ _ _ _ h2 hcf1⟩
        | none =>
          simp only [hsl1] at hrun
          cases hcf : (c.get_chunk start).find_path start next_pos cost with
          | none => simp only [hcf] at hrun; cases hrun
          | some q =>
            simp only [hcf] at hrun
            have hinv1' : spmInv c start cost (ainsert next_pos q spm1) :=
              spmInv_ainsert _ _ _ _ _ _ h1 hcf
            cases hsl2 : alookup next_pos spm2 with
            | some c2 =>
              have hc2q : q = c2 := by
                have hcf2 := h2 _ _ hsl2
                rw [hcf] at hcf2
                exact Option.some_inj.mp hcf2
              subst hc2q
              simp only [hsl2]
              by_cases hng : next_pos = goal
              · rw [if_pos hng] at hrun ⊢
                cases hrun
                exact ⟨hinv1', spm2, rfl, h2⟩
              · rw [if_neg hng] at hrun ⊢
                cases hrt : c.resolveTail start goal gp0 (some q) (npath.seq.drop index) cost with
                | error e => rw [hrt] at hrun; simp [Except.map] at hrun
                | ok fp =>
                  rw [hrt] at hrun
                  cases except_map_ok_inv hrun
                  exact ⟨hinv1', spm2, rfl, h2⟩
            | none =>
              simp only [hsl2, hcf]
              by_cases hng : next_pos = goal
              · rw [if_pos hng] at hrun ⊢
                cases hrun
                exact ⟨hinv1', ainsert next_pos q spm2, rfl,
                  spmInv_ainsert _ _ _ _ _ _ h2 hcf⟩
              · rw [if_neg hng] at hrun ⊢
                cases hrt : c.resolveTail start goal gp0 (some q) (npath.seq.drop index) cost with
                | error e => rw [hrt] at hrun; simp [Except.map] at hrun
                | ok fp =>
                  rw [hrt] at hrun
                  cases except_map_ok_inv hrun
                  exact ⟨hinv1', ainsert next_pos q spm2, rfl,
                    spmInv_ainsert _ _ _ _ _ _ h2 hcf⟩

theorem resolveLoop_skip_key (c : PathCache) (start : Point) (sp0 : Option (Path Point))
    (paths : List (NodeID × Path NodeID)) (cost : CostFn) (g : Point) :
    ∀ (gd : List (Point × NodeID × Option (Path Point))) (spm : List (Point × Path Point))
      (out m : List (Point × APath)),
      (∀ e ∈ gd, e.1 = g → alookup e.2.1 paths = none) →
      c.resolveLoop start sp0 paths cost gd spm out = .ok m →
      alookup g m = alookup g out := by
  intro gd
  induction gd with
  | nil =>
    intro spm out m _ hrun
    simp only [PathCache.resolveLoop] at hrun
    cases hrun
    rfl
  | cons e rest ih =>
    intro spm out m hskip hrun
    obtain ⟨goal, gid, gp0⟩ := e
    cases hl : alookup gid paths with
    | none =>
      simp only [PathCache.resolveLoop, hl] at hrun
      exact ih spm out m (fun e' he' => hskip e' (List.mem_cons_of_mem _ he')) hrun
    | some np =>
      have hne : goal ≠ g := by
        intro hc
        have := hskip (goal, gid, gp0) (List.mem_cons_self _ _) hc
        rw [hl] at this
        cases this
      rw [resolveLoop_cons_found c start sp0 paths cost goal gid gp0 rest spm out np hl]
        at hrun
      cases hes : c.entryStep start sp0 cost goal gp0 np spm with
      | error e' => rw [hes] at hrun; cases hrun
      | ok r =>
        obtain ⟨v, s⟩ := r
        rw [hes] at hrun
        rw [ih s _ m (fun e' he' => hskip e' (List.mem_cons_of_mem _ he')) hrun]
        exact alookup_ainsert_ne _ _ _ _ hne

theorem resolveLoop_agree (c : PathCache) (start : Point) (sp0 : Option (Path Point))
    (cost : CostFn) (paths1 paths2 : List (NodeID × Path NodeID)) (g : Point)
    (hmono : ∀ gid np, alookup gid paths1 = some np → alookup gid paths2 = some np) :
    ∀ (gd : List (Point × NodeID × Option (Path Point)))
      (spm1 spm2 : List (Point × Path Point)) (out1 out2 m1 m2 : List (Point × APath)),
      spmInv c start cost spm1 → spmInv c start cost spm2 →
      (∀ e ∈ gd, e.1 = g → (alookup e.2.1 paths1).isSome = true) →
      alookup g out1 = alookup g out2 →
      c.resolveLoop start sp0 paths1 cost gd spm1 out1 = .ok m1 →
      c.resolveLoop start sp0 paths2 cost gd spm2 out2 = .ok m2 →
      alookup g m1 = alookup g m2 := by
  intro gd
  induction gd with
  | nil =>
    intro spm1 spm2 out1 out2 m1 m2 _ _ _ hout hr1 hr2
    simp only [PathCache.resolveLoop] at hr1 hr2
    cases hr1
    cases hr2
    exact hout
  | cons e rest ih =>
    intro spm1 spm2 out1 out2 m1 m2 hinv1 hinv2 hkg hout hr1 hr2
    obtain ⟨goal, gid, gp0⟩ := e
    have hkgrest : ∀ e' ∈ rest, e'.1 = g → (alookup e'.2.1 paths1).isSome = true :=
      fun e' he' => hkg e' (List.mem_cons_of_mem _ he')
    cases hl1 : alookup gid paths1 with
    | some np =>
      have hl2 : alookup gid paths2 = some np := hmono _ _ hl1
      rw [resolveLoop_cons_found c start sp0 paths1 cost goal gid gp0 rest spm1 out1 np hl1]
        at hr1
      rw [resolveLoop_cons_found c start sp0 paths2 cost goal gid gp0 rest spm2 out2 np hl2]
        at hr2
      cases hes1 : c.entryStep start sp0 cost goal gp0 np spm1 with
      | error e' => rw [hes1] at hr1; cases hr1
      | ok r =>
        obtain ⟨v, s1⟩ := r
        rw [hes1] at hr1
        obtain ⟨hinv1', s2, hes2, hinv2'⟩ :=
          entryStep_agree c start sp0 cost goal gp0 np spm1 spm2 hinv1 hinv2 v s1 hes1
        rw [hes2] at hr2
        exact ih s1 s2 _ _ m1 m2 hinv1' hinv2' hkgrest
          (alookup_ainsert_congr _ _ _ _ _ hout) hr1 hr2
    | none =>
      have hne : goal ≠ g := by
        intro hc
        have := hkg (goal, gid, gp0) (List.mem_cons_self _ _) hc
        rw [hl1] at this
        simp at this
      simp only [PathCache.resolveLoop, hl1] at hr1
      cases hl2 : alookup gid paths2 with
      | none =>
        simp only [PathCache.resolveLoop, hl2] at hr2
        exact ih spm1 spm2 out1 out2 m1 m2 hinv1 hinv2 hkgrest hout hr1 hr2
      | some np2 =>
        rw [resolveLoop_cons_found c start sp0 paths2 cost goal gid gp0 rest spm2 out2 np2 hl2]
          at hr2
        cases hes2 : c.entryStep start sp0 cost goal gp0 np2 spm2 with
        | error e' => rw [hes2] at hr2; cases hr2
        | ok r =>
          obtain ⟨v2, s2⟩ := r
          rw [hes2] at hr2
          have hinv2' : spmInv c start cost s2 :=
            (entryStep_agree c start sp0 cost goal gp0 np2 spm2 spm2 hinv2 hinv2 v2 s2 hes2).1
          refine ih spm1 s2 out1 _ m1 m2 hinv1 hinv2' hkgrest ?_ hr1 hr2
          rw [hout]
          exact (alookup_ainsert_ne _ _ _ _ hne).symm

theorem collectGoals_goal_data_ne_start (c : PathCache) (start : Point) (cost : CostFn)
    (oc : Bool) (goals : List Point) :
    ∀ e ∈ (c.collectGoals start cost oc goals).goal_data, e.1 ≠ start := by
  have aux : ∀ (gs : List Point) (acc : GoalAcc),
      (∀ e ∈ acc.goal_data, e.1 ≠ start) →
      ∀ e ∈ (gs.foldl
        (fun acc goal =>
          if goal = start then
            { acc with ret := ainsert goal (APath.fromKnown ⟨[start, start], 0⟩) acc.ret }
          else if ¬ c.in_bounds goal then acc
          else
            match c.find_nearest_node goal cost true with
            | none => acc
            | some (goal_id, goal_path) =>
              { goal_data := acc.goal_data ++ [(goal, goal_id, goal_path)],
                goal_ids := acc.goal_ids ++ [goal_id],
                ret := acc.ret,
                heuristic :=
                  if oc then min acc.heuristic (Nbh.heuristic start goal)
                  else max acc.heuristic (Nbh.heuristic start goal) }) acc).goal_data,
        e.1 ≠ start := by
    intro gs
    induction gs with
    | nil => intro acc hacc; simpa using hacc
    | cons goal rest ih =>
      intro acc hacc
      simp only [List.foldl_cons]
      by_cases hgs : goal = start
      · exact ih _ (by simpa [hgs] using hacc)
      · by_cases hin : c.in_bounds goal = true
        · cases hsn : c.find_nearest_node goal cost true with
          | none => simp only [hgs, hin, hsn]; exact ih _ (by simpa [hgs, hin, hsn] using hacc)
          | some r =>
            obtain ⟨gid, gp⟩ := r
            refine ih _ ?_
            simp only [hgs, hin, hsn, if_false, if_true, not_true, ite_false]
            intro e he
            simp only [List.mem_append, List.mem_singleton] at he
            rcases he with he | he
            · exact hacc e he
            · subst he; exact hgs
        · simp only [Bool.not_eq_true] at hin
          exact ih _ (by simpa [hgs, hin] using hacc)
  exact aux goals ⟨[], [], [], 0⟩ (by simp)

theorem alookup_of_head {κ α : Type} [DecidableEq κ] (l : List (κ × α)) (k : κ) (v : α)
    (h : l.head? = some (k, v)) : alookup k l = some v := by
  cases l with
  | nil => simp at h
  | cons hd tl =>
    simp only [List.head?_cons, Option.some_inj] at h
    subst h
    simp [alookup]

/-- C3: whenever `find_closest_goal` answers with a goal `g` and a path `p`
and `find_paths` on the same input answers with a map, that map's entry at
`g` is exactly `p`: the closest-only query returns one of the full query's
entries, with the identical resolved path. (The minimality clause of the
claim is refuted separately: the returned goal is the first settled hit of
the closest-only graph search after start/goal snapping, which need not
minimize the resolved path cost.) -/
theorem find_closest_goal_entry_agrees (c : PathCache) (start : Point) (goals : List Point)
    (cost : CostFn) (g : Point) (p : APath) (m : List (Point × APath))
    (h1 : c.find_closest_goal start goals cost = .ok (some (g, p)))
    (h2 : c.find_paths start goals cost = .ok m) :
    alookup g m = some p := by
  unfold PathCache.find_closest_goal at h1
  unfold PathCache.find_paths at h2
  cases hi1 : c.find_paths_internal start goals cost true with
  | error e => rw [hi1] at h1; simp [Except.map] at h1
  | ok l1 =>
    rw [hi1] at h1
    have hhead : l1.head? = some (g, p) := except_map_ok_inv h1
    clear h1
    unfold PathCache.find_paths_internal at hi1 h2
    by_cases hbs : c.in_bounds start = true
    · rw [if_neg (by simp [hbs])] at hi1 h2
      by_cases hcg : cost start < 0 ∨ goals = []
      · rw [if_pos hcg] at hi1
        cases hi1
        simp at hhead
      · rw [if_neg hcg] at hi1 h2
        by_cases hlen : goals.length = 1
        · rw [if_pos hlen] at hi1 h2
          cases hfp : c.find_path start goals.headI cost with
          | error e => simp only [hfp] at hi1; cases hi1
          | ok op =>
            cases op with
            | none =>
              simp only [hfp] at hi1
              cases hi1
              simp at hhead
            | some p' =>
              simp only [hfp] at hi1 h2
              cases hi1
              cases h2
              simp only [List.head?_cons, Option.some_inj] at hhead
              cases hhead
              simp [alookup]
        · rw [if_neg hlen] at hi1 h2
          cases hsn : c.find_nearest_node start cost false with
          | none =>
            simp only [hsn] at hi1 h2
            cases hi1
            cases h2
            exact alookup_of_head _ _ _ hhead
          | some sv =>
            obtain ⟨start_id, start_path⟩ := sv
            simp only [hsn] at hi1 h2
            obtain ⟨hgd, hgi, hret⟩ := collectGoals_fields_oc c start cost goals
            rw [hgd, hgi, hret] at hi1
            unfold PathCache.resolve_paths at hi1 h2
            have ha : alookup g l1 = some p := alookup_of_head _ _ _ hhead
            by_cases hex : ∀ e ∈ (c.collectGoals start cost false goals).goal_data,
                e.1 = g → alookup e.2.1
                  (graphDijkstraSearch c.nodes start_id
                    (c.collectGoals start cost false goals).goal_ids true) = none
            · have hskip1 := resolveLoop_skip_key c start start_path
                (graphDijkstraSearch c.nodes start_id
                  (c.collectGoals start cost false goals).goal_ids true) cost g
                (c.collectGoals start cost false goals).goal_data []
                (c.collectGoals start cost false goals).ret l1 hex hi1
              rw [hskip1] at ha
              have hgs : g = start := collectGoals_ret_keys c start cost false goals g p ha
              by_cases hex2 : ∀ e ∈ (c.collectGoals start cost false goals).goal_data,
                  e.1 = g → alookup e.2.1
                    (graphDijkstraSearch c.nodes start_id
                      (c.collectGoals start cost false goals).goal_ids false) = none
              · have hskip2 := resolveLoop_skip_key c start start_path
                  (graphDijkstraSearch c.nodes start_id
                    (c.collectGoals start cost false goals).goal_ids false) cost g
                  (c.collectGoals start cost false goals).goal_data []
                  (c.collectGoals start cost false goals).ret m hex2 h2
                rw [hskip2]
                exact ha
              · push_neg at hex2
                obtain ⟨e0, he0, hkey, _⟩ := hex2
                exact absurd (hgs ▸ hkey)
                  (collectGoals_goal_data_ne_start c start cost false goals e0 he0)
            · push_neg at hex
              obtain ⟨e0, he0, hkey0, hlk0⟩ := hex
              cases hlk : alookup e0.2.1
                  (graphDijkstraSearch c.nodes start_id
                    (c.collectGoals start cost false goals).goal_ids true) with
              | none => exact absurd hlk hlk0
              | some np0 =>
                have hallsome : ∀ e ∈ (c.collectGoals start cost false goals).goal_data,
                    e.1 = g → (alookup e.2.1
                      (graphDijkstraSearch c.nodes start_id
                        (c.collectGoals start cost false goals).goal_ids true)).isSome
                      = true := by
                  intro e' he' hkey'
                  have hs0 := collectGoals_goal_data_spec c start cost false goals e0 he0
                  have hs1 := collectGoals_goal_data_spec c start cost false goals e' he'
                  rw [hkey0] at hs0
                  rw [hkey'] at hs1
                  rw [hs0] at hs1
                  have hid : e0.2.1 = e'.2.1 := congrArg (fun r => r.1) (Option.some_inj.mp hs1)
                  rw [← hid, hlk]
                  rfl
                have hmono : ∀ gid np, alookup gid
                    (graphDijkstraSearch c.nodes start_id
                      (c.collectGoals start cost false goals).goal_ids true) = some np →
                    alookup gid (graphDijkstraSearch c.nodes start_id
                      (c.collectGoals start cost false goals).goal_ids false) = some np :=
                  fun gid np h => graphDijkstra_closest_entry c.nodes start_id
                    (c.collectGoals start cost false goals).goal_ids gid np h
                have hagree := resolveLoop_agree c start start_path cost
                  (graphDijkstraSearch c.nodes start_id
                    (c.collectGoals start cost false goals).goal_ids true)
                  (graphDijkstraSearch c.nodes start_id
                    (c.collectGoals start cost false goals).goal_ids false) g hmono
                  (c.collectGoals start cost false goals).goal_data [] []
                  (c.collectGoals start cost false goals).ret
                  (c.collectGoals start cost false goals).ret l1 m
                  (spmInv_nil c start cost) (spmInv_nil c start cost) hallsome rfl hi1 h2
                rw [← hagree]
                exact ha
    · simp only [Bool.not_eq_true] at hbs
      rw [if_pos (by simp [hbs])] at hi1
      cases hi1

/-- C3 counterexample: on the doctest cache, from (0,0) with goals
[(4,4), (4,3)], `find_closest_goal` returns the goal (4,4) with cost 12,
although the full query resolves (4,3) at cost 11 < 12: the returned goal
does not minimize the `find_paths` entry costs, refuting the claim's
minimality clause. -/
theorem find_closest_goal_not_minimal_counterexample :
    (cacheA.find_closest_goal (0, 0) [(4, 4), (4, 3)] costA).map
        (Option.map (fun e => (e.1, e.2.cost))) = .ok (some ((4, 4), 12)) ∧
    (cacheA.find_paths (0, 0) [(4, 4), (4, 3)] costA).map
        (fun l => (alookup ((4, 3) : Point) l).map APath.cost) = .ok (some 11) ∧
    (cacheA.find_paths (0, 0) [(4, 4), (4, 3)] costA).map
        (fun l => (alookup ((4, 4) : Point) l).map APath.cost) = .ok (some 12) ∧
    (11 : Nat) < 12 :=
  ⟨rfl, rfl, rfl, by decide⟩

theorem find_closest_goal_entry_agrees_witness :
    alookup ((0, 2) : Point)
      [(((0, 2) : Point), (⟨[(0, 0), (0, 1), (0, 2)], 11⟩ : APath)),
       ((0, 3), ⟨[(0, 0), (0, 1), (0, 2), (0, 3)], 12⟩)] =
      some ⟨[(0, 0), (0, 1), (0, 2)], 11⟩ :=
  find_closest_goal_entry_agrees cacheB (0, 0) [(0, 2), (0, 3)] costB (0, 2)
    ⟨[(0, 0), (0, 1), (0, 2)], 11⟩
    [((0, 2), ⟨[(0, 0), (0, 1), (0, 2)], 11⟩),
     ((0, 3), ⟨[(0, 0), (0, 1), (0, 2), (0, 3)], 12⟩)]
    rfl rfl

/-- C4: `find_paths(start, [b], cost)` is the image of
`find_path(start, b, cost)`: the map contains key `b` exactly when
`find_path` returns some path, and then the map's entry is that very path
(identical tile sequence and cost), because a one-element goal list is
delegated to `find_path`. -/
theorem find_paths_singleton_delegates (c : PathCache) (start b : Point) (cost : CostFn) :
    c.find_paths start [b] cost =
      (c.find_path start b cost).map (fun r =>
        match r with
        | some p => [(b, p)]
        | none => []) ∧
    (∀ m p, c.find_paths start [b] cost = .ok m →
      (alookup b m = some p ↔ c.find_path start b cost = .ok (some p))) := by
  have h1 : c.find_paths start [b] cost =
      (c.find_path start b cost).map (fun r =>
        match r with
        | some p => [(b, p)]
        | none => []) := by
    by_cases hs : c.in_bounds start = true
    · by_cases hc : cost start < 0
      · by_cases hb : c.in_bounds b = true
        · simp [PathCache.find_paths, PathCache.find_paths_internal, PathCache.find_path,
            hs, hb, hc, Except.map]
        · simp only [Bool.not_eq_true] at hb
          simp [PathCache.find_paths, PathCache.find_paths_internal, PathCache.find_path,
            hs, hb, hc, Except.map]
      · simp only [PathCache.find_paths, PathCache.find_paths_internal, hs]
        cases hr : c.find_path start b cost with
        | error e => simp [hr, hc, Except.map]
        | ok r => cases r <;> simp [hr, hc, Except.map]
    · simp only [Bool.not_eq_true] at hs
      simp [PathCache.find_paths, PathCache.find_paths_internal, PathCache.find_path,
        hs, Except.map]
  refine ⟨h1, fun m p hm => ?_⟩
  rw [h1] at hm
  cases hr : c.find_path start b cost with
  | error e => rw [hr] at hm; simp [Except.map] at hm
  | ok r =>
    rw [hr] at hm
    cases r with
    | none =>
      simp only [Except.map] at hm
      cases hm
      simp [alookup]
    | some p' =>
      simp only [Except.map] at hm
      cases hm
      simp [alookup]

/-! ## Claim C8: degenerate self-paths -/


theorem collectGoals_ret_self (c : PathCache) (start : Point) (cost : CostFn)
    (oc : Bool) (goals : List Point) (hmem : start ∈ goals) :
    alookup start (c.collectGoals start cost oc goals).ret =
      some (APath.fromKnown ⟨[start, start], 0⟩) := by
  have aux : ∀ (gs : List Point) (acc : GoalAcc),
      (start ∈ gs ∨ alookup start acc.ret = some (APath.fromKnown ⟨[start, start], 0⟩)) →
      alookup start ((gs.foldl
        (fun acc goal =>
          if goal = start then
            { acc with ret := ainsert goal (APath.fromKnown ⟨[start, start], 0⟩) acc.ret }
          else if ¬ c.in_bounds goal then acc
          else
            match c.find_nearest_node goal cost true with
            | none => acc
            | some (goal_id, goal_path) =>
              { goal_data := acc.goal_data ++ [(goal, goal_id, goal_path)],
                goal_ids := acc.goal_ids ++ [goal_id],
                ret := acc.ret,
                heuristic :=
                  if oc then min acc.heuristic (Nbh.heuristic start goal)
                  else max acc.heuristic (Nbh.heuristic start goal) }) acc)).ret =
        some (APath.fromKnown ⟨[start, start], 0⟩) := by
    intro gs
    induction gs with
    | nil =>
      intro acc hacc
      rcases hacc with h | h
      · cases h
      · simpa using h
    | cons goal rest ih =>
      intro acc hacc
      simp only [List.foldl_cons]
      by_cases hgs : goal = start
      · refine ih _ (Or.inr ?_)
        subst hgs
        simp [alookup_ainsert_self]
      · have hnext : start ∈ rest ∨
            alookup start acc.ret = some (APath.fromKnown ⟨[start, start], 0⟩) := by
          rcases hacc with h | h
          · rcases List.mem_cons.mp h with h' | h'
            · exact absurd h'.symm hgs
            · exact Or.inl h'
          · exact Or.inr h
        by_cases hin : c.in_bounds goal = true
        · cases hsn : c.find_nearest_node goal cost true with
          | none => exact ih _ (by simpa [hgs, hin, hsn] using hnext)
          | some r =>
            obtain ⟨gid, gp⟩ := r
            refine ih _ ?_
            simpa [hgs, hin, hsn] using hnext
        · simp only [Bool.not_eq_true] at hin
          exact ih _ (by simpa [hgs, hin] using hnext)
  exact aux goals ⟨[], [], [], 0⟩ (Or.inl hmem)

theorem chunk_find_paths_self (ch : Chunk) (start : Point) (goals : List Point)
    (cost : CostFn) (hmem : start ∈ goals) :
    alookup start ((ch.find_paths start goals cost).map
      (fun gp => (gp.1, APath.fromKnown gp.2))) =
      some (APath.fromKnown ⟨[start, start], 0⟩) := by
  unfold Chunk.find_paths
  induction goals with
  | nil => cases hmem
  | cons g rest ih =>
    by_cases hg : g = start
    · subst hg
      simp [alookup]
    · have hrest : start ∈ rest := by
        rcases List.mem_cons.mp hmem with h | h
        · exact absurd h.symm hg
        · exact h
      cases hdp : gridDijkstraPath (gridDijkstraSettled ch.inChunk cost ch.area start) g with
      | none => simpa [hg, hdp] using ih hrest
      | some p => simpa [hg, hdp, alookup, Ne.symm hg] using ih hrest

/-- C8: with an in-bounds, walkable start, `find_path(start, start)`
returns the degenerate path encoded as the two-element sequence
`[start, start]` with cost 0, before any snapping to the node graph; and
`find_paths` maps any goal equal to `start` to the same degenerate path. -/
theorem degenerate_self_path (c : PathCache) (start : Point) (cost : CostFn)
    (goals : List Point) (h1 : c.in_bounds start = true) (h2 : 0 ≤ cost start) :
    c.find_path start start cost = .ok (some ⟨[start, start], 0⟩) ∧
    (∀ m, c.find_paths start goals cost = .ok m → start ∈ goals →
      alookup start m = some ⟨[start, start], 0⟩) := by
  have hnl : ¬ cost start < 0 := not_lt.mpr h2
  have hself : c.find_path start start cost = .ok (some ⟨[start, start], 0⟩) := by
    simp [PathCache.find_path, h1, hnl, APath.fromKnown]
  refine ⟨hself, fun m hm hmem => ?_⟩
  match goals, hmem with
  | g :: gs, hmem =>
    cases gs with
    | nil =>
      have hg : g = start := by simpa [eq_comm] using hmem
      subst hg
      rw [PathCache.find_paths, PathCache.find_paths_internal] at hm
      rw [if_neg (by simp [h1])] at hm
      rw [if_neg (by simp [hnl])] at hm
      rw [if_pos (by simp)] at hm
      simp only [List.headI, hself] at hm
      cases hm
      simp [alookup, APath.fromKnown]
    | cons g2 gs2 =>
      rw [PathCache.find_paths, PathCache.find_paths_internal] at hm
      rw [if_neg (by simp [h1])] at hm
      rw [if_neg (by simp [hnl])] at hm
      rw [if_neg (by simp)] at hm
      cases hsn : c.find_nearest_node start cost false with
      | none =>
        rw [hsn] at hm
        cases hm
        exact chunk_find_paths_self _ _ _ _ hmem
      | some r =>
        obtain ⟨start_id, start_path⟩ := r
        rw [hsn] at hm
        have hkeys := collectGoals_goal_data_ne_start c start cost false (g :: g2 :: gs2)
        have := resolveLoop_alookup_of_not_mem c start start_path
          (graphDijkstraSearch c.nodes start_id
            (c.collectGoals start cost false (g :: g2 :: gs2)).goal_ids false)
          cost start (c.collectGoals start cost false (g :: g2 :: gs2)).goal_data []
          (c.collectGoals start cost false (g :: g2 :: gs2)).ret m hkeys hm
        rw [this, collectGoals_ret_self c start cost false _ hmem]
        simp [APath.fromKnown]

/-- Witness for C8 on the strip cache: the degenerate self-path of
`find_path` and the self-goal entry of a two-goal `find_paths` query. -/
theorem degenerate_self_path_witness :
    cacheB.find_path (0, 0) (0, 0) costB = .ok (some ⟨[(0, 0), (0, 0)], 0⟩) ∧
    alookup (0, 0)
        [((0, 0), (⟨[(0, 0), (0, 0)], 0⟩ : APath)),
         ((0, 3), (⟨[(0, 0), (0, 1), (0, 2), (0, 3)], 12⟩ : APath))] =
      some ⟨[(0, 0), (0, 0)], 0⟩ :=
  ⟨(degenerate_self_path cacheB (0, 0) costB [(0, 0), (0, 3)] (by decide) (by decide)).1,
   (degenerate_self_path cacheB (0, 0) costB [(0, 0), (0, 3)] (by decide) (by decide)).2
     _ (by rfl) (by decide)⟩

theorem connectStep_eq (c : PathCache)
    (acc : List (NodeID × NodeID × PathSegment) × List NodeID) (e : NodeID × Node) :
    c.connectStep acc e = (acc.1 ++ connectBlock c (acc.2 ++ [e.1]) e, acc.2 ++ [e.1]) := by
  obtain ⟨a, n⟩ := e
  obtain ⟨ts0, seen0⟩ := acc
  simp only [PathCache.connectStep, connectBlock]
  refine Prod.ext ?_ rfl
  simp only
  generalize Nbh.allNeighbors n.pos = ops
  induction ops generalizing ts0 with
  | nil => simp
  | cons op ops ih =>
    simp only [List.foldl_cons, List.filterMap_cons]
    cases hna : c.node_at op with
    | none => simp only [hna]; rw [ih]
    | some oid =>
      simp only [hna]
      by_cases hcb : ((alookup oid n.edges).isSome || decide (oid ∈ seen0 ++ [a])) = true
      · rw [if_pos hcb, if_pos hcb]
        exact ih ts0
      · rw [if_neg hcb, if_neg hcb]
        refine (ih (ts0 ++
          [(a, oid, PathSegment.new ⟨[n.pos, op], n.walk_cost⟩ c.config.cache_paths)])).trans ?_
        simp only [List.append_assoc]
        rfl

theorem connectTriples_eq_from (c : PathCache) (pairs : List (NodeID × Node)) :
    c.connectTriples pairs = c.connectTriplesFrom [] pairs := by
  have aux : ∀ (ps : List (NodeID × Node)) (ts0 : List (NodeID × NodeID × PathSegment))
      (seen0 : List NodeID),
      ps.foldl c.connectStep (ts0, seen0) =
        (ts0 ++ c.connectTriplesFrom seen0 ps, seen0 ++ ps.map Prod.fst) := by
    intro ps
    induction ps with
    | nil => intro ts0 seen0; simp [PathCache.connectTriplesFrom]
    | cons e rest ih =>
      intro ts0 seen0
      simp only [List.foldl_cons, connectStep_eq, ih, PathCache.connectTriplesFrom]
      simp [List.append_assoc]
  unfold PathCache.connectTriples
  rw [aux]
  simp

theorem connectTriplesFrom_mem (c : PathCache) :
    ∀ (pairs : List (NodeID × Node)) (seen : List NodeID) (a b : NodeID) (seg : PathSegment),
      (a, b, seg) ∈ c.connectTriplesFrom seen pairs →
      ∃ n op, (a, n) ∈ pairs ∧ op ∈ Nbh.allNeighbors n.pos ∧ c.node_at op = some b ∧
        alookup b n.edges = none ∧ b ∉ seen ∧ b ≠ a ∧
        seg = PathSegment.new ⟨[n.pos, op], n.walk_cost⟩ c.config.cache_paths := by
  intro pairs
  induction pairs with
  | nil => intro seen a b seg h; simp [PathCache.connectTriplesFrom] at h
  | cons e rest ih =>
    intro seen a b seg h
    obtain ⟨a0, n0⟩ := e
    simp only [PathCache.connectTriplesFrom, List.mem_append] at h
    rcases h with h | h
    · simp only [connectBlock, List.mem_filterMap] at h
      obtain ⟨op, hop, hf⟩ := h
      cases hna : c.node_at op with
      | none =>
        simp only [hna] at hf
        exact Option.noConfusion hf
      | some oid =>
        simp only [hna] at hf
        by_cases hcb : ((alookup oid n0.edges).isSome || decide (oid ∈ seen ++ [a0])) = true
        · rw [if_pos hcb] at hf; cases hf
        · rw [if_neg hcb] at hf
          simp only [Bool.or_eq_true, not_or, Bool.not_eq_true, decide_eq_true_eq] at hcb
          obtain ⟨he, hs⟩ := hcb
          cases hf
          refine ⟨n0, op, List.mem_cons_self _ _, hop, hna, ?_, ?_, ?_, rfl⟩
          · cases hl : alookup b n0.edges with
            | none => rfl
            | some s => rw [hl] at he; simp at he
          · intro hbs
            exact hs (List.mem_append_left _ hbs)
          · intro hba
            exact hs (List.mem_append_right _ (by simp [hba]))
    · obtain ⟨n, op, hmem, hop, hna, hed, hseen, hba, hseg⟩ := ih (seen ++ [a0]) a b seg h
      refine ⟨n, op, List.mem_cons_of_mem _ hmem, hop, hna, hed, ?_, hba, hseg⟩
      intro hbs
      exact hseen (List.mem_append_left _ hbs)

theorem alookup_isSome_of_mem {κ α : Type} [DecidableEq κ] :
    ∀ (l : List (κ × α)) (e : κ × α), e ∈ l → (alookup e.1 l).isSome = true := by
  intro l
  induction l with
  | nil => intro e he; cases he
  | cons x xs ih =>
    intro e he
    rcases List.mem_cons.mp he with he | he
    · subst he; simp [alookup]
    · by_cases hx : x.1 = e.1
      · simp [alookup, hx]
      · simpa [alookup, hx] using ih e he

theorem eq_of_mem_of_nodup_keys {κ α : Type} [DecidableEq κ] :
    ∀ (l : List (κ × α)), (l.map Prod.fst).Nodup →
      ∀ e e', e ∈ l → e' ∈ l → e.1 = e'.1 → e = e' := by
  intro l
  induction l with
  | nil => intro _ e e' he; cases he
  | cons x xs ih =>
    intro hn e e' he he' hk
    simp only [List.map_cons, List.nodup_cons] at hn
    rcases List.mem_cons.mp he with h1 | h1 <;> rcases List.mem_cons.mp he' with h2 | h2
    · rw [h1, h2]
    · exfalso
      apply hn.1
      have hmm : e'.1 ∈ xs.map Prod.fst := List.mem_map_of_mem Prod.fst h2
      rw [← hk, h1] at hmm
      exact hmm
    · exfalso
      apply hn.1
      have hmm : e.1 ∈ xs.map Prod.fst := List.mem_map_of_mem Prod.fst h1
      rw [hk, h2] at hmm
      exact hmm
    · exact ih hn.2 e e' h1 h2 hk

theorem node_at_inj (c : PathCache) (hkeys : (c.nodes.arr.map Prod.fst).Nodup)
    (p q : Point) (b : NodeID) (hp : c.node_at p = some b) (hq : c.node_at q = some b) :
    p = q := by
  unfold PathCache.node_at NodeList.id_at at hp hq
  cases hfp : c.nodes.arr.find? (fun e => decide (e.2.pos = p)) with
  | none => rw [hfp] at hp; cases hp
  | some e =>
    cases hfq : c.nodes.arr.find? (fun e => decide (e.2.pos = q)) with
    | none => rw [hfq] at hq; cases hq
    | some e' =>
      rw [hfp] at hp
      rw [hfq] at hq
      simp only [Option.map_some'] at hp hq
      have hep : e.2.pos = p := by simpa using List.find?_some hfp
      have heq : e'.2.pos = q := by simpa using List.find?_some hfq
      have hee : e = e' := eq_of_mem_of_nodup_keys _ hkeys e e'
        (List.mem_of_find?_eq_some hfp) (List.mem_of_find?_eq_some hfq)
        (by rw [Option.some_inj.mp hp, Option.some_inj.mp hq])
      rw [← hep, ← heq, hee]

theorem key_order {κ α : Type} :
    ∀ (pre1 : List (κ × α)) (l pre2 post1 post2 : List (κ × α)) (k1 k2 : κ) (v1 v2 : α),
      l = pre1 ++ (k1, v1) :: post1 → l = pre2 ++ (k2, v2) :: post2 → k1 ≠ k2 →
      k1 ∈ pre2.map Prod.fst ∨ k2 ∈ pre1.map Prod.fst := by
  intro pre1
  induction pre1 with
  | nil =>
    intro l pre2 post1 post2 k1 k2 v1 v2 h1 h2 hk
    cases pre2 with
    | nil =>
      injection h1.symm.trans h2 with hh _
      injection hh with hk' _
      exact absurd hk' hk
    | cons y pre2' =>
      left
      injection h1.symm.trans h2 with hh _
      rw [← hh]
      exact List.mem_cons_self _ _
  | cons x pre1' ih =>
    intro l pre2 post1 post2 k1 k2 v1 v2 h1 h2 hk
    cases pre2 with
    | nil =>
      right
      injection h2.symm.trans h1 with hh _
      rw [← hh]
      exact List.mem_cons_self _ _
    | cons y pre2' =>
      injection h1.symm.trans h2 with hh htl
      rcases ih (pre1' ++ (k1, v1) :: post1) pre2' post1 post2 k1 k2 v1 v2 rfl htl hk with
        h | h
      · left; simp [h]
      · right; simp [h]

theorem connectTriplesFrom_mem_strong (c : PathCache) :
    ∀ (pairs : List (NodeID × Node)) (seen : List NodeID) (a b : NodeID) (seg : PathSegment),
      (a, b, seg) ∈ c.connectTriplesFrom seen pairs →
      ∃ pre n post op, pairs = pre ++ (a, n) :: post ∧ op ∈ Nbh.allNeighbors n.pos ∧
        c.node_at op = some b ∧ alookup b n.edges = none ∧
        b ∉ seen ∧ b ∉ pre.map Prod.fst ∧ b ≠ a ∧
        seg = PathSegment.new ⟨[n.pos, op], n.walk_cost⟩ c.config.cache_paths := by
  intro pairs
  induction pairs with
  | nil => intro seen a b seg h; simp [PathCache.connectTriplesFrom] at h
  | cons e rest ih =>
    intro seen a b seg h
    obtain ⟨a0, n0⟩ := e
    simp only [PathCache.connectTriplesFrom, List.mem_append] at h
    rcases h with h | h
    · simp only [connectBlock, List.mem_filterMap] at h
      obtain ⟨op, hop, hf⟩ := h
      cases hna : c.node_at op with
      | none =>
        simp only [hna] at hf
        exact Option.noConfusion hf
      | some oid =>
        simp only [hna] at hf
        by_cases hcb : ((alookup oid n0.edges).isSome || decide (oid ∈ seen ++ [a0])) = true
        · rw [if_pos hcb] at hf; cases hf
        · rw [if_neg hcb] at hf
          simp only [Bool.or_eq_true, not_or, Bool.not_eq_true, decide_eq_true_eq] at hcb
          obtain ⟨he, hs⟩ := hcb
          cases hf
          refine ⟨[], n0, rest, op, rfl, hop, hna, ?_, ?_, by simp, ?_, rfl⟩
          · cases hl : alookup b n0.edges with
            | none => rfl
            | some s => rw [hl] at he; simp at he
          · exact fun hbs => hs (List.mem_append_left _ hbs)
          · intro hba
            exact hs (List.mem_append_right _ (by simp [hba]))
    · obtain ⟨pre, n, post, op, hdec, hop, hna, hed, hseen, hpre, hba, hseg⟩ :=
        ih (seen ++ [a0]) a b seg h
      refine ⟨(a0, n0) :: pre, n, post, op, by rw [hdec]; rfl, hop, hna, hed, ?_, ?_, hba, hseg⟩
      · exact fun hbs => hseen (List.mem_append_left _ hbs)
      · intro hbp
        simp only [List.map_cons, List.mem_cons] at hbp
        rcases hbp with hb0 | hbp'
        · exact hseen (List.mem_append_right _ (by simp [hb0]))
        · exact hpre hbp'

theorem connectTriples_samePair_unique (c : PathCache) (pairs : List (NodeID × Node))
    (hkeys : (c.nodes.arr.map Prod.fst).Nodup)
    (hpn : (pairs.map Prod.fst).Nodup) :
    ∀ t u : NodeID × NodeID × PathSegment,
      t ∈ c.connectTriplesFrom [] pairs → u ∈ c.connectTriplesFrom [] pairs →
      ((u.1 = t.1 ∧ u.2.1 = t.2.1) ∨ (u.1 = t.2.1 ∧ u.2.1 = t.1)) → u = t := by
  intro t u ht hu hsp
  obtain ⟨a, b, seg⟩ := t
  obtain ⟨a', b', seg'⟩ := u
  obtain ⟨pre, n, post, op, hdec, hop, hna, hed, _, hpre, hba, hseg⟩ :=
    connectTriplesFrom_mem_strong c pairs [] a b seg ht
  obtain ⟨pre', n', post', op', hdec', hop', hna', hed', _, hpre', hba', hseg'⟩ :=
    connectTriplesFrom_mem_strong c pairs [] a' b' seg' hu
  simp only at hsp
  rcases hsp with ⟨h1, h2⟩ | ⟨h1, h2⟩
  · rw [h1] at hdec'
    rw [h2] at hna'
    have hmem : (a, n) ∈ pairs := by rw [hdec]; simp
    have hmem' : (a, n') ∈ pairs := by rw [hdec']; simp
    have hnn : n' = n := by
      have := eq_of_mem_of_nodup_keys pairs hpn (a, n') (a, n) hmem' hmem rfl
      exact congrArg Prod.snd this
    have hopop : op' = op := node_at_inj c hkeys op' op b hna' hna
    rw [h1, h2]
    rw [hseg', hseg, hopop, hnn]
  · exfalso
    rw [h1] at hdec'
    rw [h2] at hpre'
    rcases key_order pre pairs pre' post post' a b n n' hdec hdec' (Ne.symm hba) with
      h | h
    · exact hpre' h
    · exact hpre h

theorem get?_add_edge_isSome (nl : NodeList) (x y : NodeID) (s : PathSegment) (a : NodeID) :
    ((nl.add_edge x y s).get? a).isSome = ((nl.get? a).isSome) := by
  unfold NodeList.add_edge NodeList.get?
  by_cases hay : a = y
  · subst hay
    rw [alookup_amodify_self]
    by_cases hax : a = x
    · subst hax
      rw [alookup_amodify_self]
      cases alookup a nl.arr <;> rfl
    · rw [alookup_amodify_ne _ _ _ _ (fun h => hax h.symm)]
      cases alookup a nl.arr <;> rfl
  · rw [alookup_amodify_ne _ _ _ _ (fun h => hay h.symm)]
    by_cases hax : a = x
    · subst hax
      rw [alookup_amodify_self]
      cases alookup a nl.arr <;> rfl
    · rw [alookup_amodify_ne _ _ _ _ (fun h => hax h.symm)]

theorem edgeSeg_add_edge_self (nl : NodeList) (a b : NodeID) (s : PathSegment)
    (ha : ((nl.get? a).isSome) = true) (hb : ((nl.get? b).isSome) = true) (hab : a ≠ b) :
    (nl.add_edge a b s).edgeSeg a b = some s ∧
    (nl.add_edge a b s).edgeSeg b a = some s.reversedSeg := by
  obtain ⟨na, hna⟩ := Option.isSome_iff_exists.mp ha
  obtain ⟨nb, hnb⟩ := Option.isSome_iff_exists.mp hb
  unfold NodeList.get? at hna hnb
  unfold NodeList.add_edge NodeList.edgeSeg NodeList.get?
  constructor
  · rw [alookup_amodify_ne _ _ _ _ (fun h => hab h.symm), alookup_amodify_self, hna]
    simp only [Option.map_some', Option.some_bind]
    exact alookup_ainsert_self _ _ _
  · rw [alookup_amodify_self, alookup_amodify_ne _ _ _ _ hab, hnb]
    simp only [Option.map_some', Option.some_bind]
    exact alookup_ainsert_self _ _ _

theorem edgeSeg_add_edge_of_ne (nl : NodeList) (x y a b : NodeID) (s : PathSegment)
    (h1 : ¬ (x = a ∧ y = b)) (h2 : ¬ (x = b ∧ y = a)) :
    (nl.add_edge x y s).edgeSeg a b = nl.edgeSeg a b := by
  unfold NodeList.add_edge NodeList.edgeSeg NodeList.get?
  by_cases hay : a = y
  · subst hay
    rw [alookup_amodify_self]
    by_cases hax : a = x
    · subst hax
      rw [alookup_amodify_self]
      cases hl : alookup a nl.arr with
      | none => rfl
      | some n =>
        simp only [Option.map_some', Option.some_bind]
        have hbx : b ≠ a := by
          intro hc
          exact h1 ⟨rfl, hc.symm⟩
        rw [alookup_ainsert_ne _ _ _ _ (fun h => hbx h.symm),
          alookup_ainsert_ne _ _ _ _ (fun h => hbx h.symm)]
    · rw [alookup_amodify_ne _ _ _ _ (fun h => hax h.symm)]
      cases hl : alookup a nl.arr with
      | none => rfl
      | some n =>
        simp only [Option.map_some', Option.some_bind]
        have hbx : b ≠ x := by
          intro hc
          exact h2 ⟨hc.symm, rfl⟩
        rw [alookup_ainsert_ne _ _ _ _ (fun h => hbx h.symm)]
  · rw [alookup_amodify_ne _ _ _ _ (fun h => hay h.symm)]
    by_cases hax : a = x
    · subst hax
      rw [alookup_amodify_self]
      cases hl : alookup a nl.arr with
      | none => rfl
      | some n =>
        simp only [Option.map_some', Option.some_bind]
        have hby : b ≠ y := by
          intro hc
          exact h1 ⟨rfl, hc.symm⟩
        rw [alookup_ainsert_ne _ _ _ _ (fun h => hby h.symm)]
    · rw [alookup_amodify_ne _ _ _ _ (fun h => hax h.symm)]

theorem foldl_add_edge_preserve (a b : NodeID) :
    ∀ (L : List (NodeID × NodeID × PathSegment)) (nl : NodeList),
      (∀ u ∈ L, ¬ (u.1 = a ∧ u.2.1 = b) ∧ ¬ (u.1 = b ∧ u.2.1 = a)) →
      (L.foldl (fun nl t => nl.add_edge t.1 t.2.1 t.2.2) nl).edgeSeg a b = nl.edgeSeg a b := by
  intro L
  induction L with
  | nil => intro nl _; rfl
  | cons u rest ih =>
    intro nl h
    simp only [List.foldl_cons]
    rw [ih _ (fun u' hu' => h u' (List.mem_cons_of_mem _ hu'))]
    exact edgeSeg_add_edge_of_ne nl u.1 u.2.1 a b u.2.2
      (h u (List.mem_cons_self _ _)).1 (h u (List.mem_cons_self _ _)).2

theorem foldl_add_edge_lookup (a b : NodeID) (seg : PathSegment) :
    ∀ (L : List (NodeID × NodeID × PathSegment)) (nl : NodeList),
      (a, b, seg) ∈ L →
      (∀ u ∈ L, ((u.1 = a ∧ u.2.1 = b) ∨ (u.1 = b ∧ u.2.1 = a)) → u = (a, b, seg)) →
      ((nl.get? a).isSome) = true → ((nl.get? b).isSome) = true → a ≠ b →
      (L.foldl (fun nl t => nl.add_edge t.1 t.2.1 t.2.2) nl).edgeSeg a b = some seg ∧
      (L.foldl (fun nl t => nl.add_edge t.1 t.2.1 t.2.2) nl).edgeSeg b a =
        some seg.reversedSeg := by
  intro L
  induction L with
  | nil => intro nl hmem; cases hmem
  | cons u rest ih =>
    intro nl hmem huniq ha hb hab
    simp only [List.foldl_cons]
    by_cases hmem' : (a, b, seg) ∈ rest
    · exact ih _ hmem' (fun u' hu' => huniq u' (List.mem_cons_of_mem _ hu'))
        (by rw [get?_add_edge_isSome]; exact ha)
        (by rw [get?_add_edge_isSome]; exact hb) hab
    · have hu : u = (a, b, seg) := by
        rcases List.mem_cons.mp hmem with h | h
        · exact h.symm
        · exact absurd h hmem'
      subst hu
      have hnosame : ∀ u' ∈ rest, ¬ (u'.1 = a ∧ u'.2.1 = b) ∧ ¬ (u'.1 = b ∧ u'.2.1 = a) := by
        intro u' hu'
        constructor
        · intro hc
          exact hmem' ((huniq u' (List.mem_cons_of_mem _ hu') (Or.inl hc)) ▸ hu')
        · intro hc
          exact hmem' ((huniq u' (List.mem_cons_of_mem _ hu') (Or.inr hc)) ▸ hu')
      have hself := edgeSeg_add_edge_self nl a b seg ha hb hab
      constructor
      · rw [foldl_add_edge_preserve a b rest _ hnosame]
        exact hself.1
      · rw [foldl_add_edge_preserve b a rest _
          (fun u' hu' => ⟨(hnosame u' hu').2, (hnosame u' hu').1⟩)]
        exact hself.2

/-- C1 (amended): every edge recorded by `connect_nodes` links a processed
node to an unlinked, not-yet-processed node at an all-neighbor tile, and
its segment is the trivial two-tile path from the processed node's
position to the neighbor position whose cost is the `walk_cost` of the
PROCESSED node (the node being exited) — not of the target node — and the
edge is stored bidirectionally with that segment and its reversal (equal
cost). -/
theorem connect_nodes_trivial_edges (c : PathCache) (pairs : List (NodeID × Node))
    (hkeys : (c.nodes.arr.map Prod.fst).Nodup)
    (hpn : (pairs.map Prod.fst).Nodup)
    (hpairs : ∀ q ∈ pairs, c.nodes.get? q.1 = some q.2) :
    c.connectTriples pairs = c.connectTriplesFrom [] pairs ∧
    ∀ a b seg, (a, b, seg) ∈ c.connectTriples pairs →
      (∃ n op, (a, n) ∈ pairs ∧ op ∈ Nbh.allNeighbors n.pos ∧ c.node_at op = some b ∧
        alookup b n.edges = none ∧ b ≠ a ∧
        seg = PathSegment.new ⟨[n.pos, op], n.walk_cost⟩ c.config.cache_paths ∧
        seg.cost = n.walk_cost) ∧
      (c.connectPairs pairs).nodes.edgeSeg a b = some seg ∧
      (c.connectPairs pairs).nodes.edgeSeg b a = some seg.reversedSeg ∧
      seg.reversedSeg.cost = seg.cost := by
  have heq := connectTriples_eq_from c pairs
  refine ⟨heq, fun a b seg hmem => ?_⟩
  have hmem' : (a, b, seg) ∈ c.connectTriplesFrom [] pairs := heq ▸ hmem
  obtain ⟨pre, n, post, op, hdec, hop, hna, hed, _, _, hba, hseg⟩ :=
    connectTriplesFrom_mem_strong c pairs [] a b seg hmem'
  have hamem : (a, n) ∈ pairs := by rw [hdec]; simp
  have hcost : seg.cost = n.walk_cost := by
    rw [hseg]
    unfold PathSegment.new
    split <;> rfl
  have ha : ((c.nodes.get? a).isSome) = true := by
    rw [hpairs (a, n) hamem]
    rfl
  have hb : ((c.nodes.get? b).isSome) = true := by
    unfold PathCache.node_at NodeList.id_at at hna
    cases hf : c.nodes.arr.find? (fun e => decide (e.2.pos = op)) with
    | none => rw [hf] at hna; cases hna
    | some e =>
      rw [hf] at hna
      simp only [Option.map_some'] at hna
      have := alookup_isSome_of_mem c.nodes.arr e (List.mem_of_find?_eq_some hf)
      unfold NodeList.get?
      rw [← Option.some_inj.mp hna]
      exact this
  have huniq : ∀ u ∈ c.connectTriples pairs,
      ((u.1 = a ∧ u.2.1 = b) ∨ (u.1 = b ∧ u.2.1 = a)) → u = (a, b, seg) := by
    intro u hu hsp
    exact connectTriples_samePair_unique c pairs hkeys hpn (a, b, seg) u hmem' (heq ▸ hu) hsp
  have hfold := foldl_add_edge_lookup a b seg (c.connectTriples pairs) c.nodes
    hmem huniq ha hb (Ne.symm hba)
  exact ⟨⟨n, op, hamem, hop, hna, hed, hba, hseg, hcost⟩, hfold.1, hfold.2, rfl⟩

/-- Counterexample to C1 as stated: on the raw 1×4 strip cache,
`connect_nodes` collects and stores the edge between node 0 at (0,1)
(walk cost 1) and node 1 at (0,2) (walk cost 10) with segment cost 1 —
the processed node's walk cost — although the target node being entered
along [(0,1),(0,2)] has walk cost 10. -/
theorem connect_nodes_target_cost_counterexample :
    (0, 1, PathSegment.mk [(0, 1), (0, 2)] 1 true) ∈
      cacheBRaw.connectTriples cacheBRaw.nodes.arr ∧
    cacheBRaw.nodes.edgeSeg 0 1 = none ∧
    cacheBRaw.connectAll.nodes.edgeSeg 0 1 =
      some (PathSegment.mk [(0, 1), (0, 2)] 1 true) ∧
    (cacheBRaw.nodes.get? 0).map Node.walk_cost = some 1 ∧
    (cacheBRaw.nodes.get? 1).map Node.walk_cost = some 10 ∧
    (cacheBRaw.connectAll.nodes.edgeSeg 0 1).map PathSegment.cost ≠
      (cacheBRaw.nodes.get? 1).map Node.walk_cost := by
  refine ⟨by decide, by decide, by decide, by decide, by decide, by decide⟩

/-- Witness for C1 (amended) at the strip cache: the collected trivial
edge is stored in both directions with the processed node's walk cost. -/
theorem connect_nodes_trivial_edges_witness :
    (cacheBRaw.connectPairs cacheBRaw.nodes.arr).nodes.edgeSeg 0 1 =
      some (PathSegment.mk [(0, 1), (0, 2)] 1 true) ∧
    (cacheBRaw.connectPairs cacheBRaw.nodes.arr).nodes.edgeSeg 1 0 =
      some (PathSegment.mk [(0, 1), (0, 2)] 1 true).reversedSeg :=
  ⟨((connect_nodes_trivial_edges cacheBRaw cacheBRaw.nodes.arr (by decide) (by decide)
      (by decide)).2 0 1 (PathSegment.mk [(0, 1), (0, 2)] 1 true) (by decide)).2.1,
   ((connect_nodes_trivial_edges cacheBRaw cacheBRaw.nodes.arr (by decide) (by decide)
      (by decide)).2 0 1 (PathSegment.mk [(0, 1), (0, 2)] 1 true) (by decide)).2.2.1⟩

/-- C7: during resolution, a goal whose abstract node sequence has length
1, or whose abstract cost is below `2 × chunk_size` while
`a_star_fallback` is on, discards the abstract result: the entry produced
for that goal is the direct grid A* path between start and goal. -/
theorem resolve_fallback_direct_astar (c : PathCache) (start : Point)
    (sp0 : Option (Path Point)) (paths : List (NodeID × Path NodeID)) (cost : CostFn)
    (goal : Point) (gid : NodeID) (gp0 : Option (Path Point))
    (rest : List (Point × NodeID × Option (Path Point)))
    (spm : List (Point × Path Point)) (out : List (Point × APath))
    (npath : Path NodeID) (p : Path Point)
    (hlook : alookup gid paths = some npath)
    (hcond : npath.seq.length = 1 ∨
      (c.config.a_star_fallback = true ∧ npath.cost < 2 * c.config.chunk_size))
    (hastar : c.grid_a_star start goal cost = some p)
    (hrest : ∀ e ∈ rest, e.1 ≠ goal) :
    ∀ m, c.resolveLoop start sp0 paths cost ((goal, gid, gp0) :: rest) spm out = .ok m →
      alookup goal m = some (APath.fromKnown p) := by
  intro m hrun
  simp only [PathCache.resolveLoop, hlook] at hrun
  rw [if_pos hcond, hastar] at hrun
  rw [resolveLoop_alookup_of_not_mem c start sp0 paths cost goal rest spm _ m hrest hrun]
  exact alookup_ainsert_self _ _ _

/-- Witness for C7 on the strip cache: a length-1 abstract path makes the
resolution return the direct grid A* path from (0,0) to (0,3). -/
theorem resolve_fallback_direct_astar_witness :
    alookup (0, 3)
        [((0, 3), (⟨[(0, 0), (0, 1), (0, 2), (0, 3)], 12⟩ : APath))] =
      some (APath.fromKnown ⟨[(0, 0), (0, 1), (0, 2), (0, 3)], 12⟩) :=
  resolve_fallback_direct_astar cacheB (0, 0) none [(0, ⟨[0], 0⟩)] costB
    (0, 3) 0 none [] [] [] ⟨[0], 0⟩ ⟨[(0, 0), (0, 1), (0, 2), (0, 3)], 12⟩
    (by rfl) (Or.inl (by rfl)) (by rfl) (by simp) _ (by rfl)

/-! ## Claim C9: the size-hint heuristic accumulator -/

/-- C9: the size-hint accumulator of `find_paths_internal` starts at 0 and
is folded with `min` in closest-goal mode, so it is 0 for every input —
never the minimum of the goal heuristics (which is 7 at the concrete
failing input below, where the goal heuristics are 8 and 7).  In `max`
mode the fold is correct. -/
theorem closest_goal_hint_accumulator_zero :
    (∀ (c : PathCache) (start : Point) (cost : CostFn) (goals : List Point),
      (c.collectGoals start cost true goals).heuristic = 0) ∧
    (cacheA.collectGoals (0, 0) costA true [(4, 4), (4, 3)]).heuristic = 0 ∧
    Nbh.heuristic (0, 0) (4, 4) = 8 ∧
    Nbh.heuristic (0, 0) (4, 3) = 7 ∧
    (cacheA.collectGoals (0, 0) costA false [(4, 4), (4, 3)]).heuristic = 8 := by
  refine ⟨fun c start cost goals => ?_, by rfl, by rfl, by rfl, by rfl⟩
  have aux : ∀ (gs : List Point) (acc : GoalAcc), acc.heuristic = 0 →
      (gs.foldl
        (fun acc goal =>
          if goal = start then
            { acc with ret := ainsert goal (APath.fromKnown ⟨[start, start], 0⟩) acc.ret }
          else if ¬ c.in_bounds goal then acc
          else
            match c.find_nearest_node goal cost true with
            | none => acc
            | some (goal_id, goal_path) =>
              { goal_data := acc.goal_data ++ [(goal, goal_id, goal_path)],
                goal_ids := acc.goal_ids ++ [goal_id],
                ret := acc.ret,
                heuristic :=
                  if true = true then min acc.heuristic (Nbh.heuristic start goal)
                  else max acc.heuristic (Nbh.heuristic start goal) }) acc).heuristic = 0 := by
    intro gs
    induction gs with
    | nil => intro acc h; simpa using h
    | cons goal rest ih =>
      intro acc h
      simp only [List.foldl_cons]
      by_cases hgs : goal = start
      · exact ih _ (by simpa [hgs] using h)
      · by_cases hin : c.in_bounds goal = true
        · cases hsn : c.find_nearest_node goal cost true with
          | none => exact ih _ (by simpa [hgs, hin, hsn] using h)
          | some r =>
            obtain ⟨gid, gp⟩ := r
            refine ih _ ?_
            simp [hgs, hin, hsn, h]
        · simp only [Bool.not_eq_true] at hin
          exact ih _ (by simpa [hgs, hin] using h)
  exact aux goals ⟨[], [], [], 0⟩ rfl

/-! ## Claim C6: empty tile batches do not change the graph -/

theorem tiles_changed_nil (c : PathCache) (cost : CostFn) :
    c.tiles_changed [] cost = .ok c := rfl

/-- C6: `tiles_changed` on an empty tile slice returns the cache
unchanged, so running it after any `tiles_changed(T, cost)` call yields
the same observable graph state (as seen via `inspect_nodes`) as the first
call alone. -/
theorem tiles_changed_empty_idempotent (c : PathCache) (tiles : List Point) (cost : CostFn) :
    c.tiles_changed [] cost = .ok c ∧
    (∀ c', c.tiles_changed tiles cost = .ok c' →
      ∃ c'', c'.tiles_changed [] cost = .ok c'' ∧ c''.inspectNodes = c'.inspectNodes) :=
  ⟨tiles_changed_nil c cost, fun c' _ => ⟨c', tiles_changed_nil c' cost, rfl⟩⟩

/-- Witness for C6: a real two-tile update on the doctest cache, followed
by an empty update. -/
theorem tiles_changed_empty_idempotent_witness :
    ∃ c'', cacheA2.tiles_changed [] costA2 = .ok c'' ∧
      c''.inspectNodes = cacheA2.inspectNodes :=
  (tiles_changed_empty_idempotent cacheA [(2, 1), (2, 3)] costA2).2 cacheA2 (by rfl)

/-- Witness for C4 on the doctest cache: the hypotheses of the
membership part are discharged at the concrete singleton query. -/
theorem find_paths_singleton_delegates_witness :
    alookup (4, 4)
        [((4, 4), (⟨[(0, 0), (0, 1), (0, 2), (0, 3), (0, 4), (1, 4), (2, 4), (2, 3), (2, 2),
          (3, 2), (4, 2), (4, 3), (4, 4)], 12⟩ : APath))] =
        some ⟨[(0, 0), (0, 1), (0, 2), (0, 3), (0, 4), (1, 4), (2, 4), (2, 3), (2, 2),
          (3, 2), (4, 2), (4, 3), (4, 4)], 12⟩ ↔
      cacheA.find_path (0, 0) (4, 4) costA =
        .ok (some ⟨[(0, 0), (0, 1), (0, 2), (0, 3), (0, 4), (1, 4), (2, 4), (2, 3), (2, 2),
          (3, 2), (4, 2), (4, 3), (4, 4)], 12⟩) :=
  (find_paths_singleton_delegates cacheA (0, 0) (4, 4) costA).2 _ _ (by rfl)

theorem alookup_some_mem {κ α : Type} [DecidableEq κ] :
    ∀ (l : List (κ × α)) (k : κ) (v : α), alookup k l = some v → (k, v) ∈ l := by
  intro l
  induction l with
  | nil => intro k v h; simp [alookup] at h
  | cons e rest ih =>
    intro k v h
    obtain ⟨k', v'⟩ := e
    by_cases hk : k' = k
    · subst hk
      simp only [alookup, if_pos rfl] at h
      cases h
      exact List.mem_cons_self _ _
    · simp only [alookup, if_neg hk] at h
      exact List.mem_cons_of_mem _ (ih k v h)

theorem alookup_none_not_mem {κ α : Type} [DecidableEq κ] :
    ∀ (l : List (κ × α)) (k : κ), alookup k l = none → k ∉ l.map Prod.fst := by
  intro l
  induction l with
  | nil => intro k _ h; simp at h
  | cons e rest ih =>
    intro k h hk
    obtain ⟨k', v'⟩ := e
    by_cases he : k' = k
    · simp [alookup, he] at h
    · simp only [alookup, if_neg he] at h
      simp only [List.map_cons, List.mem_cons] at hk
      rcases hk with hk | hk
      · exact he hk.symm
      · exact ih k h hk

theorem alookup_isSome_of_mem_keys {κ α : Type} [DecidableEq κ]
    (l : List (κ × α)) (k : κ) (h : k ∈ l.map Prod.fst) : (alookup k l).isSome = true := by
  cases hl : alookup k l with
  | some v => rfl
  | none => exact absurd h (alookup_none_not_mem l k hl)

theorem alookup_append {κ α : Type} [DecidableEq κ] :
    ∀ (l1 l2 : List (κ × α)) (k : κ),
      alookup k (l1 ++ l2) =
        match alookup k l1 with
        | some v => some v
        | none => alookup k l2 := by
  intro l1
  induction l1 with
  | nil => intro l2 k; rfl
  | cons e rest ih =>
    intro l2 k
    obtain ⟨k', v'⟩ := e
    by_cases hk : k' = k
    · simp [alookup, hk]
    · simp only [List.cons_append, alookup, if_neg hk]
      exact ih l2 k

theorem alookup_map_snd {κ α β : Type} [DecidableEq κ] (f : α → β) :
    ∀ (l : List (κ × α)) (k : κ),
      alookup k (l.map (fun e => (e.1, f e.2))) = (alookup k l).map f := by
  intro l
  induction l with
  | nil => intro k; rfl
  | cons e rest ih =>
    intro k
    obtain ⟨k', v'⟩ := e
    by_cases hk : k' = k
    · simp [alookup, hk]
    · simp only [List.map_cons, alookup, if_neg hk]
      exact ih k

theorem alookup_aerase_ne {κ α : Type} [DecidableEq κ] :
    ∀ (l : List (κ × α)) (k k' : κ), k ≠ k' →
      alookup k' (aerase k l) = alookup k' l := by
  intro l
  induction l with
  | nil => intro k k' _; rfl
  | cons e rest ih =>
    intro k k' hkk
    obtain ⟨k0, v0⟩ := e
    by_cases h0 : k0 = k
    · subst h0
      simp [aerase, alookup, hkk]
    · simp only [aerase, if_neg h0, alookup]
      by_cases h1 : k0 = k'
      · simp [h1]
      · simp only [if_neg h1]
        exact ih k k' hkk

theorem alookup_aerase_self {κ α : Type} [DecidableEq κ] :
    ∀ (l : List (κ × α)) (k : κ), (l.map Prod.fst).Nodup →
      alookup k (aerase k l) = none := by
  intro l
  induction l with
  | nil => intro k _; rfl
  | cons e rest ih =>
    intro k hnd
    obtain ⟨k0, v0⟩ := e
    simp only [List.map_cons, List.nodup_cons] at hnd
    by_cases h0 : k0 = k
    · subst h0
      simp only [aerase, if_true]
      cases hl : alookup k0 rest with
      | none => rfl
      | some v =>
        exact absurd (List.mem_map_of_mem Prod.fst (alookup_some_mem rest k0 v hl)) hnd.1
    · simp only [aerase, if_neg h0, alookup, if_neg h0]
      exact ih k hnd.2

theorem entry_eq_of_nodup_map {κ α β : Type} (f : κ × α → β) :
    ∀ (l : List (κ × α)), (l.map f).Nodup →
      ∀ e e', e ∈ l → e' ∈ l → f e = f e' → e = e' := by
  intro l
  induction l with
  | nil => intro _ e e' he; cases he
  | cons x xs ih =>
    intro hnd e e' he he' hf
    simp only [List.map_cons, List.nodup_cons] at hnd
    rcases List.mem_cons.mp he with he1 | he1
    · rcases List.mem_cons.mp he' with he2 | he2
      · rw [he1, he2]
      · subst he1
        exact absurd (hf ▸ List.mem_map_of_mem f he2) hnd.1
    · rcases List.mem_cons.mp he' with he2 | he2
      · subst he2
        exact absurd (hf ▸ List.mem_map_of_mem f he1) hnd.1
      · exact ih hnd.2 e e' he1 he2 hf

theorem node_at_of_get (c : PathCache)
    (hpos : (c.nodes.arr.map (fun e => e.2.pos)).Nodup)
    (a : NodeID) (na : Node) (h : c.nodes.get? a = some na) :
    c.node_at na.pos = some a := by
  have hmem : (a, na) ∈ c.nodes.arr := alookup_some_mem _ _ _ h
  unfold PathCache.node_at NodeList.id_at
  cases hf : c.nodes.arr.find? (fun e => decide (e.2.pos = na.pos)) with
  | none =>
    have := List.find?_eq_none.mp hf (a, na) hmem
    simp at this
  | some e =>
    have hep : e.2.pos = na.pos := by simpa using List.find?_some hf
    have hee : e = (a, na) :=
      entry_eq_of_nodup_map (fun e => e.2.pos) c.nodes.arr hpos e (a, na)
        (List.mem_of_find?_eq_some hf) hmem hep
    rw [hee]
    rfl

theorem node_at_pos_get (c : PathCache)
    (hkeys : (c.nodes.arr.map Prod.fst).Nodup)
    (p : Point) (b : NodeID) (h : c.node_at p = some b) :
    ∃ nb, c.nodes.get? b = some nb ∧ nb.pos = p := by
  unfold PathCache.node_at NodeList.id_at at h
  cases hf : c.nodes.arr.find? (fun e => decide (e.2.pos = p)) with
  | none => rw [hf] at h; cases h
  | some e =>
    rw [hf] at h
    simp only [Option.map_some'] at h
    cases h
    have hep : e.2.pos = p := by simpa using List.find?_some hf
    have hmem : e ∈ c.nodes.arr := List.mem_of_find?_eq_some hf
    refine ⟨e.2, ?_, hep⟩
    have hsome : (alookup e.1 c.nodes.arr).isSome = true := alookup_isSome_of_mem _ e hmem
    cases hl : c.nodes.get? e.1 with
    | none =>
      unfold NodeList.get? at hl
      rw [hl] at hsome
      cases hsome
    | some n =>
      have hmem' : (e.1, n) ∈ c.nodes.arr := alookup_some_mem _ _ _ hl
      have hee : (e.1, n) = e :=
        entry_eq_of_nodup_map Prod.fst c.nodes.arr hkeys _ _ hmem' hmem rfl
      rw [← hee]

theorem mem_allNeighbors_iff (p q : Point) :
    q ∈ Nbh.allNeighbors p ↔
      ((0 < p.2 ∧ q = (p.1, p.2 - 1)) ∨ (0 < p.1 ∧ q = (p.1 - 1, p.2)) ∨
        q = (p.1 + 1, p.2) ∨ q = (p.1, p.2 + 1)) := by
  unfold Nbh.allNeighbors
  by_cases h2 : 0 < p.2 <;> by_cases h1 : 0 < p.1 <;>
    simp [h1, h2, or_assoc]

theorem allNeighbors_symm (p q : Point) (h : q ∈ Nbh.allNeighbors p) :
    p ∈ Nbh.allNeighbors q := by
  rw [mem_allNeighbors_iff] at h ⊢
  obtain ⟨x, y⟩ := p
  obtain ⟨u, v⟩ := q
  dsimp only at h ⊢
  simp only [Prod.mk.injEq] at h ⊢
  omega

theorem ne_of_mem_allNeighbors (p q : Point) (h : q ∈ Nbh.allNeighbors p) : q ≠ p := by
  rw [mem_allNeighbors_iff] at h
  obtain ⟨x, y⟩ := p
  obtain ⟨u, v⟩ := q
  dsimp only at h
  simp only [Prod.mk.injEq] at h
  intro hc
  simp only [Prod.mk.injEq] at hc
  omega

theorem edgeSeg_some_iff (nl : NodeList) (a b : NodeID) (s : PathSegment) :
    nl.edgeSeg a b = some s ↔
      ∃ na, nl.get? a = some na ∧ alookup b na.edges = some s := by
  unfold NodeList.edgeSeg
  cases h : nl.get? a with
  | none => simp
  | some na => simp [h]

theorem reversedSeg_cost (s : PathSegment) : s.reversedSeg.cost = s.cost := rfl

theorem alookup_ainsert_isSome_char {κ α : Type} [DecidableEq κ] (k b : κ) (v : α)
    (l : List (κ × α)) (h : (alookup b (ainsert k v l)).isSome = true) :
    b = k ∨ (alookup b l).isSome = true := by
  by_cases hk : k = b
  · exact Or.inl hk.symm
  · rw [alookup_ainsert_ne _ _ _ _ hk] at h
    exact Or.inr h

theorem amodify_map_fst {κ α : Type} [DecidableEq κ] (k : κ) (f : α → α) :
    ∀ (l : List (κ × α)), (amodify k f l).map Prod.fst = l.map Prod.fst := by
  intro l
  induction l with
  | nil => rfl
  | cons e rest ih =>
    obtain ⟨k0, v0⟩ := e
    by_cases h0 : k0 = k
    · simp [amodify, h0]
    · simp only [amodify, if_neg h0, List.map_cons, ih]

theorem amodify_map_proj {κ α β : Type} [DecidableEq κ] (k : κ) (f : α → α) (g : α → β)
    (hf : ∀ v, g (f v) = g v) :
    ∀ (l : List (κ × α)),
      (amodify k f l).map (fun e => g e.2) = l.map (fun e => g e.2) := by
  intro l
  induction l with
  | nil => rfl
  | cons e rest ih =>
    obtain ⟨k0, v0⟩ := e
    by_cases h0 : k0 = k
    · simp [amodify, h0, hf]
    · simp only [amodify, if_neg h0, List.map_cons, ih]

theorem add_edge_map_fst (nl : NodeList) (x y : NodeID) (s : PathSegment) :
    (nl.add_edge x y s).arr.map Prod.fst = nl.arr.map Prod.fst := by
  unfold NodeList.add_edge
  rw [amodify_map_fst, amodify_map_fst]

theorem add_edge_map_pos (nl : NodeList) (x y : NodeID) (s : PathSegment) :
    (nl.add_edge x y s).arr.map (fun e => e.2.pos) = nl.arr.map (fun e => e.2.pos) := by
  unfold NodeList.add_edge
  simp only
  rw [amodify_map_proj y (fun n => { n with edges := ainsert x s.reversedSeg n.edges })
    Node.pos (fun v => rfl)]
  rw [amodify_map_proj x (fun n => { n with edges := ainsert y s n.edges })
    Node.pos (fun v => rfl)]

theorem add_edge_next (nl : NodeList) (x y : NodeID) (s : PathSegment) :
    (nl.add_edge x y s).next = nl.next := rfl

theorem add_edge_node_char (nl : NodeList) (x y : NodeID) (s : PathSegment)
    (a : NodeID) (na' : Node) (h : (nl.add_edge x y s).get? a = some na') :
    ∃ na, nl.get? a = some na ∧ na'.pos = na.pos ∧ na'.walk_cost = na.walk_cost ∧
      ∀ b, (alookup b na'.edges).isSome = true →
        (alookup b na.edges).isSome = true ∨ (a = x ∧ b = y) ∨ (a = y ∧ b = x) := by
  unfold NodeList.add_edge NodeList.get? at h
  simp only at h
  by_cases hay : y = a
  · subst hay
    rw [alookup_amodify_self] at h
    by_cases hax : x = y
    · subst hax
      rw [alookup_amodify_self] at h
      cases hl : alookup x nl.arr with
      | none => rw [hl] at h; cases h
      | some na =>
        rw [hl] at h
        simp only [Option.map_some', Option.some_inj] at h
        refine ⟨na, hl, by rw [← h], by rw [← h], ?_⟩
        intro b hb
        rw [← h] at hb
        simp only at hb
        rcases alookup_ainsert_isSome_char _ _ _ _ hb with hbx | hb2
        · exact Or.inr (Or.inl ⟨rfl, hbx⟩)
        · rcases alookup_ainsert_isSome_char _ _ _ _ hb2 with hbx | hb3
          · exact Or.inr (Or.inl ⟨rfl, hbx⟩)
          · exact Or.inl hb3
    · rw [alookup_amodify_ne _ _ _ _ hax] at h
      cases hl : alookup y nl.arr with
      | none => rw [hl] at h; cases h
      | some na =>
        rw [hl] at h
        simp only [Option.map_some', Option.some_inj] at h
        refine ⟨na, hl, by rw [← h], by rw [← h], ?_⟩
        intro b hb
        rw [← h] at hb
        simp only at hb
        rcases alookup_ainsert_isSome_char _ _ _ _ hb with hbx | hb2
        · exact Or.inr (Or.inr ⟨rfl, hbx⟩)
        · exact Or.inl hb2
  · rw [alookup_amodify_ne _ _ _ _ hay] at h
    by_cases hax : x = a
    · subst hax
      rw [alookup_amodify_self] at h
      cases hl : alookup x nl.arr with
      | none => rw [hl] at h; cases h
      | some na =>
        rw [hl] at h
        simp only [Option.map_some', Option.some_inj] at h
        refine ⟨na, hl, by rw [← h], by rw [← h], ?_⟩
        intro b hb
        rw [← h] at hb
        simp only at hb
        rcases alookup_ainsert_isSome_char _ _ _ _ hb with hbx | hb2
        · exact Or.inr (Or.inl ⟨rfl, hbx⟩)
        · exact Or.inl hb2
    · rw [alookup_amodify_ne _ _ _ _ hax] at h
      exact ⟨na', h, rfl, rfl, fun b hb => Or.inl hb⟩

theorem foldl_add_edge_isSome (a : NodeID) :
    ∀ (L : List (NodeID × NodeID × PathSegment)) (nl : NodeList),
      (((L.foldl (fun nl t => nl.add_edge t.1 t.2.1 t.2.2) nl).get? a).isSome) =
        ((nl.get? a).isSome) := by
  intro L
  induction L with
  | nil => intro nl; rfl
  | cons t rest ih =>
    intro nl
    simp only [List.foldl_cons]
    rw [ih, get?_add_edge_isSome]

theorem foldl_add_edge_next :
    ∀ (L : List (NodeID × NodeID × PathSegment)) (nl : NodeList),
      (L.foldl (fun nl t => nl.add_edge t.1 t.2.1 t.2.2) nl).next = nl.next := by
  intro L
  induction L with
  | nil => intro nl; rfl
  | cons t rest ih =>
    intro nl
    simp only [List.foldl_cons]
    rw [ih]
    rfl

theorem foldl_add_edge_map_fst :
    ∀ (L : List (NodeID × NodeID × PathSegment)) (nl : NodeList),
      (L.foldl (fun nl t => nl.add_edge t.1 t.2.1 t.2.2) nl).arr.map Prod.fst =
        nl.arr.map Prod.fst := by
  intro L
  induction L with
  | nil => intro nl; rfl
  | cons t rest ih =>
    intro nl
    simp only [List.foldl_cons]
    rw [ih, add_edge_map_fst]

theorem foldl_add_edge_map_pos :
    ∀ (L : List (NodeID × NodeID × PathSegment)) (nl : NodeList),
      (L.foldl (fun nl t => nl.add_edge t.1 t.2.1 t.2.2) nl).arr.map (fun e => e.2.pos) =
        nl.arr.map (fun e => e.2.pos) := by
  intro L
  induction L with
  | nil => intro nl; rfl
  | cons t rest ih =>
    intro nl
    simp only [List.foldl_cons]
    rw [ih, add_edge_map_pos]

theorem foldl_add_edge_node_char :
    ∀ (L : List (NodeID × NodeID × PathSegment)) (nl : NodeList) (a : NodeID) (na' : Node),
      (L.foldl (fun nl t => nl.add_edge t.1 t.2.1 t.2.2) nl).get? a = some na' →
      ∃ na, nl.get? a = some na ∧ na'.pos = na.pos ∧ na'.walk_cost = na.walk_cost ∧
        ∀ b, (alookup b na'.edges).isSome = true →
          (alookup b na.edges).isSome = true ∨
            ∃ t ∈ L, (t.1 = a ∧ t.2.1 = b) ∨ (t.1 = b ∧ t.2.1 = a) := by
  intro L
  induction L with
  | nil =>
    intro nl a na' h
    exact ⟨na', h, rfl, rfl, fun b hb => Or.inl hb⟩
  | cons t rest ih =>
    intro nl a na' h
    simp only [List.foldl_cons] at h
    obtain ⟨na1, h1, hp1, hw1, he1⟩ := ih _ a na' h
    obtain ⟨na, h0, hp0, hw0, he0⟩ := add_edge_node_char nl t.1 t.2.1 t.2.2 a na1 h1
    refine ⟨na, h0, hp1.trans hp0, hw1.trans hw0, ?_⟩
    intro b hb
    rcases he1 b hb with hb1 | ⟨u, hu, hu2⟩
    · rcases he0 b hb1 with hb0 | h2 | h2
      · exact Or.inl hb0
      · exact Or.inr ⟨t, List.mem_cons_self _ _, Or.inl ⟨h2.1.symm, h2.2.symm⟩⟩
      · exact Or.inr ⟨t, List.mem_cons_self _ _, Or.inr ⟨h2.2.symm, h2.1.symm⟩⟩
    · exact Or.inr ⟨u, List.mem_cons_of_mem _ hu, hu2⟩

theorem Bidir_add_edge (nl : NodeList) (a b : NodeID) (s : PathSegment)
    (ha : ((nl.get? a).isSome) = true) (hb : ((nl.get? b).isSome) = true) (hab : a ≠ b)
    (h : Bidir nl) : Bidir (nl.add_edge a b s) := by
  intro p q
  intro s0 hs0
  obtain ⟨hself1, hself2⟩ := edgeSeg_add_edge_self nl a b s ha hb hab
  by_cases h1 : a = p ∧ b = q
  · obtain ⟨h1a, h1b⟩ := h1
    subst h1a
    subst h1b
    rw [hself1] at hs0
    cases hs0
    exact ⟨s.reversedSeg, hself2, rfl⟩
  · by_cases h2 : a = q ∧ b = p
    · obtain ⟨h2a, h2b⟩ := h2
      subst h2a
      subst h2b
      rw [hself2] at hs0
      cases hs0
      exact ⟨s, hself1, rfl⟩
    · rw [edgeSeg_add_edge_of_ne nl a b p q s h1 h2] at hs0
      obtain ⟨s', hs', hc⟩ := h p q s0 hs0
      refine ⟨s', ?_, hc⟩
      rw [edgeSeg_add_edge_of_ne nl a b q p s (fun hh => h2 ⟨hh.1, hh.2⟩)
        (fun hh => h1 ⟨hh.1, hh.2⟩)]
      exact hs'

theorem Bidir_foldl_add_edge :
    ∀ (L : List (NodeID × NodeID × PathSegment)) (nl : NodeList),
      (∀ t ∈ L, ((nl.get? t.1).isSome) = true ∧ ((nl.get? t.2.1).isSome) = true ∧
        t.1 ≠ t.2.1) →
      Bidir nl → Bidir (L.foldl (fun nl t => nl.add_edge t.1 t.2.1 t.2.2) nl) := by
  intro L
  induction L with
  | nil => intro nl _ h; exact h
  | cons t rest ih =>
    intro nl hlive h
    simp only [List.foldl_cons]
    obtain ⟨h1, h2, h3⟩ := hlive t (List.mem_cons_self _ _)
    refine ih _ ?_ (Bidir_add_edge nl t.1 t.2.1 t.2.2 h1 h2 h3 h)
    intro u hu
    obtain ⟨g1, g2, g3⟩ := hlive u (List.mem_cons_of_mem _ hu)
    exact ⟨by rw [get?_add_edge_isSome]; exact g1, by rw [get?_add_edge_isSome]; exact g2, g3⟩

theorem mem_keys_exists {κ α : Type} (l : List (κ × α)) (k : κ)
    (h : k ∈ l.map Prod.fst) : ∃ v, (k, v) ∈ l := by
  obtain ⟨⟨k0, v⟩, he, hfst⟩ := List.mem_map.mp h
  simp only at hfst
  subst hfst
  exact ⟨v, he⟩

theorem node_at_live (c : PathCache) (p : Point) (b : NodeID)
    (h : c.node_at p = some b) : ((c.nodes.get? b).isSome) = true := by
  unfold PathCache.node_at NodeList.id_at at h
  cases hf : c.nodes.arr.find? (fun e => decide (e.2.pos = p)) with
  | none => rw [hf] at h; cases h
  | some e =>
    rw [hf] at h
    simp only [Option.map_some'] at h
    cases h
    exact alookup_isSome_of_mem _ e (List.mem_of_find?_eq_some hf)

theorem connect_fires (c : PathCache) :
    ∀ (pairs : List (NodeID × Node)) (seen : List NodeID) (a b : NodeID) (nb : Node)
      (op : Point),
      (b, nb) ∈ pairs → a ∉ seen → a ∉ pairs.map Prod.fst →
      op ∈ Nbh.allNeighbors nb.pos → c.node_at op = some a → alookup a nb.edges = none →
      ∃ seg, (b, a, seg) ∈ c.connectTriplesFrom seen pairs := by
  intro pairs
  induction pairs with
  | nil => intro seen a b nb op hmem; cases hmem
  | cons e rest ih =>
    intro seen a b nb op hmem hseen hkeys hop hna hnl
    have hab : a ≠ b := by
      intro hc
      subst hc
      exact hkeys (by
        rcases List.mem_cons.mp hmem with he | he
        · rw [← he]; simp
        · exact List.mem_map_of_mem Prod.fst (List.mem_cons_of_mem _ he))
    rcases List.mem_cons.mp hmem with he | he
    · refine ⟨PathSegment.new ⟨[nb.pos, op], nb.walk_cost⟩ c.config.cache_paths, ?_⟩
      rw [← he]
      simp only [PathCache.connectTriplesFrom, List.mem_append]
      left
      simp only [connectBlock, List.mem_filterMap]
      refine ⟨op, hop, ?_⟩
      simp only [hna]
      have hcnd : ¬ (((alookup a nb.edges).isSome || decide (a ∈ seen ++ [b])) = true) := by
        simp only [Bool.or_eq_true, Option.isSome_iff_exists, decide_eq_true_eq]
        rintro (⟨s0, hs0⟩ | hc)
        · rw [hnl] at hs0; cases hs0
        · rcases List.mem_append.mp hc with hc | hc
          · exact hseen hc
          · simp only [List.mem_singleton] at hc
            exact hab hc
      rw [if_neg hcnd]
    · have hseen' : a ∉ seen ++ [e.1] := by
        intro hc
        rcases List.mem_append.mp hc with hc | hc
        · exact hseen hc
        · simp only [List.mem_singleton] at hc
          subst hc
          exact hkeys (List.mem_map_of_mem Prod.fst (List.mem_cons_self _ _))
      have hkeys' : a ∉ rest.map Prod.fst := by
        intro hc
        exact hkeys (by simp only [List.map_cons, List.mem_cons]; exact Or.inr hc)
      obtain ⟨seg, hseg⟩ := ih (seen ++ [e.1]) a b nb op he hseen' hkeys' hop hna hnl
      refine ⟨seg, ?_⟩
      simp only [PathCache.connectTriplesFrom, List.mem_append]
      exact Or.inr hseg

theorem symPair_congr (nl nl' : NodeList) (p q : NodeID)
    (h1 : nl'.edgeSeg p q = nl.edgeSeg p q) (h2 : nl'.edgeSeg q p = nl.edgeSeg q p)
    (h : symPair nl p q) : symPair nl' p q := by
  intro s hs
  rw [h1] at hs
  obtain ⟨s', hs', hc⟩ := h s hs
  exact ⟨s', by rw [h2]; exact hs', hc⟩

theorem symPair_add_edge_self (nl : NodeList) (a b : NodeID) (s : PathSegment)
    (ha : ((nl.get? a).isSome) = true) (hb : ((nl.get? b).isSome) = true) (hab : a ≠ b) :
    symPair (nl.add_edge a b s) a b ∧ symPair (nl.add_edge a b s) b a := by
  obtain ⟨h1, h2⟩ := edgeSeg_add_edge_self nl a b s ha hb hab
  constructor
  · intro s0 hs0
    rw [h1] at hs0
    cases hs0
    exact ⟨s.reversedSeg, h2, rfl⟩
  · intro s0 hs0
    rw [h2] at hs0
    cases hs0
    exact ⟨s, h1, rfl⟩

theorem foldl_add_edge_symPair :
    ∀ (L : List (NodeID × NodeID × PathSegment)) (nl : NodeList) (p q : NodeID),
      (∀ t ∈ L, ((nl.get? t.1).isSome) = true ∧ ((nl.get? t.2.1).isSome) = true ∧
        t.1 ≠ t.2.1) →
      ((symPair nl p q ∧ symPair nl q p) ∨
        ∃ t ∈ L, (t.1 = p ∧ t.2.1 = q) ∨ (t.1 = q ∧ t.2.1 = p)) →
      symPair (L.foldl (fun nl t => nl.add_edge t.1 t.2.1 t.2.2) nl) p q := by
  intro L
  induction L with
  | nil =>
    intro nl p q _ h
    rcases h with ⟨h1, _⟩ | ⟨t, ht, _⟩
    · exact h1
    · cases ht
  | cons t rest ih =>
    intro nl p q hlive h
    simp only [List.foldl_cons]
    obtain ⟨hl1, hl2, hl3⟩ := hlive t (List.mem_cons_self _ _)
    have hlive' : ∀ u ∈ rest,
        (((nl.add_edge t.1 t.2.1 t.2.2).get? u.1).isSome) = true ∧
        (((nl.add_edge t.1 t.2.1 t.2.2).get? u.2.1).isSome) = true ∧ u.1 ≠ u.2.1 := by
      intro u hu
      obtain ⟨g1, g2, g3⟩ := hlive u (List.mem_cons_of_mem _ hu)
      exact ⟨by rw [get?_add_edge_isSome]; exact g1,
        by rw [get?_add_edge_isSome]; exact g2, g3⟩
    have hselfcase : ((t.1 = p ∧ t.2.1 = q) ∨ (t.1 = q ∧ t.2.1 = p)) →
        symPair (nl.add_edge t.1 t.2.1 t.2.2) p q ∧
        symPair (nl.add_edge t.1 t.2.1 t.2.2) q p := by
      intro ht
      rcases ht with ⟨h1, h2⟩ | ⟨h1, h2⟩
      · rw [← h1, ← h2]
        exact symPair_add_edge_self nl t.1 t.2.1 t.2.2 hl1 hl2 hl3
      · rw [← h1, ← h2]
        obtain ⟨hs1, hs2⟩ := symPair_add_edge_self nl t.1 t.2.1 t.2.2 hl1 hl2 hl3
        exact ⟨hs2, hs1⟩
    rcases h with ⟨h1, h2⟩ | ⟨u, hu, hut⟩
    · by_cases ht : (t.1 = p ∧ t.2.1 = q) ∨ (t.1 = q ∧ t.2.1 = p)
      · exact ih _ p q hlive' (Or.inl (hselfcase ht))
      · push_neg at ht
        refine ih _ p q hlive' (Or.inl ⟨?_, ?_⟩)
        · exact symPair_congr nl _ p q
            (edgeSeg_add_edge_of_ne nl t.1 t.2.1 p q t.2.2 (fun hh => (ht.1 hh.1) hh.2)
              (fun hh => (ht.2 hh.1) hh.2))
            (edgeSeg_add_edge_of_ne nl t.1 t.2.1 q p t.2.2 (fun hh => (ht.2 hh.1) hh.2)
              (fun hh => (ht.1 hh.1) hh.2)) h1
        · exact symPair_congr nl _ q p
            (edgeSeg_add_edge_of_ne nl t.1 t.2.1 q p t.2.2 (fun hh => (ht.2 hh.1) hh.2)
              (fun hh => (ht.1 hh.1) hh.2))
            (edgeSeg_add_edge_of_ne nl t.1 t.2.1 p q t.2.2 (fun hh => (ht.1 hh.1) hh.2)
              (fun hh => (ht.2 hh.1) hh.2)) h2
    · rcases List.mem_cons.mp hu with hu1 | hu1
      · subst hu1
        exact ih _ p q hlive' (Or.inl (hselfcase hut))
      · exact ih _ p q hlive' (Or.inr ⟨u, hu1, hut⟩)

theorem connectPairs_bidir (c : PathCache) (pairs : List (NodeID × Node))
    (hpairs : ∀ e ∈ pairs, c.nodes.get? e.1 = some e.2)
    (hEdgeOK : ∀ a na b s, c.nodes.get? a = some na → alookup b na.edges = some s →
      (∃ s', c.nodes.edgeSeg b a = some s' ∧ s'.cost = s.cost) ∨
      (b ∈ pairs.map Prod.fst ∧ a ∉ pairs.map Prod.fst ∧
        ∃ nb, c.nodes.get? b = some nb ∧ na.pos ∈ Nbh.allNeighbors nb.pos ∧
          c.node_at na.pos = some a ∧ alookup a nb.edges = none)) :
    Bidir (c.connectPairs pairs).nodes := by
  have hTlive : ∀ t ∈ c.connectTriplesFrom [] pairs,
      ((c.nodes.get? t.1).isSome) = true ∧ ((c.nodes.get? t.2.1).isSome) = true ∧
        t.1 ≠ t.2.1 := by
    intro t ht
    obtain ⟨aa, bb, seg⟩ := t
    obtain ⟨n, op, hmem, hop, hna, hed, hseen, hba, hseg⟩ :=
      connectTriplesFrom_mem c pairs [] aa bb seg ht
    refine ⟨?_, node_at_live c op bb hna, fun h => hba h.symm⟩
    rw [hpairs (aa, n) hmem]
    rfl
  intro p q
  show symPair _ p q
  have hfold : (c.connectPairs pairs).nodes =
      (c.connectTriplesFrom [] pairs).foldl
        (fun nl t => nl.add_edge t.1 t.2.1 t.2.2) c.nodes := by
    unfold PathCache.connectPairs
    rw [connectTriples_eq_from]
  rw [hfold]
  by_cases htouch : ∃ t ∈ c.connectTriplesFrom [] pairs,
      (t.1 = p ∧ t.2.1 = q) ∨ (t.1 = q ∧ t.2.1 = p)
  · exact foldl_add_edge_symPair _ c.nodes p q hTlive (Or.inr htouch)
  · refine foldl_add_edge_symPair _ c.nodes p q hTlive (Or.inl ⟨?_, ?_⟩)
    · intro s hs
      obtain ⟨na, hna, hlk⟩ := (edgeSeg_some_iff c.nodes p q s).mp hs
      rcases hEdgeOK p na q s hna hlk with hsym | ⟨hqk, hpk, nb, hnb, hadj, hnat, hnl⟩
      · exact hsym
      · obtain ⟨nb', hmem'⟩ := mem_keys_exists pairs q hqk
        have : nb' = nb := by
          have h1 := hpairs (q, nb') hmem'
          rw [hnb] at h1
          exact (Option.some_inj.mp h1).symm
        subst this
        obtain ⟨seg, hseg⟩ := connect_fires c pairs [] p q nb' na.pos hmem'
          (by simp) hpk hadj hnat hnl
        exact absurd ⟨(q, p, seg), hseg, Or.inr ⟨rfl, rfl⟩⟩ htouch
    · intro s hs
      obtain ⟨nq, hnq, hlk⟩ := (edgeSeg_some_iff c.nodes q p s).mp hs
      rcases hEdgeOK q nq p s hnq hlk with hsym | ⟨hpk, hqk, nb, hnb, hadj, hnat, hnl⟩
      · exact hsym
      · obtain ⟨nb', hmem'⟩ := mem_keys_exists pairs p hpk
        have : nb' = nb := by
          have h1 := hpairs (p, nb') hmem'
          rw [hnb] at h1
          exact (Option.some_inj.mp h1).symm
        subst this
        obtain ⟨seg, hseg⟩ := connect_fires c pairs [] q p nb' nq.pos hmem'
          (by simp) hqk hadj hnat hnl
        exact absurd ⟨(p, q, seg), hseg, Or.inl ⟨rfl, rfl⟩⟩ htouch

theorem add_node_get? (nl : NodeList) (p : Point) (w : Nat) (a : NodeID) :
    (nl.add_node p w).1.get? a =
      match nl.get? a with
      | some v => some v
      | none => if nl.next = a then some ⟨p, w, []⟩ else none := by
  unfold NodeList.add_node NodeList.get?
  simp only
  rw [alookup_append]
  cases h : alookup a nl.arr with
  | some v => rfl
  | none => simp [alookup]

theorem add_node_map_fst (nl : NodeList) (p : Point) (w : Nat) :
    (nl.add_node p w).1.arr.map Prod.fst = nl.arr.map Prod.fst ++ [nl.next] := by
  unfold NodeList.add_node
  simp

theorem add_node_map_pos (nl : NodeList) (p : Point) (w : Nat) :
    (nl.add_node p w).1.arr.map (fun e => e.2.pos) =
      nl.arr.map (fun e => e.2.pos) ++ [p] := by
  unfold NodeList.add_node
  simp

theorem add_node_next (nl : NodeList) (p : Point) (w : Nat) :
    (nl.add_node p w).1.next = nl.next + 1 := rfl

theorem add_node_id (nl : NodeList) (p : Point) (w : Nat) :
    (nl.add_node p w).2 = nl.next := rfl

theorem addNodeEdges_triples (ch : Chunk) (id : NodeID) (cost : CostFn) (nl0 : NodeList)
    (cfg : PathCacheConfig) (acc : NodeList)
    (hstab : ∀ a, ((acc.get? a).isSome) = ((nl0.get? a).isSome)) :
    ∃ L : List (NodeID × NodeID × PathSegment), ch.addNodeEdges id cost acc cfg =
        L.foldl (fun nl t => nl.add_edge t.1 t.2.1 t.2.2) acc ∧
      ∀ t ∈ L, t.1 = id ∧ t.2.1 ∈ ch.nodes ∧ ((nl0.get? t.1).isSome) = true ∧
        ((nl0.get? t.2.1).isSome) = true ∧ t.1 ≠ t.2.1 := by
  unfold Chunk.addNodeEdges
  cases hid : acc.get? id with
  | none => exact ⟨[], rfl, by simp⟩
  | some n =>
    have hidlive : ((nl0.get? id).isSome) = true := by
      rw [← hstab]
      rw [hid]
      rfl
    have aux : ∀ (ids : List NodeID) (acc2 : NodeList),
        (∀ a, ((acc2.get? a).isSome) = ((nl0.get? a).isSome)) →
        ∃ L : List (NodeID × NodeID × PathSegment), ids.foldl
            (fun acc3 other =>
              if other = id then acc3
              else
                match acc3.get? other with
                | none => acc3
                | some m =>
                  match ch.find_path n.pos m.pos cost with
                  | none => acc3
                  | some p => acc3.add_edge id other (PathSegment.new p cfg.cache_paths)) acc2 =
            L.foldl (fun nl t => nl.add_edge t.1 t.2.1 t.2.2) acc2 ∧
          ∀ t ∈ L, t.1 = id ∧ t.2.1 ∈ ids ∧ ((nl0.get? t.1).isSome) = true ∧
            ((nl0.get? t.2.1).isSome) = true ∧ t.1 ≠ t.2.1 := by
      intro ids
      induction ids with
      | nil => intro acc2 _; exact ⟨[], rfl, by simp⟩
      | cons other rest ih =>
        intro acc2 hstab2
        simp only [List.foldl_cons]
        by_cases hoi : other = id
        · rw [if_pos hoi]
          obtain ⟨L, hL, hp⟩ := ih acc2 hstab2
          refine ⟨L, hL, ?_⟩
          intro t ht
          obtain ⟨g1, g2, g3, g4, g5⟩ := hp t ht
          exact ⟨g1, List.mem_cons_of_mem _ g2, g3, g4, g5⟩
        · rw [if_neg hoi]
          have hv : ∃ L0 : List (NodeID × NodeID × PathSegment),
              (match acc2.get? other with
                | none => acc2
                | some m =>
                  match ch.find_path n.pos m.pos cost with
                  | none => acc2
                  | some p => acc2.add_edge id other (PathSegment.new p cfg.cache_paths)) =
                L0.foldl (fun nl t => nl.add_edge t.1 t.2.1 t.2.2) acc2 ∧
              ∀ t ∈ L0, t.1 = id ∧ t.2.1 = other ∧
                ((acc2.get? other).isSome) = true := by
            cases hao : acc2.get? other with
            | none => exact ⟨[], rfl, by simp⟩
            | some m =>
              cases hfp : ch.find_path n.pos m.pos cost with
              | none =>
                simp only [hfp]
                exact ⟨[], rfl, by simp⟩
              | some p =>
                simp only [hfp]
                refine ⟨[(id, other, PathSegment.new p cfg.cache_paths)], rfl, ?_⟩
                intro t ht
                simp only [List.mem_singleton] at ht
                subst ht
                exact ⟨rfl, rfl, rfl⟩
          obtain ⟨L0, hv0, hp0⟩ := hv
          rw [hv0]
          have hstab3 : ∀ a,
              (((L0.foldl (fun nl t => nl.add_edge t.1 t.2.1 t.2.2) acc2).get? a).isSome)
                = ((nl0.get? a).isSome) := by
            intro a
            rw [foldl_add_edge_isSome]
            exact hstab2 a
          obtain ⟨L, hL, hp⟩ := ih _ hstab3
          refine ⟨L0 ++ L, by rw [List.foldl_append]; exact hL, ?_⟩
          intro t ht
          rcases List.mem_append.mp ht with ht1 | ht1
          · obtain ⟨g1, g2, g3⟩ := hp0 t ht1
            refine ⟨g1, by rw [g2]; exact List.mem_cons_self _ _,
              by rw [g1]; exact hidlive, ?_, by rw [g1, g2]; exact fun h => hoi h.symm⟩
            rw [g2, ← hstab2]
            exact g3
          · obtain ⟨g1, g2, g3, g4, g5⟩ := hp t ht1
            exact ⟨g1, List.mem_cons_of_mem _ g2, g3, g4, g5⟩
    exact aux ch.nodes acc hstab

theorem add_nodes_triples (ch0 : Chunk) (cost : CostFn) (nl0 : NodeList)
    (cfg : PathCacheConfig) :
    ∀ (ids : List NodeID) (ch : Chunk) (acc : NodeList),
      ch.pos = ch0.pos → ch.size_w = ch0.size_w → ch.size_h = ch0.size_h →
      ch.sides = ch0.sides →
      (∀ a, ((acc.get? a).isSome) = ((nl0.get? a).isSome)) →
      ∃ L : List (NodeID × NodeID × PathSegment), (ch.add_nodes ids cost acc cfg).2 =
          L.foldl (fun nl t => nl.add_edge t.1 t.2.1 t.2.2) acc ∧
        (∀ t ∈ L, t.1 ∈ ids ∧ (t.2.1 ∈ ch.nodes ∨ t.2.1 ∈ ids) ∧
          ((nl0.get? t.1).isSome) = true ∧ ((nl0.get? t.2.1).isSome) = true ∧
          t.1 ≠ t.2.1) ∧
        (ch.add_nodes ids cost acc cfg).1.pos = ch0.pos ∧
        (ch.add_nodes ids cost acc cfg).1.size_w = ch0.size_w ∧
        (ch.add_nodes ids cost acc cfg).1.size_h = ch0.size_h ∧
        (ch.add_nodes ids cost acc cfg).1.sides = ch0.sides ∧
        (∀ x, x ∈ (ch.add_nodes ids cost acc cfg).1.nodes ↔ x ∈ ch.nodes ∨ x ∈ ids) := by
  intro ids
  induction ids with
  | nil =>
    intro ch acc hcp hcw hch hcs _
    exact ⟨[], rfl, by simp, hcp, hcw, hch, hcs, by simp [Chunk.add_nodes]⟩
  | cons id rest ih =>
    intro ch acc hcp hcw hch hcs hstab
    obtain ⟨L1, hL1, hp1⟩ := addNodeEdges_triples ch id cost nl0 cfg acc hstab
    have hstab1 : ∀ a,
        (((ch.addNodeEdges id cost acc cfg).get? a).isSome) = ((nl0.get? a).isSome) := by
      intro a
      rw [hL1, foldl_add_edge_isSome]
      exact hstab a
    have hstep : (ch.add_nodes (id :: rest) cost acc cfg) =
        (({ ch with nodes := if id ∈ ch.nodes then ch.nodes else ch.nodes ++ [id] }).add_nodes
          rest cost (ch.addNodeEdges id cost acc cfg) cfg) := by
      unfold Chunk.add_nodes
      simp only [List.foldl_cons]
    obtain ⟨L2, hL2, hp2, hq1, hq2, hq3, hq4, hq5⟩ :=
      ih { ch with nodes := if id ∈ ch.nodes then ch.nodes else ch.nodes ++ [id] }
        (ch.addNodeEdges id cost acc cfg) hcp hcw hch hcs hstab1
    refine ⟨L1 ++ L2, ?_, ?_, by rw [hstep]; exact hq1, by rw [hstep]; exact hq2,
      by rw [hstep]; exact hq3, by rw [hstep]; exact hq4, ?_⟩
    · rw [hstep, List.foldl_append, ← hL1]
      exact hL2
    · intro t ht
      rcases List.mem_append.mp ht with ht1 | ht1
      · obtain ⟨g1, g2, g3, g4, g5⟩ := hp1 t ht1
        exact ⟨by rw [g1]; exact List.mem_cons_self _ _, Or.inl g2, g3, g4, g5⟩
      · obtain ⟨g1, g2, g3, g4, g5⟩ := hp2 t ht1
        refine ⟨List.mem_cons_of_mem _ g1, ?_, g3, g4, g5⟩
        rcases g2 with g2 | g2
        · simp only at g2
          by_cases hin : id ∈ ch.nodes
          · rw [if_pos hin] at g2
            exact Or.inl g2
          · rw [if_neg hin] at g2
            rcases List.mem_append.mp g2 with g6 | g6
            · exact Or.inl g6
            · simp only [List.mem_singleton] at g6
              exact Or.inr (by rw [g6]; exact List.mem_cons_self _ _)
        · exact Or.inr (List.mem_cons_of_mem _ g2)
    · intro x
      rw [hstep, hq5]
      by_cases hin : id ∈ ch.nodes
      · simp only [if_pos hin, List.mem_cons]
        constructor
        · rintro (h | h)
          · exact Or.inl h
          · exact Or.inr (Or.inr h)
        · rintro (h | h | h)
          · exact Or.inl h
          · exact Or.inl (h ▸ hin)
          · exact Or.inr h
      · simp only [if_neg hin, List.mem_append, List.mem_singleton, List.mem_cons,
          List.not_mem_nil, or_false]
        tauto

theorem list_getD_eq_get? {α : Type} :
    ∀ (l : List α) (n : Nat) (d : α), l.getD n d = (l.get? n).getD d := by
  intro l
  induction l with
  | nil => intro n d; cases n <;> rfl
  | cons x xs ih =>
    intro n d
    cases n with
    | zero => rfl
    | succ m => exact ih m d

theorem list_get?_set {α : Type} :
    ∀ (l : List α) (n : Nat) (a : α) (m : Nat),
      (l.set n a).get? m = if m = n ∧ n < l.length then some a else l.get? m := by
  intro l
  induction l with
  | nil =>
    intro n a m
    simp [List.set]
  | cons x xs ih =>
    intro n a m
    cases n with
    | zero =>
      cases m with
      | zero => simp
      | succ m' => simp
    | succ n' =>
      cases m with
      | zero => simp
      | succ m' =>
        simp only [List.set, List.get?, List.length_cons]
        rw [ih n' a m']
        by_cases h : m' = n' ∧ n' < xs.length
        · rw [if_pos h, if_pos ⟨by omega, by omega⟩]
        · rw [if_neg h, if_neg (by omega)]

theorem div_lt_of_lt_mul_width (x w n cs : Nat) (hcs : 1 ≤ cs) (hx : x < w)
    (hw : w ≤ n * cs) : x / cs < n := by
  have h2 : x < n * cs := lt_of_lt_of_le hx hw
  exact Nat.div_lt_of_lt_mul (by rw [Nat.mul_comm]; exact h2)

theorem index_decomp_unique (n q1 q2 r1 r2 : Nat) (h1 : q1 < n) (h2 : q2 < n)
    (h : r1 * n + q1 = r2 * n + q2) : q1 = q2 ∧ r1 = r2 := by
  have hq : q1 = q2 := by
    have e1 : (q1 + r1 * n) % n = q1 % n := Nat.add_mul_mod_self_right q1 r1 n
    have e2 : (q2 + r2 * n) % n = q2 % n := Nat.add_mul_mod_self_right q2 r2 n
    have hc : q1 + r1 * n = q2 + r2 * n := by omega
    rw [hc] at e1
    rw [e2] at e1
    rw [Nat.mod_eq_of_lt h2, Nat.mod_eq_of_lt h1] at e1
    exact e1.symm
  refine ⟨hq, ?_⟩
  subst hq
  have : r1 * n = r2 * n := by omega
  have hn : 0 < n := lt_of_le_of_lt (Nat.zero_le _) h1
  exact Nat.eq_of_mul_eq_mul_right hn this

theorem same_chunk_of_index_eq (c : PathCache) (hwf : CacheWF c) (p q : Point)
    (hp : p.1 < c.width) (hq : q.1 < c.width)
    (h : c.get_chunk_index p = c.get_chunk_index q) : c.same_chunk p q = true := by
  obtain ⟨hn1, _, hcs⟩ := hwf.num
  unfold PathCache.get_chunk_index at h
  simp only at h
  have h1 : p.1 / c.config.chunk_size < c.num_chunks.1 :=
    div_lt_of_lt_mul_width p.1 c.width c.num_chunks.1 c.config.chunk_size hcs hp hn1
  have h2 : q.1 / c.config.chunk_size < c.num_chunks.1 :=
    div_lt_of_lt_mul_width q.1 c.width c.num_chunks.1 c.config.chunk_size hcs hq hn1
  obtain ⟨hq', hr'⟩ := index_decomp_unique c.num_chunks.1 _ _ _ _ h1 h2 h
  unfold PathCache.same_chunk
  simp only [Bool.and_eq_true, decide_eq_true_eq]
  exact ⟨hq', hr'⟩

theorem index_eq_of_same_chunk (c : PathCache) (p q : Point)
    (h : c.same_chunk p q = true) : c.get_chunk_index p = c.get_chunk_index q := by
  unfold PathCache.same_chunk at h
  simp only [Bool.and_eq_true, decide_eq_true_eq] at h
  unfold PathCache.get_chunk_index
  simp only
  rw [h.1, h.2]

theorem chunk_at_of_mem_get_chunk (c : PathCache) (p : Point) (a : NodeID)
    (h : a ∈ (c.get_chunk p).nodes) :
    ∃ ch, c.chunks.get? (c.get_chunk_index p) = some ch ∧ a ∈ ch.nodes := by
  unfold PathCache.get_chunk at h
  rw [list_getD_eq_get?] at h
  cases hg : c.chunks.get? (c.get_chunk_index p) with
  | none =>
    rw [hg] at h
    simp only [Option.getD_none] at h
    cases h
  | some ch =>
    rw [hg] at h
    exact ⟨ch, rfl, h⟩

theorem connectPairs_nodes_eq (c : PathCache) (pairs : List (NodeID × Node)) :
    (c.connectPairs pairs).nodes =
      (c.connectTriplesFrom [] pairs).foldl
        (fun nl t => nl.add_edge t.1 t.2.1 t.2.2) c.nodes := by
  unfold PathCache.connectPairs
  rw [connectTriples_eq_from]

theorem connectPairs_chunks (c : PathCache) (pairs : List (NodeID × Node)) :
    (c.connectPairs pairs).chunks = c.chunks := rfl

theorem connectPairs_width (c : PathCache) (pairs : List (NodeID × Node)) :
    (c.connectPairs pairs).width = c.width := rfl

theorem connectPairs_height (c : PathCache) (pairs : List (NodeID × Node)) :
    (c.connectPairs pairs).height = c.height := rfl

theorem connectPairs_config (c : PathCache) (pairs : List (NodeID × Node)) :
    (c.connectPairs pairs).config = c.config := rfl

theorem connectPairs_num_chunks (c : PathCache) (pairs : List (NodeID × Node)) :
    (c.connectPairs pairs).num_chunks = c.num_chunks := rfl

theorem connectPairs_node_char (c : PathCache) (pairs : List (NodeID × Node))
    (a : NodeID) (na' : Node) (h : (c.connectPairs pairs).nodes.get? a = some na') :
    ∃ na, c.nodes.get? a = some na ∧ na'.pos = na.pos ∧ na'.walk_cost = na.walk_cost ∧
      ∀ b, (alookup b na'.edges).isSome = true →
        (alookup b na.edges).isSome = true ∨
        ∃ t ∈ c.connectTriplesFrom [] pairs,
          (t.1 = a ∧ t.2.1 = b) ∨ (t.1 = b ∧ t.2.1 = a) := by
  rw [connectPairs_nodes_eq] at h
  exact foldl_add_edge_node_char _ c.nodes a na' h

theorem connectPairs_WF (c : PathCache) (pairs : List (NodeID × Node))
    (hpairs : ∀ e ∈ pairs, c.nodes.get? e.1 = some e.2)
    (hEdgeOK : ∀ a na b s, c.nodes.get? a = some na → alookup b na.edges = some s →
      (∃ s', c.nodes.edgeSeg b a = some s' ∧ s'.cost = s.cost) ∨
      (b ∈ pairs.map Prod.fst ∧ a ∉ pairs.map Prod.fst ∧
        ∃ nb, c.nodes.get? b = some nb ∧ na.pos ∈ Nbh.allNeighbors nb.pos ∧
          c.node_at na.pos = some a ∧ alookup a nb.edges = none))
    (hlive : ∀ a na b s, c.nodes.get? a = some na → alookup b na.edges = some s →
      ((c.nodes.get? b).isSome) = true)
    (hkeys : (c.nodes.arr.map Prod.fst).Nodup)
    (hposn : (c.nodes.arr.map (fun e => e.2.pos)).Nodup)
    (hfresh : ∀ e ∈ c.nodes.arr, e.1 < c.nodes.next)
    (hinb : ∀ a na, c.nodes.get? a = some na → na.pos.1 < c.width ∧ na.pos.2 < c.height)
    (hloc : ∀ a na b nb s, c.nodes.get? a = some na → c.nodes.get? b = some nb →
      alookup b na.edges = some s →
      c.same_chunk na.pos nb.pos = true ∨ nb.pos ∈ Nbh.allNeighbors na.pos)
    (hreg : ∀ a na, c.nodes.get? a = some na → a ∈ (c.get_chunk na.pos).nodes)
    (hmem : ∀ i ch, c.chunks.get? i = some ch → ∀ id ∈ ch.nodes,
      ∃ n, c.nodes.get? id = some n ∧ c.get_chunk_index n.pos = i)
    (hgeo : ∀ i ch, c.chunks.get? i = some ch → 1 ≤ ch.size_w ∧ 1 ≤ ch.size_h ∧
      ch.pos.1 + ch.size_w ≤ c.width ∧ ch.pos.2 + ch.size_h ≤ c.height ∧
      ∀ p, ch.inChunk p = true → c.get_chunk_index p = i)
    (hnum : c.width ≤ c.num_chunks.1 * c.config.chunk_size ∧
      c.height ≤ c.num_chunks.2 * c.config.chunk_size ∧ 1 ≤ c.config.chunk_size) :
    CacheWF (c.connectPairs pairs) := by
  have hisome : ∀ a, (((c.connectPairs pairs).nodes.get? a).isSome) =
      ((c.nodes.get? a).isSome) := by
    intro a
    rw [connectPairs_nodes_eq, foldl_add_edge_isSome]
  have hfst : (c.connectPairs pairs).nodes.arr.map Prod.fst = c.nodes.arr.map Prod.fst := by
    rw [connectPairs_nodes_eq, foldl_add_edge_map_fst]
  have hpos : (c.connectPairs pairs).nodes.arr.map (fun e => e.2.pos) =
      c.nodes.arr.map (fun e => e.2.pos) := by
    rw [connectPairs_nodes_eq, foldl_add_edge_map_pos]
  have hnext : (c.connectPairs pairs).nodes.next = c.nodes.next := by
    rw [connectPairs_nodes_eq, foldl_add_edge_next]
  have htriple : ∀ t ∈ c.connectTriplesFrom [] pairs,
      ∃ n nb, c.nodes.get? t.1 = some n ∧ c.nodes.get? t.2.1 = some nb ∧
        nb.pos ∈ Nbh.allNeighbors n.pos ∧ t.1 ≠ t.2.1 := by
    intro t ht
    obtain ⟨aa, bb, seg⟩ := t
    obtain ⟨n, op, hmem1, hop, hna, hed, hseen, hba, hseg⟩ :=
      connectTriplesFrom_mem c pairs [] aa bb seg ht
    obtain ⟨nb, hnb, hnbpos⟩ := node_at_pos_get c hkeys op bb hna
    exact ⟨n, nb, hpairs (aa, n) hmem1, hnb, by rw [hnbpos]; exact hop,
      fun h => hba h.symm⟩
  refine ⟨connectPairs_bidir c pairs hpairs hEdgeOK, ?_, ?_, ?_, ?_, ?_, ?_, ?_, ?_, ?_, ?_⟩
  · intro a na b s h hlk
    obtain ⟨na0, h0, _, _, hechar⟩ := connectPairs_node_char c pairs a na h
    rw [hisome]
    rcases hechar b (by rw [hlk]; rfl) with hb | ⟨t, ht, htt⟩
    · obtain ⟨s0, hs0⟩ := Option.isSome_iff_exists.mp hb
      exact hlive a na0 b s0 h0 hs0
    · obtain ⟨n, nb, hn, hnb, _, _⟩ := htriple t ht
      rcases htt with ⟨h1, h2⟩ | ⟨h1, h2⟩
      · rw [← h2, hnb]; rfl
      · rw [← h1, hn]
        rfl
  · rw [hfst]; exact hkeys
  · rw [hpos]; exact hposn
  · intro e he
    have : e.1 ∈ (c.connectPairs pairs).nodes.arr.map Prod.fst :=
      List.mem_map_of_mem Prod.fst he
    rw [hfst] at this
    obtain ⟨v, hv⟩ := mem_keys_exists _ _ this
    rw [hnext]
    exact hfresh (e.1, v) hv
  · intro a na h
    obtain ⟨na0, h0, hp0, _, _⟩ := connectPairs_node_char c pairs a na h
    rw [connectPairs_width, connectPairs_height, hp0]
    exact hinb a na0 h0
  · intro a na b nb s h hb hlk
    obtain ⟨na0, h0, hp0, _, hechar⟩ := connectPairs_node_char c pairs a na h
    obtain ⟨nb0, hb0, hq0, _, _⟩ := connectPairs_node_char c pairs b nb hb
    have hsame : (c.connectPairs pairs).same_chunk na.pos nb.pos =
        c.same_chunk na.pos nb.pos := rfl
    rw [hsame, hp0, hq0]
    rcases hechar b (by rw [hlk]; rfl) with hbold | ⟨t, ht, htt⟩
    · obtain ⟨s0, hs0⟩ := Option.isSome_iff_exists.mp hbold
      exact hloc a na0 b nb0 s0 h0 hb0 hs0
    · obtain ⟨n, nbt, hn, hnbt, hadj, _⟩ := htriple t ht
      rcases htt with ⟨h1, h2⟩ | ⟨h1, h2⟩
      · right
        rw [h1] at hn
        rw [h2] at hnbt
        rw [hn] at h0
        rw [hnbt] at hb0
        cases h0
        cases hb0
        exact hadj
      · right
        rw [h1] at hn
        rw [h2] at hnbt
        rw [hn] at hb0
        rw [hnbt] at h0
        cases h0
        cases hb0
        exact allNeighbors_symm _ _ hadj
  · intro a na h
    obtain ⟨na0, h0, hp0, _, _⟩ := connectPairs_node_char c pairs a na h
    have : (c.connectPairs pairs).get_chunk na.pos = c.get_chunk na.pos := by
      unfold PathCache.get_chunk PathCache.get_chunk_index
      rw [connectPairs_chunks, connectPairs_config, connectPairs_num_chunks]
    rw [this, hp0]
    exact hreg a na0 h0
  · intro i ch hch id hid
    rw [connectPairs_chunks] at hch
    obtain ⟨n, hn, hidx⟩ := hmem i ch hch id hid
    have hsome : (((c.connectPairs pairs).nodes.get? id).isSome) = true := by
      rw [hisome, hn]; rfl
    obtain ⟨n1, hn1⟩ := Option.isSome_iff_exists.mp hsome
    obtain ⟨n0, hn0, hp0, _, _⟩ := connectPairs_node_char c pairs id n1 hn1
    rw [hn] at hn0
    cases hn0
    refine ⟨n1, hn1, ?_⟩
    have : (c.connectPairs pairs).get_chunk_index n1.pos = c.get_chunk_index n1.pos := rfl
    rw [this, hp0]
    exact hidx
  · intro i ch hch
    rw [connectPairs_chunks] at hch
    obtain ⟨g1, g2, g3, g4, g5⟩ := hgeo i ch hch
    refine ⟨g1, g2, ?_, ?_, ?_⟩
    · rw [connectPairs_width]; exact g3
    · rw [connectPairs_height]; exact g4
    · intro p hp
      have : (c.connectPairs pairs).get_chunk_index p = c.get_chunk_index p := rfl
      rw [this]
      exact g5 p hp
  · rw [connectPairs_width, connectPairs_height, connectPairs_config,
      connectPairs_num_chunks]
    exact hnum

theorem get?_add_edge_of_ne (nl : NodeList) (x y : NodeID) (s : PathSegment) (a : NodeID)
    (hx : x ≠ a) (hy : y ≠ a) : (nl.add_edge x y s).get? a = nl.get? a := by
  unfold NodeList.add_edge NodeList.get?
  simp only
  rw [alookup_amodify_ne _ _ _ _ hy, alookup_amodify_ne _ _ _ _ hx]

theorem foldl_add_edge_get?_untouched (a : NodeID) :
    ∀ (L : List (NodeID × NodeID × PathSegment)) (nl : NodeList),
      (∀ t ∈ L, t.1 ≠ a ∧ t.2.1 ≠ a) →
      (L.foldl (fun nl t => nl.add_edge t.1 t.2.1 t.2.2) nl).get? a = nl.get? a := by
  intro L
  induction L with
  | nil => intro nl _; rfl
  | cons t rest ih =>
    intro nl h
    simp only [List.foldl_cons]
    rw [ih _ (fun u hu => h u (List.mem_cons_of_mem _ hu))]
    exact get?_add_edge_of_ne nl t.1 t.2.1 t.2.2 a (h t (List.mem_cons_self _ _)).1
      (h t (List.mem_cons_self _ _)).2

theorem createNodes_char (cost : CostFn) :
    ∀ (cands : List Point) (nl : NodeList) (ids0 : List NodeID),
      (∀ e ∈ nl.arr, e.1 < nl.next) →
      (createNodes cost cands (nl, ids0)).1.next = nl.next + cands.length ∧
      (createNodes cost cands (nl, ids0)).2 = ids0 ++ List.range' nl.next cands.length ∧
      (createNodes cost cands (nl, ids0)).1.arr.map Prod.fst =
        nl.arr.map Prod.fst ++ List.range' nl.next cands.length ∧
      (createNodes cost cands (nl, ids0)).1.arr.map (fun e => e.2.pos) =
        nl.arr.map (fun e => e.2.pos) ++ cands ∧
      (∀ e ∈ (createNodes cost cands (nl, ids0)).1.arr,
        e.1 < (createNodes cost cands (nl, ids0)).1.next) ∧
      (∀ a, a < nl.next → (createNodes cost cands (nl, ids0)).1.get? a = nl.get? a) ∧
      (∀ id ∈ List.range' nl.next cands.length,
        ∃ p ∈ cands, (createNodes cost cands (nl, ids0)).1.get? id =
          some ⟨p, Int.toNat (cost p), []⟩) := by
  intro cands
  induction cands with
  | nil =>
    intro nl ids0 hfresh
    refine ⟨rfl, by simp [createNodes], by simp [createNodes], by simp [createNodes],
      ?_, fun a _ => rfl, by simp [List.range']⟩
    intro e he
    exact hfresh e he
  | cons p rest ih =>
    intro nl ids0 hfresh
    have hstep : createNodes cost (p :: rest) (nl, ids0) =
        createNodes cost rest ((nl.add_node p (Int.toNat (cost p))).1,
          ids0 ++ [nl.next]) := by
      unfold createNodes
      simp only [List.foldl_cons]
      rfl
    have hfresh' : ∀ e ∈ (nl.add_node p (Int.toNat (cost p))).1.arr,
        e.1 < (nl.add_node p (Int.toNat (cost p))).1.next := by
      intro e he
      unfold NodeList.add_node at he ⊢
      simp only at he ⊢
      rcases List.mem_append.mp he with he | he
      · exact Nat.lt_succ_of_lt (hfresh e he)
      · simp only [List.mem_singleton] at he
        rw [he]
        exact Nat.lt_succ_self _
    obtain ⟨g1, g2, g3, g4, g5, g6, g7⟩ := ih (nl.add_node p (Int.toNat (cost p))).1
      (ids0 ++ [nl.next]) hfresh'
    have hr : List.range' nl.next (p :: rest).length =
        nl.next :: List.range' (nl.next + 1) rest.length := by
      simp [List.range']
    refine ⟨?_, ?_, ?_, ?_, ?_, ?_, ?_⟩
    · rw [hstep, g1, add_node_next]
      simp only [List.length_cons]
      rw [Nat.add_assoc, Nat.add_comm 1 rest.length]
    · rw [hstep, g2, add_node_next, hr]
      simp
    · rw [hstep, g3, add_node_next, add_node_map_fst, hr]
      simp
    · rw [hstep, g4, add_node_map_pos]
      simp
    · rw [hstep]
      exact g5
    · intro a ha
      rw [hstep, g6 a (by rw [add_node_next]; exact Nat.lt_succ_of_lt ha)]
      rw [add_node_get?]
      cases hl : nl.get? a with
      | some v => rfl
      | none =>
        have hne : ¬ nl.next = a := fun h => Nat.lt_irrefl a (h ▸ ha)
        simp [hne]
    · intro id hid
      rw [hr] at hid
      rcases List.mem_cons.mp hid with hid | hid
      · refine ⟨p, List.mem_cons_self _ _, ?_⟩
        rw [hid]
        rw [hstep, g6 nl.next (by rw [add_node_next]; exact Nat.lt_succ_self _)]
        rw [add_node_get?]
        cases hl : nl.get? nl.next with
        | some v =>
          exact absurd (hfresh (nl.next, v) (alookup_some_mem _ _ _ hl)) (Nat.lt_irrefl _)
        | none => simp
      · obtain ⟨q, hq, hget⟩ := g7 id (by
          rw [add_node_next]
          simpa using hid)
        exact ⟨q, List.mem_cons_of_mem _ hq, by rw [hstep]; exact hget⟩

theorem sideTiles_inChunk (ch : Chunk) (d : Dir) (p : Point)
    (hw : 1 ≤ ch.size_w) (hh : 1 ≤ ch.size_h) (h : p ∈ ch.sideTiles d) :
    ch.inChunk p = true := by
  unfold Chunk.sideTiles at h
  unfold Chunk.inChunk
  cases d <;> simp only [List.mem_map, List.mem_range] at h <;>
    obtain ⟨i, hi, rfl⟩ := h <;>
    simp only [Bool.and_eq_true, decide_eq_true_eq] <;> omega

theorem splitRunsAux_mem (cost : CostFn) :
    ∀ (tiles cur : List Point) (run : List Point) (p : Point),
      run ∈ splitRunsAux cost tiles cur → p ∈ run → p ∈ tiles ∨ p ∈ cur := by
  intro tiles
  induction tiles with
  | nil =>
    intro cur run p hrun hp
    unfold splitRunsAux at hrun
    by_cases hc : cur.isEmpty
    · rw [if_pos hc] at hrun
      cases hrun
    · rw [if_neg hc] at hrun
      simp only [List.mem_singleton] at hrun
      subst hrun
      exact Or.inr (by simpa using hp)
  | cons t rest ih =>
    intro cur run p hrun hp
    unfold splitRunsAux at hrun
    by_cases hc : 0 ≤ cost t
    · rw [if_pos hc] at hrun
      rcases ih (t :: cur) run p hrun hp with h | h
      · exact Or.inl (List.mem_cons_of_mem _ h)
      · rcases List.mem_cons.mp h with h | h
        · exact Or.inl (by rw [h]; exact List.mem_cons_self _ _)
        · exact Or.inr h
    · rw [if_neg hc] at hrun
      by_cases he : cur.isEmpty
      · rw [if_pos he] at hrun
        rcases ih [] run p hrun hp with h | h
        · exact Or.inl (List.mem_cons_of_mem _ h)
        · cases h
      · rw [if_neg he] at hrun
        rcases List.mem_cons.mp hrun with h | h
        · subst h
          exact Or.inr (by simpa using hp)
        · rcases ih [] run p h hp with h2 | h2
          · exact Or.inl (List.mem_cons_of_mem _ h2)
          · cases h2

theorem splitRuns_mem (cost : CostFn) (tiles : List Point) (run : List Point) (p : Point)
    (hrun : run ∈ splitRuns cost tiles) (hp : p ∈ run) : p ∈ tiles := by
  rcases splitRunsAux_mem cost tiles [] run p hrun hp with h | h
  · exact h
  · cases h

theorem placeRun_mem (t : Nat) (run : List Point) (p : Point) (h : p ∈ placeRun t run) :
    p ∈ run := by
  unfold placeRun at h
  simp only [List.mem_filterMap] at h
  obtain ⟨i, _, hget⟩ := h
  exact List.get?_mem hget

theorem calculate_side_nodes_mem (ch : Chunk) (d : Dir) (cost : CostFn)
    (cfg : PathCacheConfig) (p : Point) (h : p ∈ ch.calculate_side_nodes d cost cfg) :
    p ∈ ch.sideTiles d := by
  unfold Chunk.calculate_side_nodes at h
  by_cases hs : ch.sides.getD d.num false = true
  · rw [if_pos hs] at h
    simp only [List.mem_flatMap] at h
    obtain ⟨run, hrun, hp⟩ := h
    exact splitRuns_mem cost _ run p hrun (placeRun_mem _ run p hp)
  · rw [if_neg hs] at h
    cases h

theorem insertPointSet_mem (p : Point) (s : List Point) (x : Point) :
    x ∈ insertPointSet p s ↔ x ∈ s ∨ x = p := by
  unfold insertPointSet
  by_cases h : p ∈ s
  · rw [if_pos h]
    constructor
    · exact Or.inl
    · rintro (hx | hx)
      · exact hx
      · rw [hx]; exact h
  · rw [if_neg h]
    simp

theorem insertPointSet_nodup (p : Point) (s : List Point) (h : s.Nodup) :
    (insertPointSet p s).Nodup := by
  unfold insertPointSet
  by_cases hm : p ∈ s
  · rw [if_pos hm]; exact h
  · rw [if_neg hm]
    refine List.Nodup.append h (List.nodup_singleton p) ?_
    intro a ha hp2
    simp only [List.mem_singleton] at hp2
    subst hp2
    exact hm ha

theorem foldl_insertPointSet_mem :
    ∀ (l : List Point) (acc : List Point) (x : Point),
      x ∈ l.foldl (fun a p => insertPointSet p a) acc → x ∈ acc ∨ x ∈ l := by
  intro l
  induction l with
  | nil => intro acc x h; exact Or.inl h
  | cons p rest ih =>
    intro acc x h
    simp only [List.foldl_cons] at h
    rcases ih _ x h with h2 | h2
    · rcases (insertPointSet_mem p acc x).mp h2 with h3 | h3
      · exact Or.inl h3
      · exact Or.inr (by rw [h3]; exact List.mem_cons_self _ _)
    · exact Or.inr (List.mem_cons_of_mem _ h2)

theorem foldl_insertPointSet_nodup :
    ∀ (l : List Point) (acc : List Point), acc.Nodup →
      (l.foldl (fun a p => insertPointSet p a) acc).Nodup := by
  intro l
  induction l with
  | nil => intro acc h; exact h
  | cons p rest ih =>
    intro acc h
    simp only [List.foldl_cons]
    exact ih _ (insertPointSet_nodup p acc h)

theorem candidateNodes_mem (ch : Chunk) (cost : CostFn) (cfg : PathCacheConfig) (p : Point)
    (h : p ∈ ch.candidateNodes cost cfg) :
    ∃ d, p ∈ ch.calculate_side_nodes d cost cfg := by
  unfold Chunk.candidateNodes at h
  have aux : ∀ (ds : List Dir) (acc : List Point),
      p ∈ ds.foldl (fun acc d => (ch.calculate_side_nodes d cost cfg).foldl
        (fun a q => insertPointSet q a) acc) acc →
      p ∈ acc ∨ ∃ d ∈ ds, p ∈ ch.calculate_side_nodes d cost cfg := by
    intro ds
    induction ds with
    | nil => intro acc h2; exact Or.inl h2
    | cons d rest ih =>
      intro acc h2
      simp only [List.foldl_cons] at h2
      rcases ih _ h2 with h3 | ⟨d', hd', hp'⟩
      · rcases foldl_insertPointSet_mem _ acc p h3 with h4 | h4
        · exact Or.inl h4
        · exact Or.inr ⟨d, List.mem_cons_self _ _, h4⟩
      · exact Or.inr ⟨d', List.mem_cons_of_mem _ hd', hp'⟩
  rcases aux Dir.all [] h with h2 | ⟨d, _, hp⟩
  · cases h2
  · exact ⟨d, hp⟩

theorem candidateNodes_inChunk (ch : Chunk) (cost : CostFn) (cfg : PathCacheConfig)
    (hw : 1 ≤ ch.size_w) (hh : 1 ≤ ch.size_h) (p : Point)
    (h : p ∈ ch.candidateNodes cost cfg) : ch.inChunk p = true := by
  obtain ⟨d, hp⟩ := candidateNodes_mem ch cost cfg p h
  exact sideTiles_inChunk ch d p hw hh (calculate_side_nodes_mem ch d cost cfg p hp)

theorem candidateNodes_nodup (ch : Chunk) (cost : CostFn) (cfg : PathCacheConfig) :
    (ch.candidateNodes cost cfg).Nodup := by
  unfold Chunk.candidateNodes
  have aux : ∀ (ds : List Dir) (acc : List Point), acc.Nodup →
      (ds.foldl (fun acc d => (ch.calculate_side_nodes d cost cfg).foldl
        (fun a q => insertPointSet q a) acc) acc).Nodup := by
    intro ds
    induction ds with
    | nil => intro acc h; exact h
    | cons d rest ih =>
      intro acc h
      simp only [List.foldl_cons]
      exact ih _ (foldl_insertPointSet_nodup _ acc h)
  exact aux Dir.all [] (by simp)

theorem createNodes_get?_char (cost : CostFn) (cands : List Point) (nl : NodeList)
    (ids0 : List NodeID) (hfresh : ∀ e ∈ nl.arr, e.1 < nl.next) :
    ∀ a na, (createNodes cost cands (nl, ids0)).1.get? a = some na →
      nl.get? a = some na ∨
      (a ∈ List.range' nl.next cands.length ∧ na.edges = [] ∧ na.pos ∈ cands) := by
  obtain ⟨g1, g2, g3, g4, g5, g6, g7⟩ := createNodes_char cost cands nl ids0 hfresh
  intro a na hna
  have hmem : a ∈ (createNodes cost cands (nl, ids0)).1.arr.map Prod.fst :=
    List.mem_map_of_mem Prod.fst (alookup_some_mem _ _ _ hna)
  rw [g3] at hmem
  rcases List.mem_append.mp hmem with hm | hm
  · obtain ⟨v, hv⟩ := mem_keys_exists _ _ hm
    have ha : a < nl.next := hfresh (a, v) hv
    left
    rw [← g6 a ha]
    exact hna
  · obtain ⟨p, hp, hget⟩ := g7 a hm
    rw [hna] at hget
    cases hget
    exact Or.inr ⟨hm, rfl, hp⟩

theorem live_createNodes (cost : CostFn) (cands : List Point) (nl : NodeList)
    (ids0 : List NodeID) (hfresh : ∀ e ∈ nl.arr, e.1 < nl.next)
    (hlive : ∀ a na b s, nl.get? a = some na → alookup b na.edges = some s →
      ((nl.get? b).isSome) = true) :
    ∀ a na b s, (createNodes cost cands (nl, ids0)).1.get? a = some na →
      alookup b na.edges = some s →
      (((createNodes cost cands (nl, ids0)).1.get? b).isSome) = true := by
  obtain ⟨g1, g2, g3, g4, g5, g6, g7⟩ := createNodes_char cost cands nl ids0 hfresh
  intro a na b s hna hlk
  rcases createNodes_get?_char cost cands nl ids0 hfresh a na hna with hold | ⟨_, hedges, _⟩
  · have hb := hlive a na b s hold hlk
    obtain ⟨nb, hnb⟩ := Option.isSome_iff_exists.mp hb
    have hbf : b < nl.next := hfresh (b, nb) (alookup_some_mem _ _ _ hnb)
    rw [g6 b hbf, hnb]
    rfl
  · rw [hedges] at hlk
    simp [alookup] at hlk

theorem Bidir_createNodes (cost : CostFn) (cands : List Point) (nl : NodeList)
    (ids0 : List NodeID) (hfresh : ∀ e ∈ nl.arr, e.1 < nl.next)
    (hlive : ∀ a na b s, nl.get? a = some na → alookup b na.edges = some s →
      ((nl.get? b).isSome) = true)
    (hB : Bidir nl) : Bidir (createNodes cost cands (nl, ids0)).1 := by
  obtain ⟨g1, g2, g3, g4, g5, g6, g7⟩ := createNodes_char cost cands nl ids0 hfresh
  intro p q s hs
  obtain ⟨np, hnp, hlk⟩ := (edgeSeg_some_iff _ p q s).mp hs
  rcases createNodes_get?_char cost cands nl ids0 hfresh p np hnp with hold | ⟨_, hedges, _⟩
  · have holdedge : nl.edgeSeg p q = some s := by
      rw [edgeSeg_some_iff]
      exact ⟨np, hold, hlk⟩
    obtain ⟨s', hs', hc⟩ := hB p q s holdedge
    obtain ⟨nq, hnq, hlk'⟩ := (edgeSeg_some_iff _ q p s').mp hs'
    refine ⟨s', ?_, hc⟩
    rw [edgeSeg_some_iff]
    refine ⟨nq, ?_, hlk'⟩
    have hqf : q < nl.next := hfresh (q, nq) (alookup_some_mem _ _ _ hnq)
    rw [g6 q hqf]
    exact hnq
  · rw [hedges] at hlk
    simp [alookup] at hlk

theorem Chunk_new_eq (origin : Point) (w h : Nat) (gridSize : Point) (cost : CostFn)
    (nl : NodeList) (cfg : PathCacheConfig) :
    Chunk.new origin w h gridSize cost nl cfg =
      (baseChunk origin w h gridSize).add_nodes
        (createNodes cost ((baseChunk origin w h gridSize).candidateNodes cost cfg)
          (nl, [])).2 cost
        (createNodes cost ((baseChunk origin w h gridSize).candidateNodes cost cfg)
          (nl, [])).1 cfg := rfl

theorem Chunk_new_char (origin : Point) (w h : Nat) (gridSize : Point) (cost : CostFn)
    (nl : NodeList) (cfg : PathCacheConfig) (cands : List Point)
    (hcands : cands = (baseChunk origin w h gridSize).candidateNodes cost cfg)
    (hfresh : ∀ e ∈ nl.arr, e.1 < nl.next)
    (hlive : ∀ a na b s, nl.get? a = some na → alookup b na.edges = some s →
      ((nl.get? b).isSome) = true)
    (hB : Bidir nl) :
    (Chunk.new origin w h gridSize cost nl cfg).1.pos = origin ∧
    (Chunk.new origin w h gridSize cost nl cfg).1.size_w = w ∧
    (Chunk.new origin w h gridSize cost nl cfg).1.size_h = h ∧
    (∀ x, x ∈ (Chunk.new origin w h gridSize cost nl cfg).1.nodes ↔
      x ∈ List.range' nl.next cands.length) ∧
    (Chunk.new origin w h gridSize cost nl cfg).2.next = nl.next + cands.length ∧
    (Chunk.new origin w h gridSize cost nl cfg).2.arr.map Prod.fst =
      nl.arr.map Prod.fst ++ List.range' nl.next cands.length ∧
    (Chunk.new origin w h gridSize cost nl cfg).2.arr.map (fun e => e.2.pos) =
      nl.arr.map (fun e => e.2.pos) ++ cands ∧
    (∀ a, a < nl.next →
      (Chunk.new origin w h gridSize cost nl cfg).2.get? a = nl.get? a) ∧
    (∀ id ∈ List.range' nl.next cands.length,
      ∃ n, (Chunk.new origin w h gridSize cost nl cfg).2.get? id = some n ∧
        n.pos ∈ cands ∧
        ∀ b, ((alookup b n.edges).isSome) = true → b ∈ List.range' nl.next cands.length) ∧
    Bidir (Chunk.new origin w h gridSize cost nl cfg).2 ∧
    (∀ a na b s, (Chunk.new origin w h gridSize cost nl cfg).2.get? a = some na →
      alookup b na.edges = some s →
      (((Chunk.new origin w h gridSize cost nl cfg).2.get? b).isSome) = true) := by
  obtain ⟨cc1, cc2, cc3, cc4, cc5, cc6, cc7⟩ :=
    createNodes_char cost ((baseChunk origin w h gridSize).candidateNodes cost cfg) nl []
      hfresh
  rw [← hcands] at cc1 cc2 cc3 cc4 cc5 cc6 cc7
  simp only [List.nil_append] at cc2
  obtain ⟨L, hL, hLp, hq1, hq2, hq3, hq4, hq5⟩ :=
    add_nodes_triples (baseChunk origin w h gridSize) cost
      (createNodes cost cands (nl, [])).1 cfg
      (createNodes cost cands (nl, [])).2 (baseChunk origin w h gridSize)
      (createNodes cost cands (nl, [])).1 rfl rfl rfl rfl (fun a => rfl)
  have hnew : Chunk.new origin w h gridSize cost nl cfg =
      (baseChunk origin w h gridSize).add_nodes
        (createNodes cost cands (nl, [])).2 cost
        (createNodes cost cands (nl, [])).1 cfg := by
    rw [Chunk_new_eq, hcands]
  have hLmem : ∀ t ∈ L, t.1 ∈ List.range' nl.next cands.length ∧
      t.2.1 ∈ List.range' nl.next cands.length := by
    intro t ht
    obtain ⟨g1, g2, _, _, _⟩ := hLp t ht
    refine ⟨by rw [← cc2]; exact g1, ?_⟩
    rcases g2 with g2 | g2
    · cases g2
    · rw [← cc2]; exact g2
  have hLlive : ∀ t ∈ L,
      (((createNodes cost cands (nl, [])).1.get? t.1).isSome) = true ∧
      (((createNodes cost cands (nl, [])).1.get? t.2.1).isSome) = true ∧ t.1 ≠ t.2.1 := by
    intro t ht
    obtain ⟨_, _, g3, g4, g5⟩ := hLp t ht
    exact ⟨g3, g4, g5⟩
  have hnodes2 : (Chunk.new origin w h gridSize cost nl cfg).2 =
      L.foldl (fun nl t => nl.add_edge t.1 t.2.1 t.2.2)
        (createNodes cost cands (nl, [])).1 := by
    rw [hnew]
    exact hL
  refine ⟨by rw [hnew]; exact hq1, by rw [hnew]; exact hq2, by rw [hnew]; exact hq3,
    ?_, ?_, ?_, ?_, ?_, ?_, ?_, ?_⟩
  · intro x
    rw [hnew]
    rw [hq5 x, ← cc2]
    unfold baseChunk
    simp
  · rw [hnodes2, foldl_add_edge_next, cc1]
  · rw [hnodes2, foldl_add_edge_map_fst, cc3]
  · rw [hnodes2, foldl_add_edge_map_pos, cc4]
  · intro a ha
    rw [hnodes2]
    rw [foldl_add_edge_get?_untouched a L _ ?_]
    · exact cc6 a ha
    · intro t ht
      obtain ⟨h1, h2⟩ := hLmem t ht
      constructor
      · intro hc
        rw [hc] at h1
        have := (List.mem_range'_1.mp h1).1
        exact absurd (lt_of_le_of_lt this ha) (Nat.lt_irrefl _)
      · intro hc
        rw [hc] at h2
        have := (List.mem_range'_1.mp h2).1
        exact absurd (lt_of_le_of_lt this ha) (Nat.lt_irrefl _)
  · intro id hid
    obtain ⟨p, hp, hget⟩ := cc7 id hid
    have hsome : (((Chunk.new origin w h gridSize cost nl cfg).2.get? id).isSome) = true := by
      rw [hnodes2, foldl_add_edge_isSome, hget]
      rfl
    obtain ⟨n1, hn1⟩ := Option.isSome_iff_exists.mp hsome
    have hchar := foldl_add_edge_node_char L (createNodes cost cands (nl, [])).1 id n1
      (by rw [← hnodes2]; exact hn1)
    obtain ⟨n0, hn0, hpos, _, hechar⟩ := hchar
    rw [hget] at hn0
    cases hn0
    refine ⟨n1, hn1, by rw [hpos]; exact hp, ?_⟩
    intro b hb
    rcases hechar b hb with hb2 | ⟨t, ht, htt⟩
    · simp [alookup] at hb2
    · obtain ⟨h1, h2⟩ := hLmem t ht
      rcases htt with ⟨e1, e2⟩ | ⟨e1, e2⟩
      · rw [← e2]; exact h2
      · rw [← e1]; exact h1
  · rw [hnodes2]
    exact Bidir_foldl_add_edge L _ hLlive
      (Bidir_createNodes cost cands nl [] hfresh hlive hB)
  · intro a na b s hna hlk
    rw [hnodes2] at hna ⊢
    obtain ⟨n0, hn0, _, _, hechar⟩ := foldl_add_edge_node_char L _ a na hna
    rw [foldl_add_edge_isSome]
    rcases hechar b (by rw [hlk]; rfl) with hb2 | ⟨t, ht, htt⟩
    · obtain ⟨s0, hs0⟩ := Option.isSome_iff_exists.mp hb2
      exact live_createNodes cost cands nl [] hfresh hlive a n0 b s0 hn0 hs0
    · obtain ⟨g1, g2, g3, g4, _⟩ := hLp t ht
      rcases htt with ⟨e1, e2⟩ | ⟨e1, e2⟩
      · rw [← e2]; exact g4
      · rw [← e1]; exact g3

theorem alookup_of_mem_nodup {κ α : Type} [DecidableEq κ] :
    ∀ (l : List (κ × α)), (l.map Prod.fst).Nodup → ∀ e ∈ l, alookup e.1 l = some e.2 := by
  intro l
  induction l with
  | nil => intro _ e he; cases he
  | cons x xs ih =>
    intro hnd e he
    simp only [List.map_cons, List.nodup_cons] at hnd
    rcases List.mem_cons.mp he with he1 | he1
    · subst he1
      simp [alookup]
    · obtain ⟨x1, x2⟩ := x
      simp only [alookup]
      by_cases hx : x1 = e.1
      · exfalso
        apply hnd.1
        rw [hx]
        exact List.mem_map.mpr ⟨e, he1, rfl⟩
      · rw [if_neg hx]
        exact ih hnd.2 e he1

theorem get?_some_lt {α : Type} :
    ∀ (l : List α) (n : Nat) (a : α), l.get? n = some a → n < l.length := by
  intro l
  induction l with
  | nil => intro n a h; cases n <;> cases h
  | cons x xs ih =>
    intro n a h
    cases n with
    | zero => simp
    | succ m =>
      simp only [List.get?] at h
      simpa using Nat.succ_lt_succ (ih m a h)

theorem get?_append_single {α : Type} :
    ∀ (l : List α) (c : α) (i : Nat),
      (l ++ [c]).get? i =
        if i < l.length then l.get? i else if i = l.length then some c else none := by
  intro l
  induction l with
  | nil =>
    intro c i
    cases i with
    | zero => rfl
    | succ m => simp [List.get?]
  | cons x xs ih =>
    intro c i
    cases i with
    | zero => simp
    | succ m =>
      have hred : ((x :: xs) ++ [c]).get? (m + 1) = (xs ++ [c]).get? m := rfl
      rw [hred, ih c m]
      simp only [List.length_cons]
      by_cases h1 : m < xs.length
      · rw [if_pos h1, if_pos (show m + 1 < xs.length + 1 by omega)]
        rfl
      · rw [if_neg h1, if_neg (show ¬ m + 1 < xs.length + 1 by omega)]
        by_cases h2 : m = xs.length
        · rw [if_pos h2, if_pos (show m + 1 = xs.length + 1 by omega)]
        · rw [if_neg h2, if_neg (show ¬ m + 1 = xs.length + 1 by omega)]

theorem RawInv_nil (cs ncw width height : Nat) :
    RawInv cs ncw width height [] NodeList.empty := by
  refine ⟨by simp [NodeList.empty], by simp [NodeList.empty], ?_, ?_, ?_, ?_, ?_, ?_, ?_, ?_⟩
  · intro e he
    simp [NodeList.empty] at he
  · intro p q s hs
    simp [NodeList.edgeSeg, NodeList.get?, NodeList.empty, alookup] at hs
  · intro a na b s h
    simp [NodeList.get?, NodeList.empty, alookup] at h
  · intro a na h
    simp [NodeList.get?, NodeList.empty, alookup] at h
  · intro a na b s h
    simp [NodeList.get?, NodeList.empty, alookup] at h
  · intro a na h
    simp [NodeList.get?, NodeList.empty, alookup] at h
  · intro i ch h
    cases i <;> cases h
  · intro i ch h
    cases i <;> cases h

theorem range'_nodup : ∀ (n s : Nat), (List.range' s n).Nodup := by
  intro n
  induction n with
  | zero => intro s; simp [List.range']
  | succ m ih =>
    intro s
    simp only [List.range']
    refine List.Nodup.cons ?_ (ih (s + 1))
    intro hc
    have := (List.mem_range'_1.mp hc).1
    omega

theorem RawInv_step (cs ncw width height : Nat) (chs : List Chunk) (nl : NodeList)
    (cost : CostFn) (cfg : PathCacheConfig)
    (x y ww hh : Nat)
    (hlen : chs.length = y * ncw + x)
    (hww : 1 ≤ ww) (hwc : ww ≤ cs) (hbw : x * cs + ww ≤ width)
    (hhh : 1 ≤ hh) (hhc : hh ≤ cs) (hbh : y * cs + hh ≤ height)
    (hinv : RawInv cs ncw width height chs nl) :
    RawInv cs ncw width height
      (chs ++ [(Chunk.new (x * cs, y * cs) ww hh (width, height) cost nl cfg).1])
      (Chunk.new (x * cs, y * cs) ww hh (width, height) cost nl cfg).2 := by
  obtain ⟨c1, c2, c3, c4, c5, c6, c7, c8, c9, c10, c11⟩ :=
    Chunk_new_char (x * cs, y * cs) ww hh (width, height) cost nl cfg
      ((baseChunk (x * cs, y * cs) ww hh (width, height)).candidateNodes cost cfg) rfl
      hinv.fresh hinv.live hinv.bidir
  have hcs1 : 1 ≤ cs := le_trans hww hwc
  have hrect : ∀ p : Point, x * cs ≤ p.1 → p.1 < x * cs + ww → y * cs ≤ p.2 →
      p.2 < y * cs + hh → p.1 / cs = x ∧ p.2 / cs = y := by
    intro p h1 h2 h3 h4
    constructor
    · refine Nat.div_eq_of_lt_le h1 ?_
      rw [Nat.succ_mul]
      omega
    · refine Nat.div_eq_of_lt_le h3 ?_
      rw [Nat.succ_mul]
      omega
  have hcands_rect : ∀ p ∈ (baseChunk (x * cs, y * cs) ww hh
      (width, height)).candidateNodes cost cfg,
      x * cs ≤ p.1 ∧ p.1 < x * cs + ww ∧ y * cs ≤ p.2 ∧ p.2 < y * cs + hh := by
    intro p hp
    have hin := candidateNodes_inChunk (baseChunk (x * cs, y * cs) ww hh (width, height))
      cost cfg hww hhh p hp
    unfold Chunk.inChunk baseChunk at hin
    simp only [Bool.and_eq_true, decide_eq_true_eq] at hin
    omega
  have hcands_idx : ∀ p ∈ (baseChunk (x * cs, y * cs) ww hh
      (width, height)).candidateNodes cost cfg,
      (p.2 / cs) * ncw + p.1 / cs = y * ncw + x := by
    intro p hp
    obtain ⟨h1, h2, h3, h4⟩ := hcands_rect p hp
    obtain ⟨e1, e2⟩ := hrect p h1 h2 h3 h4
    rw [e1, e2]
  have hchar : ∀ a na,
      (Chunk.new (x * cs, y * cs) ww hh (width, height) cost nl cfg).2.get? a = some na →
      (a < nl.next ∧ nl.get? a = some na) ∨
      (a ∈ List.range' nl.next ((baseChunk (x * cs, y * cs) ww hh
          (width, height)).candidateNodes cost cfg).length ∧
        na.pos ∈ (baseChunk (x * cs, y * cs) ww hh (width, height)).candidateNodes cost cfg ∧
        ∀ b, ((alookup b na.edges).isSome) = true →
          b ∈ List.range' nl.next ((baseChunk (x * cs, y * cs) ww hh
            (width, height)).candidateNodes cost cfg).length) := by
    intro a na hna
    have hm : a ∈ (Chunk.new (x * cs, y * cs) ww hh
        (width, height) cost nl cfg).2.arr.map Prod.fst :=
      List.mem_map_of_mem Prod.fst (alookup_some_mem _ _ _ hna)
    rw [c6] at hm
    rcases List.mem_append.mp hm with hm | hm
    · obtain ⟨v, hv⟩ := mem_keys_exists _ _ hm
      have ha : a < nl.next := hinv.fresh (a, v) hv
      left
      refine ⟨ha, ?_⟩
      rw [← c8 a ha]
      exact hna
    · obtain ⟨n, hget, hpos, hedges⟩ := c9 a hm
      rw [hna] at hget
      cases hget
      exact Or.inr ⟨hm, hpos, hedges⟩
  refine ⟨?_, ?_, ?_, c10, c11, ?_, ?_, ?_, ?_, ?_⟩
  · rw [c6]
    refine List.Nodup.append hinv.keys (range'_nodup _ _) ?_
    intro k hk hk2
    obtain ⟨v, hv⟩ := mem_keys_exists _ _ hk
    have h1 := hinv.fresh (k, v) hv
    have h2 := (List.mem_range'_1.mp hk2).1
    exact absurd (lt_of_le_of_lt h2 h1) (Nat.lt_irrefl _)
  · rw [c7]
    refine List.Nodup.append hinv.posn (candidateNodes_nodup _ cost cfg) ?_
    · intro p hp hp2
      obtain ⟨e, he, hep⟩ := List.mem_map.mp hp
      have hget : nl.get? e.1 = some e.2 := alookup_of_mem_nodup nl.arr hinv.keys e he
      obtain ⟨ch, hch, _⟩ := hinv.reg e.1 e.2 hget
      have hlt := get?_some_lt chs _ ch hch
      rw [hep] at hch hlt
      rw [hcands_idx p hp2] at hlt
      omega
  · intro e he
    have hm : e.1 ∈ (Chunk.new (x * cs, y * cs) ww hh
        (width, height) cost nl cfg).2.arr.map Prod.fst :=
      List.mem_map_of_mem Prod.fst he
    rw [c6] at hm
    rw [c5]
    rcases List.mem_append.mp hm with hm | hm
    · obtain ⟨v, hv⟩ := mem_keys_exists _ _ hm
      exact lt_of_lt_of_le (hinv.fresh (e.1, v) hv) (Nat.le_add_right _ _)
    · exact (List.mem_range'_1.mp hm).2
  · intro a na hna
    rcases hchar a na hna with ⟨_, hold⟩ | ⟨_, hpos, _⟩
    · exact hinv.inb a na hold
    · obtain ⟨h1, h2, h3, h4⟩ := hcands_rect na.pos hpos
      omega
  · intro a na b s hna hlk
    rcases hchar a na hna with ⟨_, hold⟩ | ⟨_, hpos, hedges⟩
    · obtain ⟨nb, hnb, d1, d2⟩ := hinv.loc a na b s hold hlk
      have hbl : b < nl.next :=
        hinv.fresh (b, nb) (alookup_some_mem _ _ _ hnb)
      refine ⟨nb, ?_, d1, d2⟩
      rw [c8 b hbl]
      exact hnb
    · have hbm := hedges b (by rw [hlk]; rfl)
      obtain ⟨nb, hbget, hbpos, _⟩ := c9 b hbm
      obtain ⟨a1, a2, a3, a4⟩ := hcands_rect na.pos hpos
      obtain ⟨b1, b2, b3, b4⟩ := hcands_rect nb.pos hbpos
      obtain ⟨ea1, ea2⟩ := hrect na.pos a1 a2 a3 a4
      obtain ⟨eb1, eb2⟩ := hrect nb.pos b1 b2 b3 b4
      exact ⟨nb, hbget, by rw [ea1, eb1], by rw [ea2, eb2]⟩
  · intro a na hna
    rcases hchar a na hna with ⟨ha, hold⟩ | ⟨hm, hpos, _⟩
    · obtain ⟨ch, hch, hmem2⟩ := hinv.reg a na hold
      have hlt := get?_some_lt chs _ ch hch
      refine ⟨ch, ?_, hmem2⟩
      rw [get?_append_single, if_pos hlt]
      exact hch
    · refine ⟨(Chunk.new (x * cs, y * cs) ww hh (width, height) cost nl cfg).1, ?_, ?_⟩
      · rw [get?_append_single, hcands_idx na.pos hpos, if_neg (by omega),
          if_pos hlen.symm]
      · rw [c4]
        exact hm
  · intro i ch hch id hid
    rw [get?_append_single] at hch
    by_cases hi : i < chs.length
    · rw [if_pos hi] at hch
      obtain ⟨n, hn, hidx⟩ := hinv.mem i ch hch id hid
      have hidl : id < nl.next := hinv.fresh (id, n) (alookup_some_mem _ _ _ hn)
      refine ⟨n, ?_, hidx⟩
      rw [c8 id hidl]
      exact hn
    · rw [if_neg hi] at hch
      by_cases hi2 : i = chs.length
      · rw [if_pos hi2] at hch
        cases hch
        rw [c4] at hid
        obtain ⟨n, hget, hpos, _⟩ := c9 id hid
        exact ⟨n, hget, by rw [hcands_idx n.pos hpos, ← hlen, hi2]⟩
      · rw [if_neg hi2] at hch
        cases hch
  · intro i ch hch
    rw [get?_append_single] at hch
    by_cases hi : i < chs.length
    · rw [if_pos hi] at hch
      exact hinv.geo i ch hch
    · rw [if_neg hi] at hch
      by_cases hi2 : i = chs.length
      · rw [if_pos hi2] at hch
        cases hch
        refine ⟨by rw [c2]; exact hww, by rw [c3]; exact hhh, ?_, ?_, ?_⟩
        · rw [c1, c2]
          exact hbw
        · rw [c1, c3]
          exact hbh
        · intro p hp
          unfold Chunk.inChunk at hp
          rw [c1, c2, c3] at hp
          simp only [Bool.and_eq_true, decide_eq_true_eq] at hp
          obtain ⟨e1, e2⟩ := hrect p (by omega) (by omega) (by omega) (by omega)
          rw [e1, e2, ← hlen, hi2]
      · rw [if_neg hi2] at hch
        cases hch

theorem colFold (cs ncw width height : Nat) (cost : CostFn) (cfg : PathCacheConfig)
    (y hh lw : Nat)
    (hhh : 1 ≤ hh) (hhc : hh ≤ cs) (hbh : y * cs + hh ≤ height)
    (hcol : ∀ x, x < ncw →
      1 ≤ (if x = ncw - 1 then lw else cs) ∧ (if x = ncw - 1 then lw else cs) ≤ cs ∧
        x * cs + (if x = ncw - 1 then lw else cs) ≤ width) :
    ∀ (m : Nat), m ≤ ncw → ∀ (chs : List Chunk) (nl : NodeList),
      chs.length = y * ncw → RawInv cs ncw width height chs nl →
      ((List.range m).foldl (colStep cs ncw width height cost cfg y hh lw) (chs, nl)).1.length
          = y * ncw + m ∧
      RawInv cs ncw width height
        ((List.range m).foldl (colStep cs ncw width height cost cfg y hh lw) (chs, nl)).1
        ((List.range m).foldl (colStep cs ncw width height cost cfg y hh lw) (chs, nl)).2 := by
  intro m
  induction m with
  | zero =>
    intro _ chs nl hl hinv
    simp only [List.range_zero, List.foldl_nil]
    exact ⟨by rw [hl]; rfl, hinv⟩
  | succ m ih =>
    intro hm chs nl hl hinv
    have hrange : List.range (m + 1) = List.range m ++ [m] := List.range_succ m
    rw [hrange, List.foldl_append]
    simp only [List.foldl_cons, List.foldl_nil]
    obtain ⟨ihl, ihinv⟩ := ih (le_of_lt hm) chs nl hl hinv
    obtain ⟨g1, g2, g3⟩ := hcol m hm
    have hstep := RawInv_step cs ncw width height
      ((List.range m).foldl (colStep cs ncw width height cost cfg y hh lw) (chs, nl)).1
      ((List.range m).foldl (colStep cs ncw width height cost cfg y hh lw) (chs, nl)).2
      cost cfg m y (if m = ncw - 1 then lw else cs) hh ihl g1 g2 g3 hhh hhc hbh ihinv
    constructor
    · show (_ ++ [_]).length = _
      rw [List.length_append, ihl]
      rfl
    · exact hstep

theorem rowFold (cs ncw width height : Nat) (cost : CostFn) (cfg : PathCacheConfig)
    (nch lh lw : Nat)
    (hrow : ∀ y, y < nch →
      1 ≤ (if y = nch - 1 then lh else cs) ∧ (if y = nch - 1 then lh else cs) ≤ cs ∧
        y * cs + (if y = nch - 1 then lh else cs) ≤ height)
    (hcol : ∀ x, x < ncw →
      1 ≤ (if x = ncw - 1 then lw else cs) ∧ (if x = ncw - 1 then lw else cs) ≤ cs ∧
        x * cs + (if x = ncw - 1 then lw else cs) ≤ width) :
    ∀ (n : Nat), n ≤ nch →
      ((List.range n).foldl (rowStep cs ncw width height cost cfg nch lh lw)
        ([], NodeList.empty)).1.length = n * ncw ∧
      RawInv cs ncw width height
        ((List.range n).foldl (rowStep cs ncw width height cost cfg nch lh lw)
          ([], NodeList.empty)).1
        ((List.range n).foldl (rowStep cs ncw width height cost cfg nch lh lw)
          ([], NodeList.empty)).2 := by
  intro n
  induction n with
  | zero =>
    intro _
    exact ⟨by simp, RawInv_nil cs ncw width height⟩
  | succ n ih =>
    intro hn
    have hrange : List.range (n + 1) = List.range n ++ [n] := List.range_succ n
    rw [hrange, List.foldl_append]
    simp only [List.foldl_cons, List.foldl_nil]
    obtain ⟨ihl, ihinv⟩ := ih (le_of_lt hn)
    obtain ⟨g1, g2, g3⟩ := hrow n hn
    have hcf := colFold cs ncw width height cost cfg n (if n = nch - 1 then lh else cs) lw
      g1 g2 g3 hcol ncw (le_refl _) _ _ ihl ihinv
    rw [Nat.succ_mul]
    exact hcf

theorem dim_facts (width cs : Nat) (hcs : 1 ≤ cs) :
    width ≤ ncwOf width cs * cs ∧
    ∀ x, x < ncwOf width cs →
      1 ≤ (if x = ncwOf width cs - 1 then lwOf width cs else cs) ∧
      (if x = ncwOf width cs - 1 then lwOf width cs else cs) ≤ cs ∧
      x * cs + (if x = ncwOf width cs - 1 then lwOf width cs else cs) ≤ width := by
  have hdm := Nat.div_add_mod width cs
  have hmlt : width % cs < cs := Nat.mod_lt width (by omega)
  have hcomm : width / cs * cs = cs * (width / cs) := Nat.mul_comm _ _
  have hMle : width / cs * cs ≤ width := Nat.div_mul_le_self width cs
  constructor
  · unfold ncwOf
    by_cases hrw : 0 < width - width / cs * cs
    · rw [if_pos hrw, Nat.succ_mul]
      omega
    · rw [if_neg hrw]
      omega
  · intro x hx
    by_cases hxl : x = ncwOf width cs - 1
    · rw [if_pos hxl]
      unfold lwOf
      unfold ncwOf at hxl hx
      by_cases hrw : 0 < width - width / cs * cs
      · rw [if_pos hrw] at hxl hx ⊢
        have hxq : x = width / cs := by omega
        subst hxq
        refine ⟨by omega, by omega, by omega⟩
      · rw [if_neg hrw] at hxl hx ⊢
        have hq1 : 1 ≤ width / cs := by omega
        have hxq : x = width / cs - 1 := by omega
        subst hxq
        have hsub : (width / cs - 1) * cs = width / cs * cs - 1 * cs := by
          rw [Nat.sub_mul]
        rw [Nat.one_mul] at hsub
        have hcsle : cs ≤ width / cs * cs := by
          calc cs = 1 * cs := (Nat.one_mul cs).symm
          _ ≤ width / cs * cs := Nat.mul_le_mul_right cs hq1
        refine ⟨hcs, le_refl cs, by omega⟩
    · rw [if_neg hxl]
      refine ⟨hcs, le_refl cs, ?_⟩
      have hx1 : x + 1 ≤ ncwOf width cs - 1 := by omega
      have hstep : x * cs + cs = (x + 1) * cs := (Nat.succ_mul x cs).symm
      have hmono : (x + 1) * cs ≤ (ncwOf width cs - 1) * cs :=
        Nat.mul_le_mul_right cs hx1
      unfold ncwOf at hmono
      by_cases hrw : 0 < width - width / cs * cs
      · rw [if_pos hrw] at hmono
        simp only [Nat.add_sub_cancel] at hmono
        omega
      · rw [if_neg hrw] at hmono
        have hq1 : 1 ≤ width / cs := by
          unfold ncwOf at hx
          rw [if_neg hrw] at hx
          omega
        have hsub : (width / cs - 1) * cs = width / cs * cs - 1 * cs := by
          rw [Nat.sub_mul]
        rw [Nat.one_mul] at hsub
        rw [hsub] at hmono
        omega

theorem newCacheRaw_eq (size : Point) (cost : CostFn) (cfg : PathCacheConfig) :
    PathCache.newCacheRaw size cost cfg =
      { width := size.1, height := size.2,
        chunks := ((List.range (ncwOf size.2 cfg.chunk_size)).foldl
          (rowStep cfg.chunk_size (ncwOf size.1 cfg.chunk_size) size.1 size.2 cost cfg
            (ncwOf size.2 cfg.chunk_size) (lwOf size.2 cfg.chunk_size)
            (lwOf size.1 cfg.chunk_size)) ([], NodeList.empty)).1,
        num_chunks := (ncwOf size.1 cfg.chunk_size, ncwOf size.2 cfg.chunk_size),
        nodes := ((List.range (ncwOf size.2 cfg.chunk_size)).foldl
          (rowStep cfg.chunk_size (ncwOf size.1 cfg.chunk_size) size.1 size.2 cost cfg
            (ncwOf size.2 cfg.chunk_size) (lwOf size.2 cfg.chunk_size)
            (lwOf size.1 cfg.chunk_size)) ([], NodeList.empty)).2,
        config := cfg } := rfl

theorem RawInv_to_WF (c : PathCache)
    (hinv : RawInv c.config.chunk_size c.num_chunks.1 c.width c.height c.chunks c.nodes)
    (hnum : c.width ≤ c.num_chunks.1 * c.config.chunk_size ∧
      c.height ≤ c.num_chunks.2 * c.config.chunk_size ∧ 1 ≤ c.config.chunk_size) :
    CacheWF c := by
  refine ⟨hinv.bidir, hinv.live, hinv.keys, hinv.posn, hinv.fresh, hinv.inb, ?_, ?_,
    ?_, ?_, hnum⟩
  · intro a na b nb s h hb hlk
    obtain ⟨nb', hnb', d1, d2⟩ := hinv.loc a na b s h hlk
    rw [hb] at hnb'
    cases hnb'
    left
    unfold PathCache.same_chunk
    simp only [Bool.and_eq_true, decide_eq_true_eq]
    exact ⟨d1, d2⟩
  · intro a na h
    obtain ⟨ch, hch, hm⟩ := hinv.reg a na h
    unfold PathCache.get_chunk
    rw [list_getD_eq_get?]
    have hch2 : c.chunks.get? (c.get_chunk_index na.pos) = some ch := hch
    rw [hch2]
    exact hm
  · intro i ch hch id hid
    obtain ⟨n, hn, hidx⟩ := hinv.mem i ch hch id hid
    exact ⟨n, hn, hidx⟩
  · intro i ch hch
    obtain ⟨g1, g2, g3, g4, g5⟩ := hinv.geo i ch hch
    exact ⟨g1, g2, g3, g4, fun p hp => g5 p hp⟩

theorem newCacheRaw_WF (size : Point) (cost : CostFn) (cfg : PathCacheConfig)
    (hcs : 1 ≤ cfg.chunk_size) : CacheWF (PathCache.newCacheRaw size cost cfg) := by
  obtain ⟨hb1, hcol1⟩ := dim_facts size.1 cfg.chunk_size hcs
  obtain ⟨hb2, hrow1⟩ := dim_facts size.2 cfg.chunk_size hcs
  obtain ⟨hlen, hinv⟩ := rowFold cfg.chunk_size (ncwOf size.1 cfg.chunk_size) size.1 size.2
    cost cfg (ncwOf size.2 cfg.chunk_size) (lwOf size.2 cfg.chunk_size)
    (lwOf size.1 cfg.chunk_size) hrow1 hcol1 (ncwOf size.2 cfg.chunk_size) (le_refl _)
  exact RawInv_to_WF (PathCache.newCacheRaw size cost cfg) hinv ⟨hb1, hb2, hcs⟩

theorem connectAll_eq (c : PathCache) : c.connectAll = c.connectPairs c.nodes.arr := rfl

theorem WF_connectPairs_of_WF (c : PathCache) (hwf : CacheWF c)
    (pairs : List (NodeID × Node)) (hpairs : ∀ e ∈ pairs, c.nodes.get? e.1 = some e.2) :
    CacheWF (c.connectPairs pairs) := by
  refine connectPairs_WF c pairs hpairs ?_ hwf.live hwf.keys hwf.posn hwf.fresh hwf.inb
    hwf.loc hwf.reg hwf.mem hwf.geo hwf.num
  intro a na b s hna hlk
  left
  exact hwf.sym a b s ((edgeSeg_some_iff c.nodes a b s).mpr ⟨na, hna, hlk⟩)

theorem newCache_WF (size : Point) (cost : CostFn) (cfg : PathCacheConfig)
    (hcs : 1 ≤ cfg.chunk_size) : CacheWF (PathCache.newCache size cost cfg) := by
  have hraw := newCacheRaw_WF size cost cfg hcs
  have hpairs : ∀ e ∈ (PathCache.newCacheRaw size cost cfg).nodes.arr,
      (PathCache.newCacheRaw size cost cfg).nodes.get? e.1 = some e.2 :=
    alookup_of_mem_nodup _ hraw.keys
  exact WF_connectPairs_of_WF (PathCache.newCacheRaw size cost cfg) hraw _ hpairs

theorem clear_edges_get? (nl : NodeList) (i x : NodeID) :
    (nl.clear_edges i).get? x =
      if i = x then (nl.get? x).map (fun n => { n with edges := [] }) else nl.get? x := by
  unfold NodeList.clear_edges NodeList.get?
  simp only
  by_cases h : i = x
  · rw [if_pos h, ← h, alookup_amodify_self, h]
  · rw [if_neg h, alookup_amodify_ne _ _ _ _ h]

theorem clear_edges_map_fst (nl : NodeList) (i : NodeID) :
    (nl.clear_edges i).arr.map Prod.fst = nl.arr.map Prod.fst := by
  unfold NodeList.clear_edges
  exact amodify_map_fst i _ nl.arr

theorem clear_edges_map_pos (nl : NodeList) (i : NodeID) :
    (nl.clear_edges i).arr.map (fun e => e.2.pos) = nl.arr.map (fun e => e.2.pos) := by
  unfold NodeList.clear_edges
  exact amodify_map_proj i (fun n => { n with edges := [] }) Node.pos (fun v => rfl) nl.arr

theorem clear_edges_next (nl : NodeList) (i : NodeID) :
    (nl.clear_edges i).next = nl.next := rfl

theorem foldl_clear_get? :
    ∀ (I : List NodeID) (nl : NodeList) (x : NodeID),
      (I.foldl NodeList.clear_edges nl).get? x =
        if x ∈ I then (nl.get? x).map (fun n => { n with edges := [] })
        else nl.get? x := by
  intro I
  induction I with
  | nil =>
    intro nl x
    simp
  | cons i I ih =>
    intro nl x
    simp only [List.foldl_cons]
    rw [ih (nl.clear_edges i) x, clear_edges_get? nl i x]
    by_cases hx : x ∈ I
    · rw [if_pos hx, if_pos (List.mem_cons_of_mem _ hx)]
      by_cases hix : i = x
      · rw [if_pos hix]
        cases nl.get? x <;> rfl
      · rw [if_neg hix]
    · rw [if_neg hx]
      by_cases hix : i = x
      · rw [if_pos hix, if_pos (by rw [hix]; exact List.mem_cons_self _ _)]
      · rw [if_neg hix, if_neg (by
          intro hc
          rcases List.mem_cons.mp hc with hc | hc
          · exact hix hc.symm
          · exact hx hc)]

theorem foldl_clear_map_fst :
    ∀ (I : List NodeID) (nl : NodeList),
      (I.foldl NodeList.clear_edges nl).arr.map Prod.fst = nl.arr.map Prod.fst := by
  intro I
  induction I with
  | nil => intro nl; rfl
  | cons i I ih =>
    intro nl
    simp only [List.foldl_cons]
    rw [ih, clear_edges_map_fst]

theorem foldl_clear_map_pos :
    ∀ (I : List NodeID) (nl : NodeList),
      (I.foldl NodeList.clear_edges nl).arr.map (fun e => e.2.pos) =
        nl.arr.map (fun e => e.2.pos) := by
  intro I
  induction I with
  | nil => intro nl; rfl
  | cons i I ih =>
    intro nl
    simp only [List.foldl_cons]
    rw [ih, clear_edges_map_pos]

theorem foldl_clear_next :
    ∀ (I : List NodeID) (nl : NodeList),
      (I.foldl NodeList.clear_edges nl).next = nl.next := by
  intro I
  induction I with
  | nil => intro nl; rfl
  | cons i I ih =>
    intro nl
    simp only [List.foldl_cons]
    rw [ih, clear_edges_next]

theorem clearStep_fields (c : PathCache) (e : Point × List Point) :
    (c.clearStep e).chunks = c.chunks ∧ (c.clearStep e).width = c.width ∧
    (c.clearStep e).height = c.height ∧ (c.clearStep e).config = c.config ∧
    (c.clearStep e).num_chunks = c.num_chunks ∧
    (c.clearStep e).nodes =
      ((c.chunks.getD (c.get_chunk_index e.1) defaultChunk).nodes).foldl
        NodeList.clear_edges c.nodes :=
  ⟨rfl, rfl, rfl, rfl, rfl, rfl⟩

theorem clearFold_nodes :
    ∀ (dirty : List (Point × List Point)) (c : PathCache),
      (dirty.foldl PathCache.clearStep c).nodes =
        (dirty.flatMap (fun e =>
          (c.chunks.getD (c.get_chunk_index e.1) defaultChunk).nodes)).foldl
          NodeList.clear_edges c.nodes ∧
      (dirty.foldl PathCache.clearStep c).chunks = c.chunks ∧
      (dirty.foldl PathCache.clearStep c).width = c.width ∧
      (dirty.foldl PathCache.clearStep c).height = c.height ∧
      (dirty.foldl PathCache.clearStep c).config = c.config ∧
      (dirty.foldl PathCache.clearStep c).num_chunks = c.num_chunks := by
  intro dirty
  induction dirty with
  | nil => intro c; exact ⟨rfl, rfl, rfl, rfl, rfl, rfl⟩
  | cons e rest ih =>
    intro c
    simp only [List.foldl_cons, List.flatMap_cons]
    obtain ⟨h1, h2, h3, h4, h5, h6⟩ := ih (c.clearStep e)
    refine ⟨?_, by rw [h2]; rfl, by rw [h3]; rfl, by rw [h4]; rfl, by rw [h5]; rfl,
      by rw [h6]; rfl⟩
    rw [h1, List.foldl_append]
    have hch : (c.clearStep e).chunks = c.chunks := rfl
    have hcfg : (c.clearStep e).get_chunk_index = c.get_chunk_index := rfl
    rw [hch, hcfg]
    rfl

theorem mem_ainsert_map_fst {κ α : Type} [DecidableEq κ] (k : κ) (v : α) :
    ∀ (l : List (κ × α)) (x : κ),
      x ∈ (ainsert k v l).map Prod.fst → x ∈ l.map Prod.fst ∨ x = k := by
  intro l
  induction l with
  | nil =>
    intro x hx
    simp only [ainsert, List.map_cons, List.map_nil, List.mem_singleton] at hx
    exact Or.inr hx
  | cons e rest ih =>
    intro x hx
    obtain ⟨k', v'⟩ := e
    by_cases h : k' = k
    · simp only [ainsert, if_pos h, List.map_cons, List.mem_cons] at hx
      rcases hx with hx | hx
      · exact Or.inr hx
      · exact Or.inl (by simp only [List.map_cons, List.mem_cons]; exact Or.inr hx)
    · simp only [ainsert, if_neg h, List.map_cons, List.mem_cons] at hx
      rcases hx with hx | hx
      · exact Or.inl (by simp only [List.map_cons, List.mem_cons]; exact Or.inl hx)
      · rcases ih x hx with h2 | h2
        · exact Or.inl (by simp only [List.map_cons, List.mem_cons]; exact Or.inr h2)
        · exact Or.inr h2

theorem ainsert_map_fst_nodup {κ α : Type} [DecidableEq κ] (k : κ) (v : α) :
    ∀ (l : List (κ × α)), (l.map Prod.fst).Nodup → ((ainsert k v l).map Prod.fst).Nodup := by
  intro l
  induction l with
  | nil => intro _; simp [ainsert]
  | cons e rest ih =>
    intro hnd
    obtain ⟨k', v'⟩ := e
    simp only [List.map_cons, List.nodup_cons] at hnd
    by_cases h : k' = k
    · simp only [ainsert, if_pos h, List.map_cons, List.nodup_cons]
      rw [← h]
      exact hnd
    · simp only [ainsert, if_neg h, List.map_cons, List.nodup_cons]
      refine ⟨?_, ih hnd.2⟩
      intro hc
      rcases mem_ainsert_map_fst k v rest k' hc with h2 | h2
      · exact hnd.1 h2
      · exact h h2

theorem EdgesNodup_add_edge (nl : NodeList) (x y : NodeID) (s : PathSegment)
    (h : EdgesNodup nl) : EdgesNodup (nl.add_edge x y s) := by
  intro a na hna
  unfold NodeList.add_edge NodeList.get? at hna
  simp only at hna
  by_cases hay : y = a
  · subst hay
    rw [alookup_amodify_self] at hna
    by_cases hax : x = y
    · subst hax
      rw [alookup_amodify_self] at hna
      cases hl : alookup x nl.arr with
      | none => rw [hl] at hna; cases hna
      | some n =>
        rw [hl] at hna
        simp only [Option.map_some', Option.some_inj] at hna
        rw [← hna]
        simp only
        exact ainsert_map_fst_nodup _ _ _ (ainsert_map_fst_nodup _ _ _ (h x n hl))
    · rw [alookup_amodify_ne _ _ _ _ hax] at hna
      cases hl : alookup y nl.arr with
      | none => rw [hl] at hna; cases hna
      | some n =>
        rw [hl] at hna
        simp only [Option.map_some', Option.some_inj] at hna
        rw [← hna]
        exact ainsert_map_fst_nodup _ _ _ (h y n hl)
  · rw [alookup_amodify_ne _ _ _ _ hay] at hna
    by_cases hax : x = a
    · subst hax
      rw [alookup_amodify_self] at hna
      cases hl : alookup x nl.arr with
      | none => rw [hl] at hna; cases hna
      | some n =>
        rw [hl] at hna
        simp only [Option.map_some', Option.some_inj] at hna
        rw [← hna]
        exact ainsert_map_fst_nodup _ _ _ (h x n hl)
    · rw [alookup_amodify_ne _ _ _ _ hax] at hna
      exact h a na hna

theorem EdgesNodup_foldl_add_edge :
    ∀ (L : List (NodeID × NodeID × PathSegment)) (nl : NodeList),
      EdgesNodup nl → EdgesNodup (L.foldl (fun nl t => nl.add_edge t.1 t.2.1 t.2.2) nl) := by
  intro L
  induction L with
  | nil => intro nl h; exact h
  | cons t rest ih =>
    intro nl h
    simp only [List.foldl_cons]
    exact ih _ (EdgesNodup_add_edge nl t.1 t.2.1 t.2.2 h)

theorem EdgesNodup_foldl_clear (I : List NodeID) (nl : NodeList)
    (h : EdgesNodup nl) : EdgesNodup (I.foldl NodeList.clear_edges nl) := by
  intro a na hna
  rw [foldl_clear_get? I nl a] at hna
  by_cases hm : a ∈ I
  · rw [if_pos hm] at hna
    cases hl : nl.get? a with
    | none => rw [hl] at hna; cases hna
    | some n =>
      rw [hl] at hna
      simp only [Option.map_some', Option.some_inj] at hna
      rw [← hna]
      simp
  · rw [if_neg hm] at hna
    exact h a na hna

theorem EdgesNodup_createNodes (cost : CostFn) (cands : List Point) (nl : NodeList)
    (ids0 : List NodeID) (hfresh : ∀ e ∈ nl.arr, e.1 < nl.next)
    (h : EdgesNodup nl) : EdgesNodup (createNodes cost cands (nl, ids0)).1 := by
  intro a na hna
  rcases createNodes_get?_char cost cands nl ids0 hfresh a na hna with hold | ⟨_, hed, _⟩
  · exact h a na hold
  · rw [hed]
    simp

theorem EdgesNodup_add_nodes (ch : Chunk) (ids : List NodeID) (cost : CostFn)
    (nl : NodeList) (cfg : PathCacheConfig) (h : EdgesNodup nl) :
    EdgesNodup (ch.add_nodes ids cost nl cfg).2 := by
  obtain ⟨L, hL, _, _, _, _, _, _⟩ :=
    add_nodes_triples ch cost nl cfg ids ch nl rfl rfl rfl rfl (fun a => rfl)
  rw [hL]
  exact EdgesNodup_foldl_add_edge L nl h

theorem EdgesNodup_Chunk_new (origin : Point) (w h : Nat) (gridSize : Point)
    (cost : CostFn) (nl : NodeList) (cfg : PathCacheConfig)
    (hfresh : ∀ e ∈ nl.arr, e.1 < nl.next) (hen : EdgesNodup nl) :
    EdgesNodup (Chunk.new origin w h gridSize cost nl cfg).2 := by
  rw [Chunk_new_eq]
  exact EdgesNodup_add_nodes _ _ cost _ cfg
    (EdgesNodup_createNodes cost _ nl [] hfresh hen)

theorem EdgesNodup_colFold (cs ncw width height : Nat) (cost : CostFn)
    (cfg : PathCacheConfig) (y hh lw : Nat)
    (hhh : 1 ≤ hh) (hhc : hh ≤ cs) (hbh : y * cs + hh ≤ height)
    (hcol : ∀ x, x < ncw →
      1 ≤ (if x = ncw - 1 then lw else cs) ∧ (if x = ncw - 1 then lw else cs) ≤ cs ∧
        x * cs + (if x = ncw - 1 then lw else cs) ≤ width) :
    ∀ (m : Nat), m ≤ ncw → ∀ (chs : List Chunk) (nl : NodeList),
      chs.length = y * ncw → RawInv cs ncw width height chs nl → EdgesNodup nl →
      EdgesNodup
        ((List.range m).foldl (colStep cs ncw width height cost cfg y hh lw) (chs, nl)).2 := by
  intro m
  induction m with
  | zero =>
    intro _ chs nl _ _ hen
    simp only [List.range_zero, List.foldl_nil]
    exact hen
  | succ m ih =>
    intro hm chs nl hl hinv hen
    have hrange : List.range (m + 1) = List.range m ++ [m] := List.range_succ m
    rw [hrange, List.foldl_append]
    simp only [List.foldl_cons, List.foldl_nil]
    obtain ⟨_, ihinv⟩ := colFold cs ncw width height cost cfg y hh lw hhh hhc hbh hcol m
      (le_of_lt hm) chs nl hl hinv
    have ihen := ih (le_of_lt hm) chs nl hl hinv hen
    unfold colStep
    simp only
    exact EdgesNodup_Chunk_new _ _ _ _ cost _ cfg ihinv.fresh ihen

theorem EdgesNodup_rowFold (cs ncw width height : Nat) (cost : CostFn)
    (cfg : PathCacheConfig) (nch lh lw : Nat)
    (hrow : ∀ y, y < nch →
      1 ≤ (if y = nch - 1 then lh else cs) ∧ (if y = nch - 1 then lh else cs) ≤ cs ∧
        y * cs + (if y = nch - 1 then lh else cs) ≤ height)
    (hcol : ∀ x, x < ncw →
      1 ≤ (if x = ncw - 1 then lw else cs) ∧ (if x = ncw - 1 then lw else cs) ≤ cs ∧
        x * cs + (if x = ncw - 1 then lw else cs) ≤ width) :
    ∀ (n : Nat), n ≤ nch →
      EdgesNodup
        ((List.range n).foldl (rowStep cs ncw width height cost cfg nch lh lw)
          ([], NodeList.empty)).2 := by
  intro n
  induction n with
  | zero =>
    intro _
    intro a na hna
    simp [NodeList.get?, NodeList.empty, alookup] at hna
  | succ n ih =>
    intro hn
    have hrange : List.range (n + 1) = List.range n ++ [n] := List.range_succ n
    rw [hrange, List.foldl_append]
    simp only [List.foldl_cons, List.foldl_nil]
    obtain ⟨ihl, ihinv⟩ := rowFold cs ncw width height cost cfg nch lh lw hrow hcol n
      (le_of_lt hn)
    obtain ⟨g1, g2, g3⟩ := hrow n hn
    unfold rowStep
    exact EdgesNodup_colFold cs ncw width height cost cfg n _ lw g1 g2 g3 hcol ncw
      (le_refl _) _ _ ihl ihinv (ih (le_of_lt hn))

theorem EdgesNodup_newCacheRaw (size : Point) (cost : CostFn) (cfg : PathCacheConfig)
    (hcs : 1 ≤ cfg.chunk_size) : EdgesNodup (PathCache.newCacheRaw size cost cfg).nodes := by
  obtain ⟨hb1, hcol1⟩ := dim_facts size.1 cfg.chunk_size hcs
  obtain ⟨hb2, hrow1⟩ := dim_facts size.2 cfg.chunk_size hcs
  exact EdgesNodup_rowFold cfg.chunk_size (ncwOf size.1 cfg.chunk_size) size.1 size.2
    cost cfg (ncwOf size.2 cfg.chunk_size) (lwOf size.2 cfg.chunk_size)
    (lwOf size.1 cfg.chunk_size) hrow1 hcol1 (ncwOf size.2 cfg.chunk_size) (le_refl _)

theorem EdgesNodup_connectPairs (c : PathCache) (pairs : List (NodeID × Node))
    (h : EdgesNodup c.nodes) : EdgesNodup (c.connectPairs pairs).nodes := by
  rw [connectPairs_nodes_eq]
  exact EdgesNodup_foldl_add_edge _ c.nodes h

theorem EdgesNodup_newCache (size : Point) (cost : CostFn) (cfg : PathCacheConfig)
    (hcs : 1 ≤ cfg.chunk_size) : EdgesNodup (PathCache.newCache size cost cfg).nodes :=
  EdgesNodup_connectPairs _ _ (EdgesNodup_newCacheRaw size cost cfg hcs)

theorem aerase_sublist {κ α : Type} [DecidableEq κ] (k : κ) :
    ∀ (l : List (κ × α)), List.Sublist (aerase k l) l := by
  intro l
  induction l with
  | nil => exact List.Sublist.refl _
  | cons e rest ih =>
    obtain ⟨k', v'⟩ := e
    by_cases h : k' = k
    · simp only [aerase, if_pos h]
      exact List.Sublist.cons _ (List.Sublist.refl _)
    · simp only [aerase, if_neg h]
      exact List.Sublist.cons₂ _ ih

theorem eraseAll_sublist {κ α : Type} [DecidableEq κ] :
    ∀ (ks : List κ) (l : List (κ × α)), List.Sublist (eraseAll ks l) l := by
  intro ks
  induction ks with
  | nil => intro l; exact List.Sublist.refl _
  | cons k rest ih =>
    intro l
    exact List.Sublist.trans (ih (aerase k l)) (aerase_sublist k l)

theorem alookup_eraseAll {κ α : Type} [DecidableEq κ] :
    ∀ (ks : List κ) (l : List (κ × α)) (x : κ), (l.map Prod.fst).Nodup →
      alookup x (eraseAll ks l) = if x ∈ ks then none else alookup x l := by
  intro ks
  induction ks with
  | nil =>
    intro l x _
    rw [if_neg (List.not_mem_nil x)]
    rfl
  | cons k rest ih =>
    intro l x hnd
    have hnd' : ((aerase k l).map Prod.fst).Nodup :=
      List.Nodup.sublist (List.Sublist.map Prod.fst (aerase_sublist k l)) hnd
    have hstep : eraseAll (k :: rest) l = eraseAll rest (aerase k l) := rfl
    rw [hstep, ih (aerase k l) x hnd']
    by_cases hx : x ∈ rest
    · rw [if_pos hx, if_pos (List.mem_cons_of_mem _ hx)]
    · rw [if_neg hx]
      by_cases hxk : x = k
      · subst hxk
        rw [alookup_aerase_self l x hnd, if_pos (List.mem_cons_self _ _)]
      · rw [alookup_aerase_ne l k x (fun h => hxk h.symm), if_neg (by
          intro hc
          rcases List.mem_cons.mp hc with hc | hc
          · exact hxk hc
          · exact hx hc)]

theorem aerase_map_snd_comm {κ α β : Type} [DecidableEq κ] (k : κ) (f : α → β) :
    ∀ (l : List (κ × α)),
      aerase k (l.map (fun e => (e.1, f e.2))) = (aerase k l).map (fun e => (e.1, f e.2)) := by
  intro l
  induction l with
  | nil => rfl
  | cons e rest ih =>
    obtain ⟨k', v'⟩ := e
    by_cases h : k' = k
    · simp only [List.map_cons, aerase, if_pos h]
    · simp only [List.map_cons, aerase, if_neg h, ih]

theorem eraseAll_map_snd_comm {κ α β : Type} [DecidableEq κ] (f : α → β) :
    ∀ (ks : List κ) (l : List (κ × α)),
      eraseAll ks (l.map (fun e => (e.1, f e.2))) =
        (eraseAll ks l).map (fun e => (e.1, f e.2)) := by
  intro ks
  induction ks with
  | nil => intro l; rfl
  | cons k rest ih =>
    intro l
    have h1 : eraseAll (k :: rest) (l.map (fun e => (e.1, f e.2))) =
        eraseAll rest (aerase k (l.map (fun e => (e.1, f e.2)))) := rfl
    rw [h1, aerase_map_snd_comm, ih]
    rfl

theorem foldl_remove_arr :
    ∀ (R : List NodeID) (nl : NodeList),
      (R.foldl NodeList.remove_node nl).arr =
        (eraseAll R nl.arr).map (fun e => (e.1, scrubNode R e.2)) ∧
      (R.foldl NodeList.remove_node nl).next = nl.next := by
  intro R
  induction R with
  | nil =>
    intro nl
    constructor
    · have hfun : (fun (e : NodeID × Node) => (e.1, scrubNode [] e.2)) =
          (id : NodeID × Node → NodeID × Node) := funext (fun e => rfl)
      show nl.arr = (eraseAll [] nl.arr).map _
      rw [hfun]
      exact (List.map_id nl.arr).symm
    · rfl
  | cons r rest ih =>
    intro nl
    simp only [List.foldl_cons]
    obtain ⟨ih1, ih2⟩ := ih (nl.remove_node r)
    constructor
    · rw [ih1]
      have harr : (nl.remove_node r).arr =
          (aerase r nl.arr).map (fun e => (e.1, scrubNode [r] e.2)) := rfl
      rw [harr, eraseAll_map_snd_comm (scrubNode [r]), List.map_map]
      have hstep : eraseAll rest (aerase r nl.arr) = eraseAll (r :: rest) nl.arr := rfl
      rw [hstep]
      have hfun : ((fun (e : NodeID × Node) => (e.1, scrubNode rest e.2)) ∘
          (fun (e : NodeID × Node) => (e.1, scrubNode [r] e.2))) =
          (fun (e : NodeID × Node) => (e.1, scrubNode (r :: rest) e.2)) :=
        funext (fun e => rfl)
      rw [hfun]
    · rw [ih2]
      rfl

theorem foldl_remove_get? (R : List NodeID) (nl : NodeList) (x : NodeID)
    (hnd : (nl.arr.map Prod.fst).Nodup) :
    (R.foldl NodeList.remove_node nl).get? x =
      if x ∈ R then none else (nl.get? x).map (scrubNode R) := by
  show alookup x (R.foldl NodeList.remove_node nl).arr = _
  rw [(foldl_remove_arr R nl).1, alookup_map_snd (scrubNode R),
    alookup_eraseAll R nl.arr x hnd]
  by_cases hx : x ∈ R
  · rw [if_pos hx, if_pos hx]
    rfl
  · rw [if_neg hx, if_neg hx]
    rfl

theorem removeCore_WF (c : PathCache) (hwf : CacheWF c) (hen : EdgesNodup c.nodes)
    (idx : Nat) (removed : List NodeID) (ch' : Chunk)
    (hrm : ∀ id ∈ removed, id ∈ (c.chunks.getD idx defaultChunk).nodes)
    (hpos : ch'.pos = (c.chunks.getD idx defaultChunk).pos)
    (hsw : ch'.size_w = (c.chunks.getD idx defaultChunk).size_w)
    (hsh : ch'.size_h = (c.chunks.getD idx defaultChunk).size_h)
    (hset : ∀ x, x ∈ ch'.nodes ↔
      x ∈ (c.chunks.getD idx defaultChunk).nodes ∧ x ∉ removed) :
    CacheWF (PathCache.mk c.width c.height (c.chunks.set idx ch') c.num_chunks
      (removed.foldl NodeList.remove_node c.nodes) c.config) ∧
    EdgesNodup (removed.foldl NodeList.remove_node c.nodes) := by
  have hidx_range : ∀ id ∈ removed, ∃ ch0, c.chunks.get? idx = some ch0 ∧ id ∈ ch0.nodes := by
    intro id hid
    have h1 := hrm id hid
    rw [list_getD_eq_get?] at h1
    cases hg : c.chunks.get? idx with
    | none =>
      rw [hg] at h1
      simp [defaultChunk] at h1
    | some ch0 =>
      rw [hg] at h1
      exact ⟨ch0, rfl, h1⟩
  have hrlive : ∀ id ∈ removed, ∃ n, c.nodes.get? id = some n ∧
      c.get_chunk_index n.pos = idx := by
    intro id hid
    obtain ⟨ch0, hg, hm⟩ := hidx_range id hid
    exact hwf.mem idx ch0 hg id hm
  have hidxuniq : ∀ id ∈ removed, ∀ i chI, c.chunks.get? i = some chI →
      id ∈ chI.nodes → i = idx := by
    intro id hid i chI hgi hmi
    obtain ⟨n, hn, hni⟩ := hrlive id hid
    obtain ⟨n', hn', hni'⟩ := hwf.mem i chI hgi id hmi
    rw [hn] at hn'
    cases hn'
    rw [← hni']
    exact hni
  have hget : ∀ x, (removed.foldl NodeList.remove_node c.nodes).get? x =
      if x ∈ removed then none else (c.nodes.get? x).map (scrubNode removed) :=
    fun x => foldl_remove_get? removed c.nodes x hwf.keys
  have hsurv : ∀ a na', (removed.foldl NodeList.remove_node c.nodes).get? a = some na' →
      a ∉ removed ∧ ∃ na, c.nodes.get? a = some na ∧ na' = scrubNode removed na := by
    intro a na' h
    rw [hget a] at h
    by_cases ha : a ∈ removed
    · rw [if_pos ha] at h
      cases h
    · rw [if_neg ha] at h
      cases hl : c.nodes.get? a with
      | none => rw [hl] at h; cases h
      | some na =>
        rw [hl] at h
        exact ⟨ha, na, rfl, (Option.some_inj.mp h).symm⟩
  have hlk : ∀ a na b, c.nodes.get? a = some na →
      alookup b (scrubNode removed na).edges =
        if b ∈ removed then none else alookup b na.edges := by
    intro a na b hna
    show alookup b (eraseAll removed na.edges) = _
    exact alookup_eraseAll removed na.edges b (hen a na hna)
  refine ⟨⟨?_, ?_, ?_, ?_, ?_, ?_, ?_, ?_, ?_, ?_, ?_⟩, ?_⟩
  · show Bidir (removed.foldl NodeList.remove_node c.nodes)
    intro p q s hs
    obtain ⟨np', hp', hlkp⟩ := (edgeSeg_some_iff _ p q s).mp hs
    obtain ⟨hpnot, np, hnp, hnpeq⟩ := hsurv p np' hp'
    rw [hnpeq, hlk p np q hnp] at hlkp
    by_cases hq : q ∈ removed
    · rw [if_pos hq] at hlkp
      cases hlkp
    · rw [if_neg hq] at hlkp
      obtain ⟨s', hs', hc⟩ := hwf.sym p q s ((edgeSeg_some_iff _ p q s).mpr ⟨np, hnp, hlkp⟩)
      obtain ⟨nq, hnq, hlkq⟩ := (edgeSeg_some_iff _ q p s').mp hs'
      refine ⟨s', (edgeSeg_some_iff _ q p s').mpr ⟨scrubNode removed nq, ?_, ?_⟩, hc⟩
      · rw [hget q, if_neg hq, hnq]
        rfl
      · rw [hlk q nq p hnq, if_neg hpnot]
        exact hlkq
  · intro a na b s hna hlkb
    obtain ⟨hanot, na0, hna0, heq⟩ := hsurv a na hna
    rw [heq, hlk a na0 b hna0] at hlkb
    by_cases hb : b ∈ removed
    · rw [if_pos hb] at hlkb
      cases hlkb
    · rw [if_neg hb] at hlkb
      obtain ⟨nb, hnb⟩ := Option.isSome_iff_exists.mp (hwf.live a na0 b s hna0 hlkb)
      show ((removed.foldl NodeList.remove_node c.nodes).get? b).isSome = true
      rw [hget b, if_neg hb, hnb]
      rfl
  · show ((removed.foldl NodeList.remove_node c.nodes).arr.map Prod.fst).Nodup
    rw [(foldl_remove_arr removed c.nodes).1, List.map_map]
    have hcomp : (Prod.fst ∘ fun (e : NodeID × Node) => (e.1, scrubNode removed e.2)) =
        (Prod.fst : NodeID × Node → NodeID) := funext (fun e => rfl)
    rw [hcomp]
    exact List.Nodup.sublist
      (List.Sublist.map Prod.fst (eraseAll_sublist removed c.nodes.arr)) hwf.keys
  · show ((removed.foldl NodeList.remove_node c.nodes).arr.map
      (fun e => e.2.pos)).Nodup
    rw [(foldl_remove_arr removed c.nodes).1, List.map_map]
    have hcomp : ((fun (e : NodeID × Node) => e.2.pos) ∘
        fun (e : NodeID × Node) => (e.1, scrubNode removed e.2)) =
        (fun (e : NodeID × Node) => e.2.pos) := funext (fun e => rfl)
    rw [hcomp]
    exact List.Nodup.sublist
      (List.Sublist.map (fun e => e.2.pos) (eraseAll_sublist removed c.nodes.arr)) hwf.posn
  · intro e he
    show e.1 < (removed.foldl NodeList.remove_node c.nodes).next
    rw [(foldl_remove_arr removed c.nodes).2]
    have he2 : e ∈ (removed.foldl NodeList.remove_node c.nodes).arr := he
    rw [(foldl_remove_arr removed c.nodes).1] at he2
    obtain ⟨e0, he0, heq⟩ := List.mem_map.mp he2
    have hfst : e.1 = e0.1 := by rw [← heq]
    rw [hfst]
    exact hwf.fresh e0 (List.Sublist.subset (eraseAll_sublist removed c.nodes.arr) he0)
  · intro a na hna
    obtain ⟨hanot, na0, hna0, haeq⟩ := hsurv a na hna
    have hold := hwf.inb a na0 hna0
    show na.pos.1 < c.width ∧ na.pos.2 < c.height
    rw [haeq]
    exact hold
  · intro a na b nb s hna hnb hlkb
    obtain ⟨hanot, na0, hna0, haeq⟩ := hsurv a na hna
    obtain ⟨hbnot, nb0, hnb0, hbeq⟩ := hsurv b nb hnb
    have hlkb2 : alookup b na.edges = some s := hlkb
    rw [haeq, hlk a na0 b hna0] at hlkb2
    by_cases hb : b ∈ removed
    · rw [if_pos hb] at hlkb2
      cases hlkb2
    · rw [if_neg hb] at hlkb2
      have hold := hwf.loc a na0 b nb0 s hna0 hnb0 hlkb2
      show c.same_chunk na.pos nb.pos = true ∨ nb.pos ∈ Nbh.allNeighbors na.pos
      rw [haeq, hbeq]
      exact hold
  · intro a na hna
    obtain ⟨hanot, na0, hna0, haeq⟩ := hsurv a na hna
    have hold := hwf.reg a na0 hna0
    unfold PathCache.get_chunk at hold
    show a ∈ ((c.chunks.set idx ch').getD (c.get_chunk_index na.pos) defaultChunk).nodes
    rw [haeq]
    show a ∈ ((c.chunks.set idx ch').getD (c.get_chunk_index na0.pos) defaultChunk).nodes
    rw [list_getD_eq_get?, list_get?_set]
    by_cases hcase : c.get_chunk_index na0.pos = idx ∧ idx < c.chunks.length
    · rw [if_pos hcase]
      simp only [Option.getD_some]
      rw [hset a]
      refine ⟨?_, hanot⟩
      rw [← hcase.1]
      exact hold
    · rw [if_neg hcase, ← list_getD_eq_get?]
      exact hold
  · intro i chI hchI id hid
    have hchI2 : (c.chunks.set idx ch').get? i = some chI := hchI
    rw [list_get?_set] at hchI2
    by_cases hcase : i = idx ∧ idx < c.chunks.length
    · rw [if_pos hcase] at hchI2
      cases hchI2
      rw [hset id] at hid
      obtain ⟨hidm, hidnot⟩ := hid
      rw [list_getD_eq_get?] at hidm
      cases hg : c.chunks.get? idx with
      | none =>
        rw [hg] at hidm
        simp [defaultChunk] at hidm
      | some ch0 =>
        rw [hg] at hidm
        simp only [Option.getD_some] at hidm
        obtain ⟨n, hn, hni⟩ := hwf.mem idx ch0 hg id hidm
        refine ⟨scrubNode removed n, ?_, ?_⟩
        · show (removed.foldl NodeList.remove_node c.nodes).get? id = some _
          rw [hget id, if_neg hidnot, hn]
          rfl
        · show c.get_chunk_index (scrubNode removed n).pos = i
          rw [hcase.1]
          exact hni
    · rw [if_neg hcase] at hchI2
      obtain ⟨n, hn, hni⟩ := hwf.mem i chI hchI2 id hid
      have hidnot : id ∉ removed := by
        intro hc
        have heq := hidxuniq id hc i chI hchI2 hid
        obtain ⟨hlt, _⟩ := List.get?_eq_some.mp hchI2
        exact hcase ⟨heq, heq ▸ hlt⟩
      refine ⟨scrubNode removed n, ?_, ?_⟩
      · show (removed.foldl NodeList.remove_node c.nodes).get? id = some _
        rw [hget id, if_neg hidnot, hn]
        rfl
      · show c.get_chunk_index (scrubNode removed n).pos = i
        exact hni
  · intro i chI hchI
    have hchI2 : (c.chunks.set idx ch').get? i = some chI := hchI
    rw [list_get?_set] at hchI2
    by_cases hcase : i = idx ∧ idx < c.chunks.length
    · rw [if_pos hcase] at hchI2
      cases hchI2
      cases hg : c.chunks.get? idx with
      | none =>
        exact absurd hcase.2 (not_lt.mpr (List.get?_eq_none.mp hg))
      | some ch0 =>
        obtain ⟨g1, g2, g3, g4, g5⟩ := hwf.geo idx ch0 hg
        have hd : c.chunks.getD idx defaultChunk = ch0 := by
          rw [list_getD_eq_get?, hg]
          rfl
        rw [hd] at hpos hsw hsh
        refine ⟨by rw [hsw]; exact g1, by rw [hsh]; exact g2, ?_, ?_, ?_⟩
        · show ch'.pos.1 + ch'.size_w ≤ c.width
          rw [hpos, hsw]
          exact g3
        · show ch'.pos.2 + ch'.size_h ≤ c.height
          rw [hpos, hsh]
          exact g4
        · intro p hp
          have hp0 : ch0.inChunk p = true := by
            unfold Chunk.inChunk at hp ⊢
            rw [hpos, hsw, hsh] at hp
            exact hp
          show c.get_chunk_index p = i
          rw [hcase.1]
          exact g5 p hp0
    · rw [if_neg hcase] at hchI2
      obtain ⟨g1, g2, g3, g4, g5⟩ := hwf.geo i chI hchI2
      exact ⟨g1, g2, g3, g4, fun p hp => g5 p hp⟩
  · show c.width ≤ c.num_chunks.1 * c.config.chunk_size ∧
      c.height ≤ c.num_chunks.2 * c.config.chunk_size ∧ 1 ≤ c.config.chunk_size
    exact hwf.num
  · intro a na hna
    obtain ⟨hanot, na0, hna0, haeq⟩ := hsurv a na hna
    rw [haeq]
    show ((eraseAll removed na0.edges).map Prod.fst).Nodup
    exact List.Nodup.sublist
      (List.Sublist.map Prod.fst (eraseAll_sublist removed na0.edges)) (hen a na0 hna0)

theorem removeStep_WF (c : PathCache) (hwf : CacheWF c) (hen : EdgesNodup c.nodes)
    (entry : Point × List Renew) :
    CacheWF (c.removeStep entry) ∧ EdgesNodup (c.removeStep entry).nodes := by
  have hmain := removeCore_WF c hwf hen (c.get_chunk_index entry.1)
    ((c.chunks.getD (c.get_chunk_index entry.1) defaultChunk).nodes.filter
      (fun id => match c.nodes.get? id with
        | none => false
        | some n => removeMatch (c.chunks.getD (c.get_chunk_index entry.1) defaultChunk)
            entry.2 n.pos))
    { c.chunks.getD (c.get_chunk_index entry.1) defaultChunk with
      nodes := (c.chunks.getD (c.get_chunk_index entry.1) defaultChunk).nodes.filter
        (fun id => decide (¬ id ∈
          (c.chunks.getD (c.get_chunk_index entry.1) defaultChunk).nodes.filter
            (fun id => match c.nodes.get? id with
              | none => false
              | some n => removeMatch
                  (c.chunks.getD (c.get_chunk_index entry.1) defaultChunk)
                  entry.2 n.pos))) }
    (fun id hid => (List.mem_filter.mp hid).1) rfl rfl rfl
    (fun x => by
      constructor
      · intro hx
        have h2 := List.mem_filter.mp hx
        exact ⟨h2.1, of_decide_eq_true h2.2⟩
      · intro hx
        exact List.mem_filter.mpr ⟨hx.1, decide_eq_true hx.2⟩)
  exact hmain

theorem foldl_removeStep_WF :
    ∀ (renew : List (Point × List Renew)) (c : PathCache),
      CacheWF c → EdgesNodup c.nodes →
      CacheWF (renew.foldl PathCache.removeStep c) ∧
        EdgesNodup (renew.foldl PathCache.removeStep c).nodes := by
  intro renew
  induction renew with
  | nil => intro c hwf hen; exact ⟨hwf, hen⟩
  | cons e rest ih =>
    intro c hwf hen
    simp only [List.foldl_cons]
    obtain ⟨h1, h2⟩ := removeStep_WF c hwf hen e
    exact ih (c.removeStep e) h1 h2

theorem clearCore_MidWF (c1 c2 : PathCache) (hwf : CacheWF c1) (hen : EdgesNodup c1.nodes)
    (D : List NodeID)
    (hnodes : c2.nodes = D.foldl NodeList.clear_edges c1.nodes)
    (hC : c2.chunks = c1.chunks) (hW : c2.width = c1.width) (hH : c2.height = c1.height)
    (hCfg : c2.config = c1.config) (hNum : c2.num_chunks = c1.num_chunks)
    (hDmem : ∀ id ∈ D, ∃ j ch0, c1.chunks.get? j = some ch0 ∧ id ∈ ch0.nodes ∧
      ∀ x ∈ ch0.nodes, x ∈ D) :
    MidWF c2 D c1.nodes.next := by
  have hget : ∀ x, c2.nodes.get? x =
      if x ∈ D then (c1.nodes.get? x).map (fun n => { n with edges := [] })
      else c1.nodes.get? x := by
    intro x
    rw [hnodes]
    exact foldl_clear_get? D c1.nodes x
  have hiso : ∀ x, (c2.nodes.get? x).isSome = (c1.nodes.get? x).isSome := by
    intro x
    rw [hget x]
    by_cases hx : x ∈ D
    · rw [if_pos hx]
      cases c1.nodes.get? x <;> rfl
    · rw [if_neg hx]
  have hsame : ∀ p q, c2.same_chunk p q = c1.same_chunk p q := by
    intro p q
    unfold PathCache.same_chunk
    rw [hCfg]
  have hgi : ∀ p, c2.get_chunk_index p = c1.get_chunk_index p := by
    intro p
    unfold PathCache.get_chunk_index
    rw [hCfg, hNum]
  have hgc : ∀ p, c2.get_chunk p = c1.get_chunk p := by
    intro p
    unfold PathCache.get_chunk
    rw [hC, hgi]
  have hDlive : ∀ id ∈ D, ∃ n, c1.nodes.get? id = some n := by
    intro id hid
    obtain ⟨j, ch0, hj, hm, _⟩ := hDmem id hid
    obtain ⟨n, hn, _⟩ := hwf.mem j ch0 hj id hm
    exact ⟨n, hn⟩
  have hsurv : ∀ a na, c2.nodes.get? a = some na →
      ∃ na0, c1.nodes.get? a = some na0 ∧ na.pos = na0.pos ∧
        (na.edges = na0.edges ∧ a ∉ D ∨ na.edges = [] ∧ a ∈ D) := by
    intro a na hna
    rw [hget a] at hna
    by_cases ha : a ∈ D
    · rw [if_pos ha] at hna
      cases hl : c1.nodes.get? a with
      | none => rw [hl] at hna; cases hna
      | some na0 =>
        rw [hl] at hna
        simp only [Option.map_some', Option.some_inj] at hna
        exact ⟨na0, rfl, by rw [← hna], Or.inr ⟨by rw [← hna], ha⟩⟩
    · rw [if_neg ha] at hna
      exact ⟨na, hna, rfl, Or.inl ⟨rfl, ha⟩⟩
  refine ⟨?_, ?_, ?_, ?_, ?_, ?_, ?_, ?_, ?_, ?_, ?_, ?_, ?_, ?_⟩
  · intro a na b s hna hlk
    obtain ⟨na0, hna0, hpos, hed⟩ := hsurv a na hna
    rcases hed with ⟨hed, ha⟩ | ⟨hed, ha⟩
    · rw [hed] at hlk
      by_cases hb : b ∈ D
      · right
        obtain ⟨nb0, hnb0⟩ := hDlive b hb
        have hnb2 : c2.nodes.get? b = some { nb0 with edges := [] } := by
          rw [hget b, if_pos hb, hnb0]
          rfl
        refine ⟨hb, ha, ?_, { nb0 with edges := [] }, hnb2, ?_, rfl⟩
        · exact hwf.fresh (a, na0) (alookup_some_mem _ _ _ hna0)
        · rcases hwf.loc a na0 b nb0 s hna0 hnb0 hlk with hsc | hadj
          · exfalso
            obtain ⟨j, ch0, hj, hm, hclo⟩ := hDmem b hb
            obtain ⟨nb1, hnb1, hidx⟩ := hwf.mem j ch0 hj b hm
            rw [hnb0] at hnb1
            cases hnb1
            have hindx := index_eq_of_same_chunk c1 na0.pos nb0.pos hsc
            have hreg := hwf.reg a na0 hna0
            unfold PathCache.get_chunk at hreg
            rw [hindx, hidx, list_getD_eq_get?, hj] at hreg
            simp only [Option.getD_some] at hreg
            exact ha (hclo a hreg)
          · rw [hpos]
            exact allNeighbors_symm na0.pos nb0.pos hadj
      · left
        obtain ⟨s', hs', hc⟩ := hwf.sym a b s
          ((edgeSeg_some_iff c1.nodes a b s).mpr ⟨na0, hna0, hlk⟩)
        obtain ⟨nb0, hnb0, hlkb⟩ := (edgeSeg_some_iff c1.nodes b a s').mp hs'
        refine ⟨s', (edgeSeg_some_iff c2.nodes b a s').mpr ⟨nb0, ?_, hlkb⟩, hc⟩
        rw [hget b, if_neg hb]
        exact hnb0
    · rw [hed] at hlk
      cases hlk
  · intro a na b s hna hlk
    obtain ⟨na0, hna0, _, hed⟩ := hsurv a na hna
    rcases hed with ⟨hed, _⟩ | ⟨hed, _⟩
    · rw [hed] at hlk
      rw [hiso b]
      exact hwf.live a na0 b s hna0 hlk
    · rw [hed] at hlk
      cases hlk
  · rw [hnodes, foldl_clear_map_fst]
    exact hwf.keys
  · rw [hnodes, foldl_clear_map_pos]
    exact hwf.posn
  · intro e he
    have hfst : e.1 ∈ c2.nodes.arr.map Prod.fst := List.mem_map_of_mem Prod.fst he
    rw [hnodes, foldl_clear_map_fst] at hfst
    obtain ⟨v, hv⟩ := mem_keys_exists _ _ hfst
    rw [hnodes, foldl_clear_next]
    exact hwf.fresh (e.1, v) hv
  · intro a na hna
    obtain ⟨na0, hna0, hpos, _⟩ := hsurv a na hna
    rw [hW, hH, hpos]
    exact hwf.inb a na0 hna0
  · intro a na b nb s hna hnb hlk
    obtain ⟨na0, hna0, hposa, heda⟩ := hsurv a na hna
    obtain ⟨nb0, hnb0, hposb, _⟩ := hsurv b nb hnb
    rcases heda with ⟨hed, _⟩ | ⟨hed, _⟩
    · rw [hed] at hlk
      rw [hsame, hposa, hposb]
      exact hwf.loc a na0 b nb0 s hna0 hnb0 hlk
    · rw [hed] at hlk
      cases hlk
  · intro a na hna
    obtain ⟨na0, hna0, hpos, _⟩ := hsurv a na hna
    rw [hgc, hpos]
    exact hwf.reg a na0 hna0
  · intro i ch hch id hid
    rw [hC] at hch
    obtain ⟨n, hn, hidx⟩ := hwf.mem i ch hch id hid
    by_cases hd : id ∈ D
    · refine ⟨{ n with edges := [] }, ?_, ?_⟩
      · rw [hget id, if_pos hd, hn]
        rfl
      · rw [hgi]
        exact hidx
    · refine ⟨n, ?_, ?_⟩
      · rw [hget id, if_neg hd]
        exact hn
      · rw [hgi]
        exact hidx
  · intro i ch hch
    rw [hC] at hch
    obtain ⟨g1, g2, g3, g4, g5⟩ := hwf.geo i ch hch
    refine ⟨g1, g2, by rw [hW]; exact g3, by rw [hH]; exact g4, ?_⟩
    intro p hp
    rw [hgi]
    exact g5 p hp
  · rw [hW, hH, hCfg, hNum]
    exact hwf.num
  · intro id hid
    obtain ⟨n, hn⟩ := hDlive id hid
    exact hwf.fresh (id, n) (alookup_some_mem _ _ _ hn)
  · rw [hnodes, foldl_clear_next]
  · rw [hnodes]
    exact EdgesNodup_foldl_clear D c1.nodes hen

theorem clearFold_MidWF (c1 : PathCache) (hwf : CacheWF c1) (hen : EdgesNodup c1.nodes)
    (dirty : List (Point × List Point)) :
    MidWF (dirty.foldl PathCache.clearStep c1)
      (dirty.flatMap (fun e =>
        (c1.chunks.getD (c1.get_chunk_index e.1) defaultChunk).nodes))
      c1.nodes.next := by
  obtain ⟨hN, hC, hW, hH, hCfg, hNum⟩ := clearFold_nodes dirty c1
  refine clearCore_MidWF c1 _ hwf hen _ hN hC hW hH hCfg hNum ?_
  intro id hid
  obtain ⟨e, he, hm⟩ := List.mem_flatMap.mp hid
  rw [list_getD_eq_get?] at hm
  cases hg : c1.chunks.get? (c1.get_chunk_index e.1) with
  | none =>
    rw [hg] at hm
    simp [defaultChunk] at hm
  | some ch0 =>
    rw [hg] at hm
    simp only [Option.getD_some] at hm
    refine ⟨c1.get_chunk_index e.1, ch0, hg, hm, ?_⟩
    intro x hx
    refine List.mem_flatMap.mpr ⟨e, he, ?_⟩
    rw [list_getD_eq_get?, hg]
    exact hx

theorem add_edge_get?_char (nl : NodeList) (x y : NodeID) (s : PathSegment)
    (hxy : x ≠ y) (a : NodeID) :
    (nl.add_edge x y s).get? a =
      if a = x then (nl.get? x).map (fun n => { n with edges := ainsert y s n.edges })
      else if a = y then
        (nl.get? y).map (fun n => { n with edges := ainsert x s.reversedSeg n.edges })
      else nl.get? a := by
  unfold NodeList.add_edge NodeList.get?
  simp only
  by_cases hay : a = y
  · rw [if_neg (by rw [hay]; exact fun h => hxy h.symm), if_pos hay, hay,
      alookup_amodify_self, alookup_amodify_ne _ _ _ _ hxy]
  · rw [alookup_amodify_ne _ _ _ _ (fun h => hay h.symm)]
    by_cases hax : a = x
    · rw [if_pos hax, hax, alookup_amodify_self]
    · rw [if_neg hax, if_neg hay, alookup_amodify_ne _ _ _ _ (fun h => hax h.symm)]

theorem EdgeOK_add_edge (nl : NodeList) (D : List NodeID) (nxt : NodeID)
    (x y : NodeID) (seg : PathSegment) (hxy : x ≠ y)
    (hx : ((nl.get? x).isSome) = true) (hy : ((nl.get? y).isSome) = true)
    (h : EdgeOK nl D nxt) : EdgeOK (nl.add_edge x y seg) D nxt := by
  obtain ⟨hself1, hself2⟩ := edgeSeg_add_edge_self nl x y seg hx hy hxy
  intro a na' b s' hna' hlk'
  rw [add_edge_get?_char nl x y seg hxy a] at hna'
  by_cases hax : a = x
  · subst hax
    rw [if_pos rfl] at hna'
    cases hl : nl.get? a with
    | none => rw [hl] at hna'; cases hna'
    | some na0 =>
      rw [hl] at hna'
      simp only [Option.map_some', Option.some_inj] at hna'
      have hed : na'.edges = ainsert y seg na0.edges := by rw [← hna']
      have hpe : na'.pos = na0.pos := by rw [← hna']
      rw [hed] at hlk'
      by_cases hby : b = y
      · subst hby
        rw [alookup_ainsert_self] at hlk'
        cases hlk'
        exact Or.inl ⟨seg.reversedSeg, hself2, reversedSeg_cost seg⟩
      · rw [alookup_ainsert_ne _ _ _ _ (fun hh => hby hh.symm)] at hlk'
        rcases h a na0 b s' hl hlk' with ⟨s2, hs2, hc2⟩ |
          ⟨hbD, haD, halt, nb0, hnb0, hadj, hnone⟩
        · left
          refine ⟨s2, ?_, hc2⟩
          rw [edgeSeg_add_edge_of_ne nl a y b a seg
            (fun hh => hxy hh.2.symm) (fun hh => hby hh.2.symm)]
          exact hs2
        · right
          have hba : b ≠ a := fun hh => haD (hh ▸ hbD)
          refine ⟨hbD, haD, halt, nb0, ?_, ?_, hnone⟩
          · rw [add_edge_get?_char nl a y seg hxy b, if_neg hba, if_neg hby]
            exact hnb0
          · rw [hpe]
            exact hadj
  · rw [if_neg hax] at hna'
    by_cases hay : a = y
    · subst hay
      rw [if_pos rfl] at hna'
      cases hl : nl.get? a with
      | none => rw [hl] at hna'; cases hna'
      | some na0 =>
        rw [hl] at hna'
        simp only [Option.map_some', Option.some_inj] at hna'
        have hed : na'.edges = ainsert x seg.reversedSeg na0.edges := by rw [← hna']
        have hpe : na'.pos = na0.pos := by rw [← hna']
        rw [hed] at hlk'
        by_cases hbx : b = x
        · subst hbx
          rw [alookup_ainsert_self] at hlk'
          cases hlk'
          exact Or.inl ⟨seg, hself1, (reversedSeg_cost seg).symm⟩
        · rw [alookup_ainsert_ne _ _ _ _ (fun hh => hbx hh.symm)] at hlk'
          rcases h a na0 b s' hl hlk' with ⟨s2, hs2, hc2⟩ |
            ⟨hbD, haD, halt, nb0, hnb0, hadj, hnone⟩
          · left
            refine ⟨s2, ?_, hc2⟩
            rw [edgeSeg_add_edge_of_ne nl x a b a seg
              (fun hh => hbx hh.1.symm) (fun hh => hxy hh.1)]
            exact hs2
          · right
            have hba : b ≠ a := fun hh => haD (hh ▸ hbD)
            refine ⟨hbD, haD, halt, nb0, ?_, ?_, hnone⟩
            · rw [add_edge_get?_char nl x a seg hxy b, if_neg hbx, if_neg hba]
              exact hnb0
            · rw [hpe]
              exact hadj
    · rw [if_neg hay] at hna'
      rcases h a na' b s' hna' hlk' with ⟨s2, hs2, hc2⟩ |
        ⟨hbD, haD, halt, nb0, hnb0, hadj, hnone⟩
      · left
        refine ⟨s2, ?_, hc2⟩
        rw [edgeSeg_add_edge_of_ne nl x y b a seg
          (fun hh => hay hh.2.symm) (fun hh => hax hh.1.symm)]
        exact hs2
      · right
        refine ⟨hbD, haD, halt, ?_⟩
        by_cases hbx : b = x
        · refine ⟨{ nb0 with edges := ainsert y seg nb0.edges }, ?_, hadj, ?_⟩
          · rw [add_edge_get?_char nl x y seg hxy b, if_pos hbx]
            rw [hbx] at hnb0
            rw [hnb0]
            rfl
          · show alookup a (ainsert y seg nb0.edges) = none
            rw [alookup_ainsert_ne _ _ _ _ (fun hh => hay hh.symm)]
            exact hnone
        · by_cases hby : b = y
          · refine ⟨{ nb0 with edges := ainsert x seg.reversedSeg nb0.edges }, ?_, hadj, ?_⟩
            · rw [add_edge_get?_char nl x y seg hxy b, if_neg hbx, if_pos hby]
              rw [hby] at hnb0
              rw [hnb0]
              rfl
            · show alookup a (ainsert x seg.reversedSeg nb0.edges) = none
              rw [alookup_ainsert_ne _ _ _ _ (fun hh => hax hh.symm)]
              exact hnone
          · refine ⟨nb0, ?_, hadj, hnone⟩
            rw [add_edge_get?_char nl x y seg hxy b, if_neg hbx, if_neg hby]
            exact hnb0

theorem EdgeOK_foldl_add_edge (D : List NodeID) (nxt : NodeID) :
    ∀ (L : List (NodeID × NodeID × PathSegment)) (nl : NodeList),
      (∀ t ∈ L, ((nl.get? t.1).isSome) = true ∧ ((nl.get? t.2.1).isSome) = true ∧
        t.1 ≠ t.2.1) →
      EdgeOK nl D nxt →
      EdgeOK (L.foldl (fun nl t => nl.add_edge t.1 t.2.1 t.2.2) nl) D nxt := by
  intro L
  induction L with
  | nil => intro nl _ h; exact h
  | cons t rest ih =>
    intro nl hlive h
    simp only [List.foldl_cons]
    obtain ⟨h1, h2, h3⟩ := hlive t (List.mem_cons_self _ _)
    refine ih _ ?_ (EdgeOK_add_edge nl D nxt t.1 t.2.1 t.2.2 h3 h1 h2 h)
    intro u hu
    obtain ⟨g1, g2, g3⟩ := hlive u (List.mem_cons_of_mem _ hu)
    exact ⟨by rw [get?_add_edge_isSome]; exact g1,
      by rw [get?_add_edge_isSome]; exact g2, g3⟩

theorem same_chunk_symm (c : PathCache) (p q : Point)
    (h : c.same_chunk p q = true) : c.same_chunk q p = true := by
  unfold PathCache.same_chunk at h ⊢
  simp only [Bool.and_eq_true, decide_eq_true_eq] at h ⊢
  exact ⟨h.1.symm, h.2.symm⟩

theorem same_chunk_of_index_eq_num (c : PathCache)
    (hnum : c.width ≤ c.num_chunks.1 * c.config.chunk_size ∧
      c.height ≤ c.num_chunks.2 * c.config.chunk_size ∧ 1 ≤ c.config.chunk_size)
    (p q : Point) (hp : p.1 < c.width) (hq : q.1 < c.width)
    (h : c.get_chunk_index p = c.get_chunk_index q) : c.same_chunk p q = true := by
  obtain ⟨hn1, _, hcs⟩ := hnum
  unfold PathCache.get_chunk_index at h
  simp only at h
  have h1 : p.1 / c.config.chunk_size < c.num_chunks.1 :=
    div_lt_of_lt_mul_width p.1 c.width c.num_chunks.1 c.config.chunk_size hcs hp hn1
  have h2 : q.1 / c.config.chunk_size < c.num_chunks.1 :=
    div_lt_of_lt_mul_width q.1 c.width c.num_chunks.1 c.config.chunk_size hcs hq hn1
  obtain ⟨hq', hr'⟩ := index_decomp_unique c.num_chunks.1 _ _ _ _ h1 h2 h
  unfold PathCache.same_chunk
  simp only [Bool.and_eq_true, decide_eq_true_eq]
  exact ⟨hq', hr'⟩

theorem MidWF_foldl_add_edge (c : PathCache) (D : List NodeID) (nxt : NodeID)
    (hmw : MidWF c D nxt) (L : List (NodeID × NodeID × PathSegment))
    (hL : ∀ t ∈ L, t.1 ≠ t.2.1 ∧ ((c.nodes.get? t.1).isSome) = true ∧
      ((c.nodes.get? t.2.1).isSome) = true ∧
      ∀ n m, c.nodes.get? t.1 = some n → c.nodes.get? t.2.1 = some m →
        (c.same_chunk n.pos m.pos = true ∨ m.pos ∈ Nbh.allNeighbors n.pos)) :
    MidWF { c with nodes := L.foldl (fun nl t => nl.add_edge t.1 t.2.1 t.2.2) c.nodes }
      D nxt := by
  have hlive3 : ∀ t ∈ L, ((c.nodes.get? t.1).isSome) = true ∧
      ((c.nodes.get? t.2.1).isSome) = true ∧ t.1 ≠ t.2.1 := by
    intro t ht
    obtain ⟨g1, g2, g3, _⟩ := hL t ht
    exact ⟨g2, g3, g1⟩
  have hiso : ∀ x, (((L.foldl (fun nl t => nl.add_edge t.1 t.2.1 t.2.2) c.nodes).get?
      x).isSome) = ((c.nodes.get? x).isSome) :=
    fun x => foldl_add_edge_isSome x L c.nodes
  refine ⟨?_, ?_, ?_, ?_, ?_, ?_, ?_, ?_, ?_, ?_, ?_, hmw.dlt, ?_, ?_⟩
  · exact EdgeOK_foldl_add_edge D nxt L c.nodes hlive3 hmw.edge
  · intro a na b s hna hlk
    obtain ⟨na0, h0, _, _, hechar⟩ := foldl_add_edge_node_char L c.nodes a na hna
    rw [hiso b]
    rcases hechar b (by rw [hlk]; rfl) with hb | ⟨t, ht, htt⟩
    · obtain ⟨s0, hs0⟩ := Option.isSome_iff_exists.mp hb
      exact hmw.live a na0 b s0 h0 hs0
    · obtain ⟨_, g2, g3, _⟩ := hL t ht
      rcases htt with ⟨h1, h2⟩ | ⟨h1, h2⟩
      · rw [← h2]
        exact g3
      · rw [← h1]
        exact g2
  · show (((L.foldl (fun nl t => nl.add_edge t.1 t.2.1 t.2.2) c.nodes).arr.map
      Prod.fst)).Nodup
    rw [foldl_add_edge_map_fst]
    exact hmw.keys
  · show (((L.foldl (fun nl t => nl.add_edge t.1 t.2.1 t.2.2) c.nodes).arr.map
      (fun e => e.2.pos))).Nodup
    rw [foldl_add_edge_map_pos]
    exact hmw.posn
  · intro e he
    have hfst : e.1 ∈ (L.foldl (fun nl t => nl.add_edge t.1 t.2.1 t.2.2)
        c.nodes).arr.map Prod.fst := List.mem_map_of_mem Prod.fst he
    rw [foldl_add_edge_map_fst] at hfst
    obtain ⟨v, hv⟩ := mem_keys_exists _ _ hfst
    show e.1 < (L.foldl (fun nl t => nl.add_edge t.1 t.2.1 t.2.2) c.nodes).next
    rw [foldl_add_edge_next]
    exact hmw.fresh (e.1, v) hv
  · intro a na hna
    obtain ⟨na0, h0, hp0, _, _⟩ := foldl_add_edge_node_char L c.nodes a na hna
    show na.pos.1 < c.width ∧ na.pos.2 < c.height
    rw [hp0]
    exact hmw.inb a na0 h0
  · intro a na b nb s hna hnb hlk
    obtain ⟨na0, h0, hp0, _, hechar⟩ := foldl_add_edge_node_char L c.nodes a na hna
    obtain ⟨nb0, hb0, hq0, _, _⟩ := foldl_add_edge_node_char L c.nodes b nb hnb
    show c.same_chunk na.pos nb.pos = true ∨ nb.pos ∈ Nbh.allNeighbors na.pos
    rw [hp0, hq0]
    rcases hechar b (by rw [hlk]; rfl) with hb | ⟨t, ht, htt⟩
    · obtain ⟨s0, hs0⟩ := Option.isSome_iff_exists.mp hb
      exact hmw.loc a na0 b nb0 s0 h0 hb0 hs0
    · obtain ⟨_, _, _, g4⟩ := hL t ht
      rcases htt with ⟨h1, h2⟩ | ⟨h1, h2⟩
      · rw [← h1] at h0
        rw [← h2] at hb0
        exact g4 na0 nb0 h0 hb0
      · rw [← h2] at h0
        rw [← h1] at hb0
        rcases g4 nb0 na0 hb0 h0 with hsc | hadj
        · exact Or.inl (same_chunk_symm c nb0.pos na0.pos hsc)
        · exact Or.inr (allNeighbors_symm nb0.pos na0.pos hadj)
  · intro a na hna
    obtain ⟨na0, h0, hp0, _, _⟩ := foldl_add_edge_node_char L c.nodes a na hna
    show a ∈ (c.get_chunk na.pos).nodes
    rw [hp0]
    exact hmw.reg a na0 h0
  · intro i ch hch id hid
    obtain ⟨n, hn, hni⟩ := hmw.mem i ch hch id hid
    have hs : (((L.foldl (fun nl t => nl.add_edge t.1 t.2.1 t.2.2) c.nodes).get?
        id).isSome) = true := by
      rw [hiso id, hn]
      rfl
    obtain ⟨n', hn'⟩ := Option.isSome_iff_exists.mp hs
    obtain ⟨n0, hn0, hp0, _, _⟩ := foldl_add_edge_node_char L c.nodes id n' hn'
    rw [hn] at hn0
    cases hn0
    refine ⟨n', hn', ?_⟩
    show c.get_chunk_index n'.pos = i
    rw [hp0]
    exact hni
  · intro i ch hch
    obtain ⟨g1, g2, g3, g4, g5⟩ := hmw.geo i ch hch
    exact ⟨g1, g2, g3, g4, fun p hp => g5 p hp⟩
  · exact hmw.num
  · show nxt ≤ (L.foldl (fun nl t => nl.add_edge t.1 t.2.1 t.2.2) c.nodes).next
    rw [foldl_add_edge_next]
    exact hmw.nxtle
  · exact EdgesNodup_foldl_add_edge L c.nodes hmw.enod

theorem setChunk_getD (c : PathCache) (i : Nat) (ch : Chunk) (j : Nat) :
    (c.setChunk i ch).chunks.getD j defaultChunk =
      if j = i ∧ i < c.chunks.length then ch else c.chunks.getD j defaultChunk := by
  show (c.chunks.set i ch).getD j defaultChunk = _
  rw [list_getD_eq_get?, list_get?_set]
  by_cases h : j = i ∧ i < c.chunks.length
  · rw [if_pos h, if_pos h]
    rfl
  · rw [if_neg h, if_neg h, ← list_getD_eq_get?]

theorem insertNodeSet_mem (id : NodeID) (l : List NodeID) (x : NodeID) :
    x ∈ insertNodeSet id l ↔ x ∈ l ∨ x = id := by
  unfold insertNodeSet
  by_cases h : id ∈ l
  · rw [if_pos h]
    constructor
    · exact Or.inl
    · rintro (hx | hx)
      · exact hx
      · rw [hx]
        exact h
  · rw [if_neg h]
    simp

theorem foldl_insertNodeSet_mem :
    ∀ (ids : List NodeID) (acc : List NodeID) (x : NodeID),
      x ∈ ids.foldl (fun l id => insertNodeSet id l) acc ↔ x ∈ acc ∨ x ∈ ids := by
  intro ids
  induction ids with
  | nil =>
    intro acc x
    simp
  | cons id rest ih =>
    intro acc x
    simp only [List.foldl_cons]
    rw [ih (insertNodeSet id acc) x, insertNodeSet_mem]
    simp only [List.mem_cons]
    tauto

theorem id_at_isNone_not_mem (nl : NodeList) (p : Point)
    (h : (nl.id_at p).isNone = true) : p ∉ nl.arr.map (fun e => e.2.pos) := by
  unfold NodeList.id_at at h
  intro hc
  obtain ⟨e, he, hep⟩ := List.mem_map.mp hc
  cases hf : nl.arr.find? (fun e => decide (e.2.pos = p)) with
  | some v => rw [hf] at h; cases h
  | none =>
    have := List.find?_eq_none.mp hf e he
    simp only [decide_eq_true_eq] at this
    exact this hep

theorem defaultChunk_calc (d : Dir) (cost : CostFn) (cfg : PathCacheConfig) :
    defaultChunk.calculate_side_nodes d cost cfg = [] := by
  cases d <;> rfl

theorem createNodes_iso (cost : CostFn) (cands : List Point) (nl : NodeList)
    (ids0 : List NodeID) (hfresh : ∀ e ∈ nl.arr, e.1 < nl.next) (x : NodeID)
    (hx : ((nl.get? x).isSome) = true) :
    (((createNodes cost cands (nl, ids0)).1.get? x).isSome) = true := by
  obtain ⟨g1, g2, g3, g4, g5, g6, g7⟩ := createNodes_char cost cands nl ids0 hfresh
  obtain ⟨v, hv⟩ := Option.isSome_iff_exists.mp hx
  have hlt : x < nl.next := hfresh (x, v) (alookup_some_mem _ _ _ hv)
  rw [g6 x hlt, hv]
  rfl

theorem recreateMid_MidWF (cache : PathCache) (D : List NodeID) (nxt : NodeID)
    (hmw : MidWF cache D nxt) (cost : CostFn) (idx : Nat) (chunk chN : Chunk)
    (cands : List Point) (newSet : List NodeID)
    (hchunk : cache.chunks.getD idx defaultChunk = chunk)
    (hcnd : ∀ p ∈ cands, ∃ d, p ∈ chunk.calculate_side_nodes d cost cache.config)
    (hcnodup : cands.Nodup)
    (hcnew : ∀ p ∈ cands, ((cache.nodes.id_at p).isNone) = true)
    (hNS : ∀ x, x ∈ newSet ↔ x ∈ chunk.nodes ∨
      x ∈ List.range' cache.nodes.next cands.length)
    (hg1 : chN.pos = chunk.pos) (hg2 : chN.size_w = chunk.size_w)
    (hg3 : chN.size_h = chunk.size_h) (hg4 : chN.nodes = newSet) :
    MidWF (({ cache with nodes := (createNodes cost cands (cache.nodes, [])).1 }).setChunk idx chN) D nxt := by
  obtain ⟨c1, c2, c3, c4, c5, c6, c7⟩ :=
    createNodes_char cost cands cache.nodes [] hmw.fresh
  have hval_of_lt : idx < cache.chunks.length → cache.chunks.get? idx = some chunk := by
    intro hlt
    have hc0 := hchunk
    rw [list_getD_eq_get?] at hc0
    cases hg : cache.chunks.get? idx with
    | none => exact absurd hlt (not_lt.mpr (List.get?_eq_none.mp hg))
    | some ch0 =>
      rw [hg] at hc0
      simp only [Option.getD_some] at hc0
      rw [hc0]
  have hvalid : ∀ p ∈ cands, cache.chunks.get? idx = some chunk := by
    intro p hp
    obtain ⟨d, hd⟩ := hcnd p hp
    have hc0 := hchunk
    rw [list_getD_eq_get?] at hc0
    cases hg : cache.chunks.get? idx with
    | none =>
      rw [hg] at hc0
      simp only [Option.getD_none] at hc0
      rw [← hc0, defaultChunk_calc] at hd
      cases hd
    | some ch0 =>
      rw [hg] at hc0
      simp only [Option.getD_some] at hc0
      rw [hc0]
  have hinC : ∀ p ∈ cands, chunk.inChunk p = true := by
    intro p hp
    obtain ⟨d, hd⟩ := hcnd p hp
    obtain ⟨g1, g2, _, _, _⟩ := hmw.geo idx chunk (hvalid p hp)
    exact sideTiles_inChunk chunk d p g1 g2
      (calculate_side_nodes_mem chunk d cost cache.config p hd)
  have hidxp : ∀ p ∈ cands, cache.get_chunk_index p = idx := by
    intro p hp
    obtain ⟨_, _, _, _, g5⟩ := hmw.geo idx chunk (hvalid p hp)
    exact g5 p (hinC p hp)
  have hpin : ∀ p ∈ cands, p.1 < cache.width ∧ p.2 < cache.height := by
    intro p hp
    obtain ⟨_, _, g3, g4, _⟩ := hmw.geo idx chunk (hvalid p hp)
    have h := hinC p hp
    unfold Chunk.inChunk at h
    simp only [Bool.and_eq_true, decide_eq_true_eq] at h
    omega
  have hgetN : ∀ a na, ((createNodes cost cands (cache.nodes, [])).1).get? a = some na →
      (cache.nodes.get? a = some na ∧ a < cache.nodes.next) ∨
      (a ∈ List.range' cache.nodes.next cands.length ∧ na.edges = [] ∧
        na.pos ∈ cands) := by
    intro a na hna
    rcases createNodes_get?_char cost cands cache.nodes [] hmw.fresh a na hna with
      hold | hnew
    · exact Or.inl ⟨hold, hmw.fresh (a, na) (alookup_some_mem _ _ _ hold)⟩
    · exact Or.inr hnew
  refine ⟨?_, ?_, ?_, ?_, ?_, ?_, ?_, ?_, ?_, ?_, ?_, hmw.dlt, ?_, ?_⟩
  · intro a na b s hna hlk
    rcases hgetN a na hna with ⟨hold, _⟩ | ⟨_, hed, _⟩
    · rcases hmw.edge a na b s hold hlk with ⟨s2, hs2, hc2⟩ |
        ⟨hbD, haD, hat, nb0, hnb0, hadj, hnone⟩
      · left
        obtain ⟨nb0, hnb0, hlkb⟩ := (edgeSeg_some_iff cache.nodes b a s2).mp hs2
        have hblt : b < cache.nodes.next :=
          hmw.fresh (b, nb0) (alookup_some_mem _ _ _ hnb0)
        refine ⟨s2, (edgeSeg_some_iff ((createNodes cost cands (cache.nodes, [])).1) b a s2).mpr ⟨nb0, ?_, hlkb⟩, hc2⟩
        rw [c6 b hblt]
        exact hnb0
      · right
        have hblt : b < cache.nodes.next :=
          hmw.fresh (b, nb0) (alookup_some_mem _ _ _ hnb0)
        refine ⟨hbD, haD, hat, nb0, ?_, hadj, hnone⟩
        show ((createNodes cost cands (cache.nodes, [])).1).get? b = some nb0
        rw [c6 b hblt]
        exact hnb0
    · rw [hed] at hlk
      simp [alookup] at hlk
  · intro a na b s hna hlk
    rcases hgetN a na hna with ⟨hold, _⟩ | ⟨_, hed, _⟩
    · exact createNodes_iso cost cands cache.nodes [] hmw.fresh b
        (hmw.live a na b s hold hlk)
    · rw [hed] at hlk
      simp [alookup] at hlk
  · show ((((createNodes cost cands (cache.nodes, [])).1).arr.map Prod.fst)).Nodup
    rw [c3]
    refine List.Nodup.append hmw.keys (range'_nodup _ _) ?_
    intro a ha har
    obtain ⟨v, hv⟩ := mem_keys_exists _ _ ha
    have h1 : a < cache.nodes.next := hmw.fresh (a, v) hv
    have h2 : cache.nodes.next ≤ a := (List.mem_range'_1.mp har).1
    exact Nat.lt_irrefl a (Nat.lt_of_lt_of_le h1 h2)
  · show ((((createNodes cost cands (cache.nodes, [])).1).arr.map (fun e => e.2.pos))).Nodup
    rw [c4]
    refine List.Nodup.append hmw.posn hcnodup ?_
    intro p hp hpc
    exact id_at_isNone_not_mem cache.nodes p (hcnew p hpc) hp
  · intro e he
    exact c5 e he
  · intro a na hna
    rcases hgetN a na hna with ⟨hold, _⟩ | ⟨_, _, hpc⟩
    · exact hmw.inb a na hold
    · exact hpin na.pos hpc
  · intro a na b nb s hna hnb hlk
    rcases hgetN a na hna with ⟨holda, _⟩ | ⟨_, hed, _⟩
    · rcases hgetN b nb hnb with ⟨holdb, _⟩ | ⟨hbr, _, _⟩
      · exact hmw.loc a na b nb s holda holdb hlk
      · obtain ⟨v, hv⟩ := Option.isSome_iff_exists.mp (hmw.live a na b s holda hlk)
        have h1 : b < cache.nodes.next := hmw.fresh (b, v) (alookup_some_mem _ _ _ hv)
        exact absurd h1 (Nat.not_lt.mpr (List.mem_range'_1.mp hbr).1)
    · rw [hed] at hlk
      simp [alookup] at hlk
  · intro a na hna
    rcases hgetN a na hna with ⟨hold, _⟩ | ⟨hrng, _, hpc⟩
    · have hreg := hmw.reg a na hold
      unfold PathCache.get_chunk at hreg
      show a ∈ ((cache.setChunk idx chN).chunks.getD
        (cache.get_chunk_index na.pos) defaultChunk).nodes
      rw [setChunk_getD]
      by_cases hcase : cache.get_chunk_index na.pos = idx ∧ idx < cache.chunks.length
      · rw [if_pos hcase, hg4, hNS a]
        left
        rw [← hchunk, ← hcase.1]
        exact hreg
      · rw [if_neg hcase]
        exact hreg
    · have hval := hvalid na.pos hpc
      have hlt : idx < cache.chunks.length := by
        obtain ⟨h, _⟩ := List.get?_eq_some.mp hval
        exact h
      show a ∈ ((cache.setChunk idx chN).chunks.getD
        (cache.get_chunk_index na.pos) defaultChunk).nodes
      rw [setChunk_getD, if_pos ⟨hidxp na.pos hpc, hlt⟩, hg4, hNS a]
      right
      exact hrng
  · intro i ch hch id hid
    have hch2 : (cache.chunks.set idx chN).get? i = some ch := hch
    rw [list_get?_set] at hch2
    by_cases hcase : i = idx ∧ idx < cache.chunks.length
    · rw [if_pos hcase] at hch2
      cases hch2
      rcases (hNS id).mp (by rw [← hg4]; exact hid) with hmem | hrng
      · obtain ⟨n, hn, hni⟩ := hmw.mem idx chunk (hval_of_lt hcase.2) id hmem
        have hlt : id < cache.nodes.next := hmw.fresh (id, n) (alookup_some_mem _ _ _ hn)
        refine ⟨n, ?_, ?_⟩
        · show ((createNodes cost cands (cache.nodes, [])).1).get? id = some n
          rw [c6 id hlt]
          exact hn
        · show cache.get_chunk_index n.pos = i
          rw [hcase.1]
          exact hni
      · obtain ⟨p, hp, hnval⟩ := c7 id hrng
        refine ⟨⟨p, Int.toNat (cost p), []⟩, hnval, ?_⟩
        show cache.get_chunk_index p = i
        rw [hcase.1]
        exact hidxp p hp
    · rw [if_neg hcase] at hch2
      obtain ⟨n, hn, hni⟩ := hmw.mem i ch hch2 id hid
      have hlt : id < cache.nodes.next := hmw.fresh (id, n) (alookup_some_mem _ _ _ hn)
      refine ⟨n, ?_, hni⟩
      show ((createNodes cost cands (cache.nodes, [])).1).get? id = some n
      rw [c6 id hlt]
      exact hn
  · intro i ch hch
    have hch2 : (cache.chunks.set idx chN).get? i = some ch := hch
    rw [list_get?_set] at hch2
    by_cases hcase : i = idx ∧ idx < cache.chunks.length
    · rw [if_pos hcase] at hch2
      cases hch2
      obtain ⟨g1, g2, g3, g4, g5⟩ := hmw.geo idx chunk (hval_of_lt hcase.2)
      refine ⟨by rw [hg2]; exact g1, by rw [hg3]; exact g2, ?_, ?_, ?_⟩
      · show chN.pos.1 + chN.size_w ≤ cache.width
        rw [hg1, hg2]
        exact g3
      · show chN.pos.2 + chN.size_h ≤ cache.height
        rw [hg1, hg3]
        exact g4
      · intro p hp
        have hp0 : chunk.inChunk p = true := by
          unfold Chunk.inChunk at hp ⊢
          rw [hg1, hg2, hg3] at hp
          exact hp
        show cache.get_chunk_index p = i
        rw [hcase.1]
        exact g5 p hp0
    · rw [if_neg hcase] at hch2
      obtain ⟨g1, g2, g3, g4, g5⟩ := hmw.geo i ch hch2
      exact ⟨g1, g2, g3, g4, fun p hp => g5 p hp⟩
  · exact hmw.num
  · show nxt ≤ ((createNodes cost cands (cache.nodes, [])).1).next
    rw [c1]
    exact Nat.le_trans hmw.nxtle (Nat.le_add_right _ _)
  · exact EdgesNodup_createNodes cost cands cache.nodes [] hmw.fresh hmw.enod

theorem cands_idx_facts (cache : PathCache) (D : List NodeID) (nxt : NodeID)
    (hmw : MidWF cache D nxt) (cost : CostFn) (idx : Nat) (chunk : Chunk)
    (cands : List Point)
    (hchunk : cache.chunks.getD idx defaultChunk = chunk)
    (hcnd : ∀ p ∈ cands, ∃ d, p ∈ chunk.calculate_side_nodes d cost cache.config) :
    ∀ p ∈ cands, cache.chunks.get? idx = some chunk ∧ chunk.inChunk p = true ∧
      cache.get_chunk_index p = idx ∧ p.1 < cache.width ∧ p.2 < cache.height := by
  intro p hp
  have hval : cache.chunks.get? idx = some chunk := by
    obtain ⟨d, hd⟩ := hcnd p hp
    have hc0 := hchunk
    rw [list_getD_eq_get?] at hc0
    cases hg : cache.chunks.get? idx with
    | none =>
      rw [hg] at hc0
      simp only [Option.getD_none] at hc0
      rw [← hc0, defaultChunk_calc] at hd
      cases hd
    | some ch0 =>
      rw [hg] at hc0
      simp only [Option.getD_some] at hc0
      rw [hc0]
  obtain ⟨g1, g2, g3, g4, g5⟩ := hmw.geo idx chunk hval
  obtain ⟨d, hd⟩ := hcnd p hp
  have hin : chunk.inChunk p = true :=
    sideTiles_inChunk chunk d p g1 g2
      (calculate_side_nodes_mem chunk d cost cache.config p hd)
  refine ⟨hval, hin, g5 p hin, ?_⟩
  have h := hin
  unfold Chunk.inChunk at h
  simp only [Bool.and_eq_true, decide_eq_true_eq] at h
  omega

theorem setsmono_update (dirty : List (Point × List Point)) (c0 : PathCache)
    (D : List NodeID) (nxt : NodeID) (cache c' : PathCache) (idx : Nat) (chN : Chunk)
    (len : Nat)
    (hch : c'.chunks = cache.chunks.set idx chN)
    (hcfg : c'.config = cache.config) (hnum : c'.num_chunks = cache.num_chunks)
    (hnextle : nxt ≤ cache.nodes.next)
    (hNS : ∀ x, x ∈ chN.nodes ↔
      x ∈ (cache.chunks.getD idx defaultChunk).nodes ∨
        x ∈ List.range' cache.nodes.next len)
    (hsets : ∀ e ∈ dirty, ∀ id ∈ chunkSetAt cache e.1, id ∈ D ∨ nxt ≤ id)
    (hmono : ∀ e ∈ dirty, ∀ id ∈ chunkSetAt c0 e.1, id ∈ chunkSetAt cache e.1) :
    (∀ e ∈ dirty, ∀ id ∈ chunkSetAt c' e.1, id ∈ D ∨ nxt ≤ id) ∧
    (∀ e ∈ dirty, ∀ id ∈ chunkSetAt c0 e.1, id ∈ chunkSetAt c' e.1) := by
  have hgi : ∀ p, c'.get_chunk_index p = cache.get_chunk_index p := by
    intro p
    unfold PathCache.get_chunk_index
    rw [hcfg, hnum]
  have hset : ∀ p, chunkSetAt c' p =
      if cache.get_chunk_index p = idx ∧ idx < cache.chunks.length then chN.nodes
      else chunkSetAt cache p := by
    intro p
    unfold chunkSetAt
    rw [hch, hgi, list_getD_eq_get?, list_get?_set]
    by_cases hcase : cache.get_chunk_index p = idx ∧ idx < cache.chunks.length
    · rw [if_pos hcase, if_pos hcase]
      rfl
    · rw [if_neg hcase, if_neg hcase, ← list_getD_eq_get?]
  constructor
  · intro e he id hid
    rw [hset] at hid
    by_cases hcase : cache.get_chunk_index e.1 = idx ∧ idx < cache.chunks.length
    · rw [if_pos hcase] at hid
      rcases (hNS id).mp hid with hold | hrng
      · refine hsets e he id ?_
        unfold chunkSetAt
        rw [hcase.1]
        exact hold
      · exact Or.inr (Nat.le_trans hnextle (List.mem_range'_1.mp hrng).1)
    · rw [if_neg hcase] at hid
      exact hsets e he id hid
  · intro e he id hid
    rw [hset]
    by_cases hcase : cache.get_chunk_index e.1 = idx ∧ idx < cache.chunks.length
    · rw [if_pos hcase]
      rw [hNS id]
      left
      have h2 := hmono e he id hid
      unfold chunkSetAt at h2
      rw [hcase.1] at h2
      exact h2
    · rw [if_neg hcase]
      exact hmono e he id hid

theorem recreateCoreD (dirty : List (Point × List Point)) (c0 : PathCache)
    (D : List NodeID) (nxt : NodeID) (cache : PathCache) (changed : List NodeID)
    (cost : CostFn) (idx : Nat) (chunk : Chunk) (cands : List Point)
    (h : StepInv dirty c0 D nxt (cache, changed))
    (hchunk : cache.chunks.getD idx defaultChunk = chunk)
    (hcnd : ∀ p ∈ cands, ∃ d, p ∈ chunk.calculate_side_nodes d cost cache.config)
    (hcnodup : cands.Nodup)
    (hcnew : ∀ p ∈ cands, ((cache.nodes.id_at p).isNone) = true) :
    StepInv dirty c0 D nxt
      (({ cache with nodes := (createNodes cost cands (cache.nodes, [])).1 }).setChunk idx
        { chunk with nodes := ((createNodes cost cands (cache.nodes, [])).2).foldl (fun ns id => insertNodeSet id ns) chunk.nodes },
       changed) := by
  obtain ⟨c1, c2, c3, c4, c5, c6, c7⟩ :=
    createNodes_char cost cands cache.nodes [] h.mw.fresh
  simp only [List.nil_append] at c2
  have hNS : ∀ x, x ∈ ((createNodes cost cands (cache.nodes, [])).2).foldl (fun ns id => insertNodeSet id ns) chunk.nodes ↔
      x ∈ chunk.nodes ∨ x ∈ List.range' cache.nodes.next cands.length := by
    intro x
    rw [foldl_insertNodeSet_mem, c2]
  refine ⟨?_, ?_, ?_, ?_⟩
  · exact recreateMid_MidWF cache D nxt h.mw cost idx chunk
      { chunk with nodes := ((createNodes cost cands (cache.nodes, [])).2).foldl (fun ns id => insertNodeSet id ns) chunk.nodes }
      cands
      (((createNodes cost cands (cache.nodes, [])).2).foldl (fun ns id => insertNodeSet id ns) chunk.nodes)
      hchunk hcnd hcnodup hcnew hNS rfl rfl rfl rfl
  · intro x hx
    obtain ⟨g1, g2⟩ := h.chg x hx
    exact ⟨g1, createNodes_iso cost cands cache.nodes [] h.mw.fresh x g2⟩
  · exact (setsmono_update dirty c0 D nxt cache
      (({ cache with nodes := (createNodes cost cands (cache.nodes, [])).1 }).setChunk idx { chunk with nodes := ((createNodes cost cands (cache.nodes, [])).2).foldl (fun ns id => insertNodeSet id ns) chunk.nodes })
      idx
      { chunk with nodes := ((createNodes cost cands (cache.nodes, [])).2).foldl (fun ns id => insertNodeSet id ns) chunk.nodes }
      cands.length rfl rfl rfl
      h.mw.nxtle (by rw [hchunk]; exact hNS) h.sets h.mono).1
  · exact (setsmono_update dirty c0 D nxt cache
      (({ cache with nodes := (createNodes cost cands (cache.nodes, [])).1 }).setChunk idx { chunk with nodes := ((createNodes cost cands (cache.nodes, [])).2).foldl (fun ns id => insertNodeSet id ns) chunk.nodes })
      idx
      { chunk with nodes := ((createNodes cost cands (cache.nodes, [])).2).foldl (fun ns id => insertNodeSet id ns) chunk.nodes }
      cands.length rfl rfl rfl
      h.mw.nxtle (by rw [hchunk]; exact hNS) h.sets h.mono).2

theorem recreateCoreND (dirty : List (Point × List Point)) (c0 : PathCache)
    (D : List NodeID) (nxt : NodeID) (cache : PathCache) (changed : List NodeID)
    (cost : CostFn) (idx : Nat) (chunk : Chunk) (cands : List Point)
    (h : StepInv dirty c0 D nxt (cache, changed))
    (hchunk : cache.chunks.getD idx defaultChunk = chunk)
    (hcnd : ∀ p ∈ cands, ∃ d, p ∈ chunk.calculate_side_nodes d cost cache.config)
    (hcnodup : cands.Nodup)
    (hcnew : ∀ p ∈ cands, ((cache.nodes.id_at p).isNone) = true) :
    StepInv dirty c0 D nxt
      (({ cache with nodes := (chunk.add_nodes (createNodes cost cands (cache.nodes, [])).2 cost (createNodes cost cands (cache.nodes, [])).1 cache.config).2 }).setChunk idx (chunk.add_nodes (createNodes cost cands (cache.nodes, [])).2 cost (createNodes cost cands (cache.nodes, [])).1 cache.config).1,
       ((createNodes cost cands (cache.nodes, [])).2).foldl (fun l id => insertNodeSet id l) changed) := by
  obtain ⟨c1, c2, c3, c4, c5, c6, c7⟩ :=
    createNodes_char cost cands cache.nodes [] h.mw.fresh
  simp only [List.nil_append] at c2
  obtain ⟨L, hL1, hLp, hq1, hq2, hq3, hq4, hq5⟩ :=
    add_nodes_triples chunk cost ((createNodes cost cands (cache.nodes, [])).1) cache.config ((createNodes cost cands (cache.nodes, [])).2) chunk ((createNodes cost cands (cache.nodes, [])).1)
      rfl rfl rfl rfl (fun a => rfl)
  have hNS : ∀ x, x ∈ ((chunk.add_nodes (createNodes cost cands (cache.nodes, [])).2 cost (createNodes cost cands (cache.nodes, [])).1 cache.config).1).nodes ↔
      x ∈ chunk.nodes ∨ x ∈ List.range' cache.nodes.next cands.length := by
    intro x
    rw [hq5 x, c2]
  have hmid := recreateMid_MidWF cache D nxt h.mw cost idx chunk ((chunk.add_nodes (createNodes cost cands (cache.nodes, [])).2 cost (createNodes cost cands (cache.nodes, [])).1 cache.config).1) cands
    (((chunk.add_nodes (createNodes cost cands (cache.nodes, [])).2 cost (createNodes cost cands (cache.nodes, [])).1 cache.config).1).nodes) hchunk hcnd hcnodup hcnew hNS hq1 hq2 hq3 rfl
  have hfacts := cands_idx_facts cache D nxt h.mw cost idx chunk cands hchunk hcnd
  have hidxof : ∀ x ∈ ((createNodes cost cands (cache.nodes, [])).2), ∀ n, ((createNodes cost cands (cache.nodes, [])).1).get? x = some n →
      n.pos ∈ cands ∧ cache.get_chunk_index n.pos = idx := by
    intro x hx n hn
    rw [c2] at hx
    obtain ⟨p, hp, hval⟩ := c7 x hx
    rw [hn] at hval
    cases hval
    exact ⟨hp, (hfacts p hp).2.2.1⟩
  have hidxold : cache.chunks.get? idx = some chunk →
      ∀ x ∈ chunk.nodes, ∀ n, ((createNodes cost cands (cache.nodes, [])).1).get? x = some n →
      cache.nodes.get? x = some n ∧ cache.get_chunk_index n.pos = idx := by
    intro hval x hx n hn
    obtain ⟨n0, hn0, hni⟩ := h.mw.mem idx chunk hval x hx
    have hlt : x < cache.nodes.next := h.mw.fresh (x, n0) (alookup_some_mem _ _ _ hn0)
    rw [c6 x hlt] at hn
    have hn2 := hn
    rw [hn0] at hn2
    cases hn2
    exact ⟨hn, hni⟩
  have hLcond : ∀ t ∈ L, t.1 ≠ t.2.1 ∧ ((((createNodes cost cands (cache.nodes, [])).1).get? t.1).isSome) = true ∧
      ((((createNodes cost cands (cache.nodes, [])).1).get? t.2.1).isSome) = true ∧
      ∀ n m, ((createNodes cost cands (cache.nodes, [])).1).get? t.1 = some n → ((createNodes cost cands (cache.nodes, [])).1).get? t.2.1 = some m →
        (cache.same_chunk n.pos m.pos = true ∨ m.pos ∈ Nbh.allNeighbors n.pos) := by
    intro t ht
    obtain ⟨g1, g2, g3, g4, g5⟩ := hLp t ht
    refine ⟨g5, g3, g4, ?_⟩
    intro n m hn hm
    left
    have hg1r := g1
    rw [c2] at hg1r
    obtain ⟨p0, hp0, _⟩ := c7 t.1 hg1r
    have hval : cache.chunks.get? idx = some chunk := (hfacts p0 hp0).1
    obtain ⟨hpc1, hidx1⟩ := hidxof t.1 g1 n hn
    have hidx2 : cache.get_chunk_index m.pos = idx := by
      rcases g2 with g2 | g2
      · exact (hidxold hval t.2.1 g2 m hm).2
      · exact (hidxof t.2.1 g2 m hm).2
    have hb1 : n.pos.1 < cache.width := ((hfacts n.pos hpc1).2.2.2).1
    have hb2 : m.pos.1 < cache.width := by
      rcases g2 with g2 | g2
      · exact (h.mw.inb t.2.1 m (hidxold hval t.2.1 g2 m hm).1).1
      · exact ((hfacts m.pos (hidxof t.2.1 g2 m hm).1).2.2.2).1
    exact same_chunk_of_index_eq_num cache h.mw.num n.pos m.pos hb1 hb2
      (hidx1.trans hidx2.symm)
  have hmw2 := MidWF_foldl_add_edge
    (({ cache with nodes := (createNodes cost cands (cache.nodes, [])).1 }).setChunk idx (chunk.add_nodes (createNodes cost cands (cache.nodes, [])).2 cost (createNodes cost cands (cache.nodes, [])).1 cache.config).1) D nxt hmid L hLcond
  refine ⟨?_, ?_, ?_, ?_⟩
  · show MidWF (({ cache with nodes := (chunk.add_nodes (createNodes cost cands (cache.nodes, [])).2 cost (createNodes cost cands (cache.nodes, [])).1 cache.config).2 }).setChunk idx (chunk.add_nodes (createNodes cost cands (cache.nodes, [])).2 cost (createNodes cost cands (cache.nodes, [])).1 cache.config).1) D nxt
    rw [hL1]
    exact hmw2
  · intro x hx
    rw [foldl_insertNodeSet_mem] at hx
    rcases hx with hx | hx
    · obtain ⟨g1, g2⟩ := h.chg x hx
      refine ⟨g1, ?_⟩
      show ((((chunk.add_nodes (createNodes cost cands (cache.nodes, [])).2 cost (createNodes cost cands (cache.nodes, [])).1 cache.config).2).get? x).isSome) = true
      rw [hL1, foldl_add_edge_isSome]
      exact createNodes_iso cost cands cache.nodes [] h.mw.fresh x g2
    · have hxr := hx
      rw [c2] at hxr
      refine ⟨Or.inr (Nat.le_trans h.mw.nxtle (List.mem_range'_1.mp hxr).1), ?_⟩
      show ((((chunk.add_nodes (createNodes cost cands (cache.nodes, [])).2 cost (createNodes cost cands (cache.nodes, [])).1 cache.config).2).get? x).isSome) = true
      rw [hL1, foldl_add_edge_isSome]
      obtain ⟨p, hp, hv⟩ := c7 x hxr
      rw [hv]
      rfl
  · exact (setsmono_update dirty c0 D nxt cache
      (({ cache with nodes := (chunk.add_nodes (createNodes cost cands (cache.nodes, [])).2 cost (createNodes cost cands (cache.nodes, [])).1 cache.config).2 }).setChunk idx (chunk.add_nodes (createNodes cost cands (cache.nodes, [])).2 cost (createNodes cost cands (cache.nodes, [])).1 cache.config).1)
      idx ((chunk.add_nodes (createNodes cost cands (cache.nodes, [])).2 cost (createNodes cost cands (cache.nodes, [])).1 cache.config).1) cands.length rfl rfl rfl
      h.mw.nxtle (by rw [hchunk]; exact hNS) h.sets h.mono).1
  · exact (setsmono_update dirty c0 D nxt cache
      (({ cache with nodes := (chunk.add_nodes (createNodes cost cands (cache.nodes, [])).2 cost (createNodes cost cands (cache.nodes, [])).1 cache.config).2 }).setChunk idx (chunk.add_nodes (createNodes cost cands (cache.nodes, [])).2 cost (createNodes cost cands (cache.nodes, [])).1 cache.config).1)
      idx ((chunk.add_nodes (createNodes cost cands (cache.nodes, [])).2 cost (createNodes cost cands (cache.nodes, [])).1 cache.config).1) cands.length rfl rfl rfl
      h.mw.nxtle (by rw [hchunk]; exact hNS) h.sets h.mono).2

theorem renewCands_mem (chunk : Chunk) (cost : CostFn) (cfg : PathCacheConfig)
    (sides : List Renew) :
    ∀ (ds : List Dir) (acc : List Point) (p : Point),
      p ∈ ds.foldl (fun acc d => if renewGet sides d ≠ Renew.no then
        List.foldl (fun a q => insertPointSet q a) acc
          (chunk.calculate_side_nodes d cost cfg)
        else acc) acc →
      p ∈ acc ∨ ∃ d, p ∈ chunk.calculate_side_nodes d cost cfg := by
  intro ds
  induction ds with
  | nil => intro acc p hp; exact Or.inl hp
  | cons d rest ih =>
    intro acc p hp
    simp only [List.foldl_cons] at hp
    by_cases hr : renewGet sides d ≠ Renew.no
    · rw [if_pos hr] at hp
      rcases ih _ p hp with h2 | h2
      · rcases foldl_insertPointSet_mem _ acc p h2 with h3 | h3
        · exact Or.inl h3
        · exact Or.inr ⟨d, h3⟩
      · exact Or.inr h2
    · rw [if_neg hr] at hp
      exact ih acc p hp

theorem renewCands_nodup (chunk : Chunk) (cost : CostFn) (cfg : PathCacheConfig)
    (sides : List Renew) :
    ∀ (ds : List Dir) (acc : List Point), acc.Nodup →
      (ds.foldl (fun acc d => if renewGet sides d ≠ Renew.no then
        List.foldl (fun a q => insertPointSet q a) acc
          (chunk.calculate_side_nodes d cost cfg)
        else acc) acc).Nodup := by
  intro ds
  induction ds with
  | nil => intro acc h; exact h
  | cons d rest ih =>
    intro acc h
    simp only [List.foldl_cons]
    by_cases hr : renewGet sides d ≠ Renew.no
    · rw [if_pos hr]
      exact ih _ (foldl_insertPointSet_nodup _ acc h)
    · rw [if_neg hr]
      exact ih acc h

theorem recreateStep_inv (dirty : List (Point × List Point)) (c0 : PathCache)
    (D : List NodeID) (nxt : NodeID) (cost : CostFn)
    (st : PathCache × List NodeID) (entry : Point × List Renew)
    (h : StepInv dirty c0 D nxt st) :
    StepInv dirty c0 D nxt (PathCache.recreateStep dirty cost st entry) := by
  obtain ⟨cache, changed⟩ := st
  have hcnd : ∀ p ∈ (List.filter (fun p => (cache.nodes.id_at p).isNone) (Dir.all.foldl (fun acc d => if renewGet entry.2 d ≠ Renew.no then List.foldl (fun a p => insertPointSet p a) acc ((cache.chunks.getD (cache.get_chunk_index entry.1) defaultChunk).calculate_side_nodes d cost cache.config) else acc) [])), ∃ d, p ∈ (cache.chunks.getD (cache.get_chunk_index entry.1) defaultChunk).calculate_side_nodes d cost cache.config := by
    intro p hp
    have h2 := (List.mem_filter.mp hp).1
    rcases renewCands_mem (cache.chunks.getD (cache.get_chunk_index entry.1) defaultChunk) cost cache.config entry.2 Dir.all [] p h2 with h3 | h3
    · cases h3
    · exact h3
  have hcnodup : ((List.filter (fun p => (cache.nodes.id_at p).isNone) (Dir.all.foldl (fun acc d => if renewGet entry.2 d ≠ Renew.no then List.foldl (fun a p => insertPointSet p a) acc ((cache.chunks.getD (cache.get_chunk_index entry.1) defaultChunk).calculate_side_nodes d cost cache.config) else acc) []))).Nodup :=
    List.Nodup.filter _
      (renewCands_nodup (cache.chunks.getD (cache.get_chunk_index entry.1) defaultChunk) cost cache.config entry.2 Dir.all [] (by simp))
  have hcnew : ∀ p ∈ (List.filter (fun p => (cache.nodes.id_at p).isNone) (Dir.all.foldl (fun acc d => if renewGet entry.2 d ≠ Renew.no then List.foldl (fun a p => insertPointSet p a) acc ((cache.chunks.getD (cache.get_chunk_index entry.1) defaultChunk).calculate_side_nodes d cost cache.config) else acc) [])), ((cache.nodes.id_at p).isNone) = true :=
    fun p hp => (List.mem_filter.mp hp).2
  unfold PathCache.recreateStep
  dsimp only
  split
  · exact h
  · split
    · exact recreateCoreND dirty c0 D nxt cache changed cost _ _ _ h rfl hcnd
        hcnodup hcnew
    · exact recreateCoreD dirty c0 D nxt cache changed cost _ _ _ h rfl hcnd
        hcnodup hcnew

theorem recreateFold_inv (dirty : List (Point × List Point)) (c0 : PathCache)
    (D : List NodeID) (nxt : NodeID) (cost : CostFn) :
    ∀ (renew : List (Point × List Renew)) (st : PathCache × List NodeID),
      StepInv dirty c0 D nxt st →
      StepInv dirty c0 D nxt (renew.foldl (PathCache.recreateStep dirty cost) st) := by
  intro renew
  induction renew with
  | nil => intro st h; exact h
  | cons e rest ih =>
    intro st h
    simp only [List.foldl_cons]
    exact ih _ (recreateStep_inv dirty c0 D nxt cost st e h)

theorem dirtyStep_inv (dirty : List (Point × List Point)) (c0 : PathCache)
    (D : List NodeID) (nxt : NodeID) (cost : CostFn)
    (st : PathCache × List NodeID) (entry : Point × List Point)
    (he : entry ∈ dirty) (h : StepInv dirty c0 D nxt st) :
    StepInv dirty c0 D nxt (PathCache.dirtyStep cost st entry) ∧
    (∀ id ∈ chunkSetAt st.1 entry.1, id ∈ (PathCache.dirtyStep cost st entry).2) ∧
    (∀ x ∈ st.2, x ∈ (PathCache.dirtyStep cost st entry).2) := by
  obtain ⟨cache, changed⟩ := st
  obtain ⟨L, hL1, hLp, hq1, hq2, hq3, hq4, hq5⟩ :=
    add_nodes_triples { (cache.chunks.getD (cache.get_chunk_index entry.1) defaultChunk) with nodes := ([] : List NodeID) } cost cache.nodes
      cache.config ((cache.chunks.getD (cache.get_chunk_index entry.1) defaultChunk).nodes) { (cache.chunks.getD (cache.get_chunk_index entry.1) defaultChunk) with nodes := ([] : List NodeID) } cache.nodes
      rfl rfl rfl rfl (fun a => rfl)
  have hval_of_mem : ∀ x ∈ (cache.chunks.getD (cache.get_chunk_index entry.1) defaultChunk).nodes,
      cache.chunks.get? (cache.get_chunk_index entry.1) = some (cache.chunks.getD (cache.get_chunk_index entry.1) defaultChunk) := by
    intro x hx
    have hgd := list_getD_eq_get? cache.chunks (cache.get_chunk_index entry.1) defaultChunk
    cases hg : cache.chunks.get? (cache.get_chunk_index entry.1) with
    | none =>
      rw [hg] at hgd
      rw [hgd] at hx
      simp [defaultChunk] at hx
    | some ch0 =>
      rw [hg] at hgd
      simp only [Option.getD_some] at hgd
      rw [hgd]
  have hids_live : ∀ x ∈ (cache.chunks.getD (cache.get_chunk_index entry.1) defaultChunk).nodes, ∃ n, cache.nodes.get? x = some n ∧
      cache.get_chunk_index n.pos = cache.get_chunk_index entry.1 := by
    intro x hx
    exact h.mw.mem (cache.get_chunk_index entry.1) (cache.chunks.getD (cache.get_chunk_index entry.1) defaultChunk) (hval_of_mem x hx) x hx
  have hNS : ∀ x, x ∈ (({ (cache.chunks.getD (cache.get_chunk_index entry.1) defaultChunk) with nodes := ([] : List NodeID) }.add_nodes (cache.chunks.getD (cache.get_chunk_index entry.1) defaultChunk).nodes cost cache.nodes cache.config).1).nodes ↔
      x ∈ (cache.chunks.getD (cache.get_chunk_index entry.1) defaultChunk).nodes ∨ x ∈ List.range' cache.nodes.next 0 := by
    intro x
    rw [hq5 x]
    constructor
    · rintro (hx | hx)
      · exact absurd hx (List.not_mem_nil x)
      · exact Or.inl hx
    · rintro (hx | hx)
      · exact Or.inr hx
      · exact absurd hx (List.not_mem_nil x)
  have hmidA := recreateMid_MidWF cache D nxt h.mw cost (cache.get_chunk_index entry.1)
    (cache.chunks.getD (cache.get_chunk_index entry.1) defaultChunk) (({ (cache.chunks.getD (cache.get_chunk_index entry.1) defaultChunk) with nodes := ([] : List NodeID) }.add_nodes (cache.chunks.getD (cache.get_chunk_index entry.1) defaultChunk).nodes cost cache.nodes cache.config).1) [] ((({ (cache.chunks.getD (cache.get_chunk_index entry.1) defaultChunk) with nodes := ([] : List NodeID) }.add_nodes (cache.chunks.getD (cache.get_chunk_index entry.1) defaultChunk).nodes cost cache.nodes cache.config).1).nodes) rfl
    (fun p hp => absurd hp (List.not_mem_nil p)) List.nodup_nil
    (fun p hp => absurd hp (List.not_mem_nil p)) hNS hq1 hq2 hq3 rfl
  have hLcond : ∀ t ∈ L, t.1 ≠ t.2.1 ∧ ((cache.nodes.get? t.1).isSome) = true ∧
      ((cache.nodes.get? t.2.1).isSome) = true ∧
      ∀ n m, cache.nodes.get? t.1 = some n → cache.nodes.get? t.2.1 = some m →
        (cache.same_chunk n.pos m.pos = true ∨ m.pos ∈ Nbh.allNeighbors n.pos) := by
    intro t ht
    obtain ⟨g1, g2, g3, g4, g5⟩ := hLp t ht
    have g2' : t.2.1 ∈ (cache.chunks.getD (cache.get_chunk_index entry.1) defaultChunk).nodes := by
      rcases g2 with g2 | g2
      · exact absurd g2 (List.not_mem_nil _)
      · exact g2
    refine ⟨g5, g3, g4, ?_⟩
    intro n m hn hm
    left
    obtain ⟨n0, hn0, hidx0⟩ := hids_live t.1 g1
    obtain ⟨m0, hm0, hidx1⟩ := hids_live t.2.1 g2'
    rw [hn] at hn0
    cases hn0
    rw [hm] at hm0
    cases hm0
    exact same_chunk_of_index_eq_num cache h.mw.num n.pos m.pos
      (h.mw.inb t.1 n hn).1 (h.mw.inb t.2.1 m hm).1 (hidx0.trans hidx1.symm)
  have hmw2 := MidWF_foldl_add_edge
    (({ cache with nodes := cache.nodes }).setChunk (cache.get_chunk_index entry.1)
      (({ (cache.chunks.getD (cache.get_chunk_index entry.1) defaultChunk) with nodes := ([] : List NodeID) }.add_nodes (cache.chunks.getD (cache.get_chunk_index entry.1) defaultChunk).nodes cost cache.nodes cache.config).1)) D nxt hmidA L hLcond
  unfold PathCache.dirtyStep
  dsimp only
  refine ⟨⟨?_, ?_, ?_, ?_⟩, ?_, ?_⟩
  · show MidWF (({ cache with nodes := ({ (cache.chunks.getD (cache.get_chunk_index entry.1) defaultChunk) with nodes := ([] : List NodeID) }.add_nodes (cache.chunks.getD (cache.get_chunk_index entry.1) defaultChunk).nodes cost cache.nodes cache.config).2 }).setChunk
      (cache.get_chunk_index entry.1) (({ (cache.chunks.getD (cache.get_chunk_index entry.1) defaultChunk) with nodes := ([] : List NodeID) }.add_nodes (cache.chunks.getD (cache.get_chunk_index entry.1) defaultChunk).nodes cost cache.nodes cache.config).1)) D nxt
    rw [hL1]
    exact hmw2
  · intro x hx
    rw [foldl_insertNodeSet_mem] at hx
    rcases hx with hx | hx
    · obtain ⟨g1, g2⟩ := h.chg x hx
      refine ⟨g1, ?_⟩
      show (((({ (cache.chunks.getD (cache.get_chunk_index entry.1) defaultChunk) with nodes := ([] : List NodeID) }.add_nodes (cache.chunks.getD (cache.get_chunk_index entry.1) defaultChunk).nodes cost cache.nodes cache.config).2).get? x).isSome) = true
      rw [hL1, foldl_add_edge_isSome]
      exact g2
    · refine ⟨h.sets entry he x hx, ?_⟩
      obtain ⟨n, hn, _⟩ := hids_live x hx
      show (((({ (cache.chunks.getD (cache.get_chunk_index entry.1) defaultChunk) with nodes := ([] : List NodeID) }.add_nodes (cache.chunks.getD (cache.get_chunk_index entry.1) defaultChunk).nodes cost cache.nodes cache.config).2).get? x).isSome) = true
      rw [hL1, foldl_add_edge_isSome, hn]
      rfl
  · exact (setsmono_update dirty c0 D nxt cache
      (({ cache with nodes := ({ (cache.chunks.getD (cache.get_chunk_index entry.1) defaultChunk) with nodes := ([] : List NodeID) }.add_nodes (cache.chunks.getD (cache.get_chunk_index entry.1) defaultChunk).nodes cost cache.nodes cache.config).2 }).setChunk (cache.get_chunk_index entry.1) (({ (cache.chunks.getD (cache.get_chunk_index entry.1) defaultChunk) with nodes := ([] : List NodeID) }.add_nodes (cache.chunks.getD (cache.get_chunk_index entry.1) defaultChunk).nodes cost cache.nodes cache.config).1))
      (cache.get_chunk_index entry.1) (({ (cache.chunks.getD (cache.get_chunk_index entry.1) defaultChunk) with nodes := ([] : List NodeID) }.add_nodes (cache.chunks.getD (cache.get_chunk_index entry.1) defaultChunk).nodes cost cache.nodes cache.config).1) 0 rfl rfl rfl
      h.mw.nxtle hNS h.sets h.mono).1
  · exact (setsmono_update dirty c0 D nxt cache
      (({ cache with nodes := ({ (cache.chunks.getD (cache.get_chunk_index entry.1) defaultChunk) with nodes := ([] : List NodeID) }.add_nodes (cache.chunks.getD (cache.get_chunk_index entry.1) defaultChunk).nodes cost cache.nodes cache.config).2 }).setChunk (cache.get_chunk_index entry.1) (({ (cache.chunks.getD (cache.get_chunk_index entry.1) defaultChunk) with nodes := ([] : List NodeID) }.add_nodes (cache.chunks.getD (cache.get_chunk_index entry.1) defaultChunk).nodes cost cache.nodes cache.config).1))
      (cache.get_chunk_index entry.1) (({ (cache.chunks.getD (cache.get_chunk_index entry.1) defaultChunk) with nodes := ([] : List NodeID) }.add_nodes (cache.chunks.getD (cache.get_chunk_index entry.1) defaultChunk).nodes cost cache.nodes cache.config).1) 0 rfl rfl rfl
      h.mw.nxtle hNS h.sets h.mono).2
  · intro id hid
    rw [foldl_insertNodeSet_mem]
    exact Or.inr hid
  · intro x hx
    rw [foldl_insertNodeSet_mem]
    exact Or.inl hx

theorem dirtyFold_inv (dirty : List (Point × List Point)) (c0 : PathCache)
    (D : List NodeID) (nxt : NodeID) (cost : CostFn) :
    ∀ (es : List (Point × List Point)) (st : PathCache × List NodeID),
      (∀ e ∈ es, e ∈ dirty) → StepInv dirty c0 D nxt st →
      StepInv dirty c0 D nxt (es.foldl (PathCache.dirtyStep cost) st) ∧
      (∀ e ∈ es, ∀ id ∈ chunkSetAt c0 e.1,
        id ∈ (es.foldl (PathCache.dirtyStep cost) st).2) ∧
      (∀ x ∈ st.2, x ∈ (es.foldl (PathCache.dirtyStep cost) st).2) := by
  intro es
  induction es with
  | nil => intro st _ h; exact ⟨h, fun e he => absurd he (List.not_mem_nil e), fun x hx => hx⟩
  | cons e rest ih =>
    intro st hes h
    simp only [List.foldl_cons]
    obtain ⟨h1, h2, h3⟩ := dirtyStep_inv dirty c0 D nxt cost st e
      (hes e (List.mem_cons_self _ _)) h
    obtain ⟨H1, H2, H3⟩ := ih (PathCache.dirtyStep cost st e)
      (fun u hu => hes u (List.mem_cons_of_mem _ hu)) h1
    refine ⟨H1, ?_, ?_⟩
    · intro u hu id hid
      rcases List.mem_cons.mp hu with hu1 | hu1
      · subst hu1
        exact H3 id (h2 id (h.mono u (hes u (List.mem_cons_self _ _)) id hid))
      · exact H2 u hu1 id hid
    · intro x hx
      exact H3 x (h3 x hx)

theorem resolvePairs_ok (c : PathCache) (ids : List NodeID)
    (hlive : ∀ id ∈ ids, ((c.nodes.get? id).isSome) = true) :
    ∃ pairs, c.resolvePairs ids = .ok pairs ∧ pairs.map Prod.fst = ids ∧
      ∀ e ∈ pairs, c.nodes.get? e.1 = some e.2 := by
  have haux : ∀ (l : List NodeID), (∀ id ∈ l, ((c.nodes.get? id).isSome) = true) →
      ∃ pairs, l.mapM (fun id => (c.nodes.get? id).map (fun n => (id, n))) = some pairs ∧
        pairs.map Prod.fst = l ∧ ∀ e ∈ pairs, c.nodes.get? e.1 = some e.2 := by
    intro l
    induction l with
    | nil => intro _; exact ⟨[], rfl, rfl, fun e he => absurd he (List.not_mem_nil e)⟩
    | cons id rest ihl =>
      intro hl
      obtain ⟨n, hn⟩ := Option.isSome_iff_exists.mp (hl id (List.mem_cons_self _ _))
      obtain ⟨pairs, hp1, hp2, hp3⟩ := ihl (fun u hu => hl u (List.mem_cons_of_mem _ hu))
      refine ⟨(id, n) :: pairs, ?_, ?_, ?_⟩
      · rw [List.mapM_cons, hn, hp1]
        rfl
      · simp only [List.map_cons, hp2]
      · intro e he
        rcases List.mem_cons.mp he with he1 | he1
        · rw [he1]
          exact hn
        · exact hp3 e he1
  obtain ⟨pairs, hp1, hp2, hp3⟩ := haux ids hlive
  refine ⟨pairs, ?_, hp2, hp3⟩
  unfold PathCache.resolvePairs
  rw [hp1]

theorem tiles_changed_WF (c : PathCache) (hwf : CacheWF c) (hen : EdgesNodup c.nodes)
    (tiles : List Point) (cost : CostFn) (c' : PathCache)
    (h : c.tiles_changed tiles cost = .ok c') :
    CacheWF c' ∧ EdgesNodup c'.nodes := by
  simp only [PathCache.tiles_changed] at h
  split at h
  · exact Except.noConfusion h
  · rename_i renew hbr
    obtain ⟨hwf1, hen1⟩ := foldl_removeStep_WF renew c hwf hen
    have hmid2 := clearFold_MidWF (renew.foldl PathCache.removeStep c) hwf1 hen1 (c.buildDirty tiles)
    obtain ⟨hN, hC, hW, hH, hCfg, hNum⟩ := clearFold_nodes (c.buildDirty tiles) (renew.foldl PathCache.removeStep c)
    have hgi2 : ∀ p, (((c.buildDirty tiles).foldl PathCache.clearStep (renew.foldl PathCache.removeStep c))).get_chunk_index p = ((renew.foldl PathCache.removeStep c)).get_chunk_index p := by
      intro p
      unfold PathCache.get_chunk_index
      rw [hCfg, hNum]
    have hbase : StepInv (c.buildDirty tiles) ((c.buildDirty tiles).foldl PathCache.clearStep (renew.foldl PathCache.removeStep c)) ((c.buildDirty tiles).flatMap (fun e => (((renew.foldl PathCache.removeStep c)).chunks.getD (((renew.foldl PathCache.removeStep c)).get_chunk_index e.1) defaultChunk).nodes)) ((renew.foldl PathCache.removeStep c)).nodes.next (((c.buildDirty tiles).foldl PathCache.clearStep (renew.foldl PathCache.removeStep c)), []) := by
      refine ⟨hmid2, ?_, ?_, ?_⟩
      · intro x hx
        exact absurd hx (List.not_mem_nil x)
      · intro e he id hid
        left
        refine List.mem_flatMap.mpr ⟨e, he, ?_⟩
        unfold chunkSetAt at hid
        rw [hgi2, hC] at hid
        exact hid
      · intro e he id hid
        exact hid
    have hst3 := recreateFold_inv (c.buildDirty tiles) ((c.buildDirty tiles).foldl PathCache.clearStep (renew.foldl PathCache.removeStep c)) ((c.buildDirty tiles).flatMap (fun e => (((renew.foldl PathCache.removeStep c)).chunks.getD (((renew.foldl PathCache.removeStep c)).get_chunk_index e.1) defaultChunk).nodes)) ((renew.foldl PathCache.removeStep c)).nodes.next cost renew
      (((c.buildDirty tiles).foldl PathCache.clearStep (renew.foldl PathCache.removeStep c)), []) hbase
    obtain ⟨hst4, hcov, _⟩ := dirtyFold_inv (c.buildDirty tiles) ((c.buildDirty tiles).foldl PathCache.clearStep (renew.foldl PathCache.removeStep c)) ((c.buildDirty tiles).flatMap (fun e => (((renew.foldl PathCache.removeStep c)).chunks.getD (((renew.foldl PathCache.removeStep c)).get_chunk_index e.1) defaultChunk).nodes)) ((renew.foldl PathCache.removeStep c)).nodes.next cost (c.buildDirty tiles)
      (renew.foldl (PathCache.recreateStep (c.buildDirty tiles) cost) (((c.buildDirty tiles).foldl PathCache.clearStep (renew.foldl PathCache.removeStep c)), [])) (fun e he => he) hst3
    obtain ⟨pairs, hok, hmap, hget⟩ := resolvePairs_ok (((c.buildDirty tiles).foldl (PathCache.dirtyStep cost) (renew.foldl (PathCache.recreateStep (c.buildDirty tiles) cost) (((c.buildDirty tiles).foldl PathCache.clearStep (renew.foldl PathCache.removeStep c)), [])))).1 (((c.buildDirty tiles).foldl (PathCache.dirtyStep cost) (renew.foldl (PathCache.recreateStep (c.buildDirty tiles) cost) (((c.buildDirty tiles).foldl PathCache.clearStep (renew.foldl PathCache.removeStep c)), [])))).2
      (fun id hid => (hst4.chg id hid).2)
    unfold PathCache.connectSome at h
    rw [hok] at h
    have hc' : (((c.buildDirty tiles).foldl (PathCache.dirtyStep cost) (renew.foldl (PathCache.recreateStep (c.buildDirty tiles) cost) (((c.buildDirty tiles).foldl PathCache.clearStep (renew.foldl PathCache.removeStep c)), [])))).1.connectPairs pairs = c' := except_map_ok_inv h
    have hEdgeOK : ∀ a na b s, (((c.buildDirty tiles).foldl (PathCache.dirtyStep cost) (renew.foldl (PathCache.recreateStep (c.buildDirty tiles) cost) (((c.buildDirty tiles).foldl PathCache.clearStep (renew.foldl PathCache.removeStep c)), [])))).1.nodes.get? a = some na →
        alookup b na.edges = some s →
        (∃ s', (((c.buildDirty tiles).foldl (PathCache.dirtyStep cost) (renew.foldl (PathCache.recreateStep (c.buildDirty tiles) cost) (((c.buildDirty tiles).foldl PathCache.clearStep (renew.foldl PathCache.removeStep c)), [])))).1.nodes.edgeSeg b a = some s' ∧ s'.cost = s.cost) ∨
        (b ∈ pairs.map Prod.fst ∧ a ∉ pairs.map Prod.fst ∧
          ∃ nb, (((c.buildDirty tiles).foldl (PathCache.dirtyStep cost) (renew.foldl (PathCache.recreateStep (c.buildDirty tiles) cost) (((c.buildDirty tiles).foldl PathCache.clearStep (renew.foldl PathCache.removeStep c)), [])))).1.nodes.get? b = some nb ∧ na.pos ∈ Nbh.allNeighbors nb.pos ∧
            (((c.buildDirty tiles).foldl (PathCache.dirtyStep cost) (renew.foldl (PathCache.recreateStep (c.buildDirty tiles) cost) (((c.buildDirty tiles).foldl PathCache.clearStep (renew.foldl PathCache.removeStep c)), [])))).1.node_at na.pos = some a ∧ alookup a nb.edges = none) := by
      intro a na b s hna hlk
      rcases hst4.mw.edge a na b s hna hlk with h1 | ⟨hbD, haD, halt, nb, hnb, hadj, hnone⟩
      · exact Or.inl h1
      · right
        rw [hmap]
        refine ⟨?_, ?_, nb, hnb, hadj, ?_, hnone⟩
        · obtain ⟨e, he, hm⟩ := List.mem_flatMap.mp hbD
          refine hcov e he b ?_
          unfold chunkSetAt
          rw [hgi2, hC]
          exact hm
        · intro hc2
          rcases (hst4.chg a hc2).1 with h2 | h2
          · exact haD h2
          · exact absurd halt (Nat.not_lt.mpr h2)
        · exact node_at_of_get (((c.buildDirty tiles).foldl (PathCache.dirtyStep cost) (renew.foldl (PathCache.recreateStep (c.buildDirty tiles) cost) (((c.buildDirty tiles).foldl PathCache.clearStep (renew.foldl PathCache.removeStep c)), [])))).1 hst4.mw.posn a na hna
    have hfin := connectPairs_WF (((c.buildDirty tiles).foldl (PathCache.dirtyStep cost) (renew.foldl (PathCache.recreateStep (c.buildDirty tiles) cost) (((c.buildDirty tiles).foldl PathCache.clearStep (renew.foldl PathCache.removeStep c)), [])))).1 pairs hget hEdgeOK hst4.mw.live hst4.mw.keys
      hst4.mw.posn hst4.mw.fresh hst4.mw.inb hst4.mw.loc hst4.mw.reg hst4.mw.mem
      hst4.mw.geo hst4.mw.num
    rw [hc'] at hfin
    refine ⟨hfin, ?_⟩
    rw [← hc']
    exact EdgesNodup_connectPairs (((c.buildDirty tiles).foldl (PathCache.dirtyStep cost) (renew.foldl (PathCache.recreateStep (c.buildDirty tiles) cost) (((c.buildDirty tiles).foldl PathCache.clearStep (renew.foldl PathCache.removeStep c)), [])))).1 pairs hst4.mw.enod

theorem Reachable_WF (c : PathCache) (h : Reachable c) :
    CacheWF c ∧ EdgesNodup c.nodes := by
  induction h with
  | base size cost cfg hcs =>
    exact ⟨newCache_WF size cost cfg hcs, EdgesNodup_newCache size cost cfg hcs⟩
  | step c tiles cost c' _ hok ih =>
    exact tiles_changed_WF c ih.1 ih.2 tiles cost c' hok

/-- C2: in every state observable at the public interface — after `new`
and after each returning `tiles_changed` call — the node graph's edges are
bidirectional: whenever node `a` stores an edge to node `b`, node `b`
stores an edge back to `a` with equal cost.  The invariant is
re-established by the final `connect_nodes` pass even though the pipeline
clears the edge maps of all nodes in dirty chunks, leaving reverse edges
of non-dirty neighbors dangling mid-call. -/
theorem public_edges_bidirectional (c : PathCache) (h : Reachable c)
    (a b : NodeID) (s : PathSegment) (hs : c.nodes.edgeSeg a b = some s) :
    ∃ s', c.nodes.edgeSeg b a = some s' ∧ s'.cost = s.cost :=
  (Reachable_WF c h).1.sym a b s hs

theorem public_edges_bidirectional_witness :
    ∃ s', (PathCache.newCache (1, 4) costB
        (PathCacheConfig.withChunkSize 2)).nodes.edgeSeg 0 1 = some s' ∧
      s'.cost = 1 :=
  public_edges_bidirectional
    (PathCache.newCache (1, 4) costB (PathCacheConfig.withChunkSize 2))
    (Reachable.base (1, 4) costB (PathCacheConfig.withChunkSize 2) (by decide))
    1 0 ⟨[(0, 2), (0, 1)], 1, true⟩ (by rfl)

end HPA


































